import Mathlib

/-!
# ITR.CS search engine: shallow embedding of `src/src/SearchEngine.cpp`

The embedding follows the C++ member functions of `ITR::SearchEngine` one by one.

Modelling conventions.
* `size_t` / `int` counters (numbers of variables, cuts, choices, samples, loop indices) are
  natural numbers: they are bounded by the sizes of the vectors the engine allocates.
* The packed words read by the scoring kernel are 32-bit: the shift
  `m[d][j] << (depth_ - d)` is computed in `std::uint32_t`, hence the explicit `% 2 ^ 32`.
* `double` arithmetic is exact rational arithmetic (`ℚ`).
* Undefined behaviour (an access past the end of a vector or a string, a division by zero, a
  recursion that cannot end) and the `throw` of the constructor are results of type `Fault`.
* The immutable members `data_` and `depth_` (set by the member initialiser list, never assigned
  again) are the parameters `data` and `depth`; the other members are the record `SearchEngine`.
* The worker threads started by `run` write disjoint blocks of `scores_` and read only data that
  no thread writes; `run` executes them one after the other, `tid = 0, 1, ...`; two different
  workers commute (`worker_comm`), so any other order gives the same result.
* The constructor `SearchEngine::SearchEngine` is `SearchEngine.construct` (the name
  `SearchEngine.SearchEngine` would hide the record type inside its own namespace).
-/

namespace ITR

/-- Abnormal ends of an execution. -/
inductive Fault where
  /-- The constructor's `throw "Invalid search depth!"`. -/
  | invalidDepth
  /-- An access past the end of a vector or string, or a division by zero. -/
  | outOfRange
  /-- A recursion that never reaches its exit test. -/
  | diverges
  deriving DecidableEq, Repr

/-- Modelled from the spec: the query interface of the dataset provider (section 6), whose
declaration used by `SearchEngine.cpp` is not part of the sources.  `cutMask v c j` and `act j`
are the 32-bit words with index `j` of the packed per-sample arrays; `cutInfo v c flag` receives
the value `mask & (1u << (depth_ - 1u - d))` as it is passed; the characters of the returned
string stand for the `char`s of the `std::string`. -/
structure Data where
  nSample : Nat
  nVar : Nat
  nCut : Nat → Nat
  cutMask : Nat → Nat → Nat → Nat
  act : Nat → Nat
  resp : Nat → ℚ
  T0 : ℚ
  cutInfo : Nat → Nat → Nat → String

/-- Modelled from the spec: the record stored in `choices_` (declared in the missing
`SearchEngine.h`), "an ordered tuple of `depth` (variableIndex, cutIndex) pairs": the two arrays
`vIdx` and `cIdx`, with `depth` entries each. -/
structure Choice where
  vIdx : List Nat
  cIdx : List Nat
  deriving DecidableEq, Repr

/-- The members of `SearchEngine` that the constructor body and `run` assign. -/
structure SearchEngine where
  nThreads_ : Nat
  totalChoices_ : Nat
  iter_ : Nat
  choices_ : List Choice
  scores_ : List ℚ

/-- A counting loop `for (i = lo; i < lo + cnt; ++i) body(i)` over a state, stopping at the
first fault. -/
def forLoop {σ : Type} (body : Nat → σ → Except Fault σ) : Nat → Nat → σ → Except Fault σ
  | _, 0, s => .ok s
  | lo, n + 1, s => body lo s >>= forLoop body (lo + 1) n

/-! ## `SearchEngine::worker`, lines 158-226 -/

/-- The statement `v[i] += x` on a `std::vector<double>`. -/
def accumulate (v : List ℚ) (i : Nat) (x : ℚ) : Except Fault (List ℚ) :=
  if h : i < v.length then .ok (v.set i (v[i] + x)) else .error .outOfRange

/-- Lines 160-171: the range `[first, last)` of choices of worker `tid`. -/
def SearchEngine.workerRange (nChoice nThreads tid : Nat) : Nat × Nat :=
  let choicePerWorker := nChoice / nThreads
  let choiceRemainder := nChoice % nThreads
  if tid < choiceRemainder then
    let first := (choicePerWorker + 1) * tid
    (first, first + choicePerWorker + 1)
  else
    let first := choicePerWorker * tid + choiceRemainder
    (first, first + choicePerWorker)

/-- Lines 179-183: `m[d] = data_->cutMask(choices_[i].vIdx[d], choices_[i].cIdx[d]).data()` for
`d = 0 .. depth_ - 1`. -/
def SearchEngine.cutMasks (data : Data) (depth : Nat) (ch : Choice) : List (Nat → Nat) :=
  (List.range depth).map fun d => data.cutMask (ch.vIdx.getD d 0) (ch.cIdx.getD d 0)

/-- Lines 196-197 and 210-211: `for d: idx += m[d][j] << (depth_ - d)`, over the masks from
dimension `d` on; the shift is a `std::uint32_t` shift. -/
def SearchEngine.addMasks (depth j : Nat) : List (Nat → Nat) → Nat → Nat → Nat
  | [], _, idx => idx
  | w :: rest, d, idx =>
    SearchEngine.addMasks depth j rest (d + 1) (idx + (w j <<< (depth - d)) % 2 ^ 32)

/-- Lines 200-205 and 217-220: `for (k = cnt - 1; k >= 0; --k) { v[idx & 0xF] += resp(j8 + k);
idx >>= 4; }`. -/
def SearchEngine.drain (resp : Nat → ℚ) (j8 : Nat) : Nat → Nat → List ℚ → Except Fault (List ℚ)
  | 0, _, v => .ok v
  | k + 1, idx, v =>
    accumulate v (idx &&& 0xF) (resp (j8 + k)) >>= SearchEngine.drain resp j8 k (idx >>> 4)

/-- Lines 194-206: one iteration `j` of the loop over the batches of eight samples. -/
def SearchEngine.batch (data : Data) (depth : Nat) (m : List (Nat → Nat)) (j : Nat)
    (v : List ℚ) : Except Fault (List ℚ) :=
  let idx := SearchEngine.addMasks depth j m 0 (data.act j)
  let j8 := j <<< 3
  SearchEngine.drain data.resp j8 8 idx v

/-- Lines 208-221: the tail path for the last `nSample % 8` samples. -/
def SearchEngine.tail (data : Data) (depth : Nat) (m : List (Nat → Nat)) (v : List ℚ) :
    Except Fault (List ℚ) :=
  let remainder := data.nSample % 8
  let nBatches := data.nSample >>> 3
  if remainder ≠ 0 then
    let idx := SearchEngine.addMasks depth nBatches m 0 (data.act nBatches)
    let idx := idx >>> (32 - 4 * remainder)
    let j8 := nBatches <<< 3
    SearchEngine.drain data.resp j8 remainder idx v
  else .ok v

/-- Lines 177-221: the accumulator `v` of one choice after all samples. -/
def SearchEngine.accumulator (data : Data) (depth : Nat) (ch : Choice) : Except Fault (List ℚ) :=
  let v : List ℚ := List.replicate (1 <<< (depth + 1)) 0
  let m := SearchEngine.cutMasks data depth ch
  let nBatches := data.nSample >>> 3
  forLoop (SearchEngine.batch data depth m) 0 nBatches v >>= SearchEngine.tail data depth m

/-- Line 224: `ans[j] = v[2 * j + 1] - v[2 * j]` with `ans = scores_.data() + base`. -/
def SearchEngine.writeScore (v : List ℚ) (base j : Nat) (scores : List ℚ) :
    Except Fault (List ℚ) :=
  match v[2 * j + 1]?, v[2 * j]? with
  | some a, some b =>
    if base + j < scores.length then .ok (scores.set (base + j) (a - b)) else .error .outOfRange
  | _, _ => .error .outOfRange

/-- Lines 176-225: the body of the loop over the choices of a worker, for choice `i`. -/
def SearchEngine.scoreChoice (data : Data) (depth : Nat) (i : Nat) (s : SearchEngine) :
    Except Fault SearchEngine :=
  let stride := 1 <<< depth
  match s.choices_[i]? with
  | none => .error .outOfRange
  | some ch =>
    SearchEngine.accumulator data depth ch >>= fun v =>
    forLoop (SearchEngine.writeScore v (i * stride)) 0 stride s.scores_ >>= fun sc =>
    .ok { s with scores_ := sc }

/-- The member function `worker(tid)`. -/
def SearchEngine.worker (data : Data) (depth : Nat) (tid : Nat) (s : SearchEngine) :
    Except Fault SearchEngine :=
  if s.nThreads_ = 0 then .error .outOfRange
  else
    let r := SearchEngine.workerRange s.choices_.length s.nThreads_ tid
    forLoop (SearchEngine.scoreChoice data depth) r.1 (r.2 - r.1) s

/-- The member function `run()`: the workers `tid = 0 .. nThreads_ - 1`, then the join. -/
def SearchEngine.run (data : Data) (depth : Nat) (s : SearchEngine) : Except Fault SearchEngine :=
  forLoop (SearchEngine.worker data depth) 0 s.nThreads_ s

/-! ## The naive per-sample kernel of the specification (section 4.3) -/

/-- The nibble of sample `8 j + k` in a packed word: bits `[4 (7 - k), 4 (7 - k) + 3]`. -/
def sampleNibble (w k : Nat) : Nat := (w >>> (4 * (7 - k))) &&& 0xF

/-- The action code of sample `s`. -/
def actionCode (data : Data) (s : Nat) : Nat := sampleNibble (data.act (s / 8)) (s % 8)

/-- The membership bit of sample `s` for cut `c` of variable `v`. -/
def membershipBit (data : Data) (v c s : Nat) : Nat :=
  sampleNibble (data.cutMask v c (s / 8)) (s % 8)

/-- The bucket of the specification:
`actionCode(sample) + Σ_d membershipBit(variable_d, cut_d, sample) << (depth - d)`. -/
def bucket (data : Data) (depth : Nat) (ch : Choice) (s : Nat) : Nat :=
  actionCode data s +
    ((List.range depth).map fun d =>
      membershipBit data (ch.vIdx.getD d 0) (ch.cIdx.getD d 0) s * 2 ^ (depth - d)).sum

/-- The naive loop of the specification: for every sample add its response into `v[bucket]`,
starting from `2 ^ (depth + 1)` zeros. -/
def naiveAccumulator (data : Data) (depth : Nat) (ch : Choice) : List ℚ :=
  (List.range data.nSample).foldl
    (fun v s => v.modify (fun x => x + data.resp s) (bucket data depth ch s))
    (List.replicate (2 ^ (depth + 1)) 0)

/-! ## The constructor and the enumeration of the choices, lines 12-33 and 88-156 -/

/-- The member function `countChoices`, lines 116-121. -/
def SearchEngine.countChoices (data : Data) (choices : List Nat) (s : SearchEngine) :
    SearchEngine :=
  let nchoices := choices.foldl (fun n vidx => n * data.nCut vidx) 1
  { s with totalChoices_ := s.totalChoices_ + nchoices }

/-- Lines 146-147: `choices_[iter_].vIdx[d] = vIdx[d]; choices_[iter_].cIdx[d] = cIdx[d];`. -/
def SearchEngine.storeEntry (vIdx cIdx : List Nat) (d : Nat) (s : SearchEngine) :
    Except Fault SearchEngine :=
  match s.choices_[s.iter_]?, vIdx[d]?, cIdx[d]? with
  | some ch, some v, some c =>
    if d < ch.vIdx.length ∧ d < ch.cIdx.length then
      .ok { s with choices_ := s.choices_.set s.iter_ ⟨ch.vIdx.set d v, ch.cIdx.set d c⟩ }
    else .error .outOfRange
  | _, _, _ => .error .outOfRange

/-- Lines 145-150: the loop over `d` of the two assignments, then `iter_++`. -/
def SearchEngine.storeChoice (depth : Nat) (vIdx cIdx : List Nat) (s : SearchEngine) :
    Except Fault SearchEngine :=
  forLoop (SearchEngine.storeEntry vIdx cIdx) 0 depth s >>= fun s =>
  .ok { s with iter_ := s.iter_ + 1 }

/-- The member function `setChoicesHelper`, lines 135-156.  `cIdx` is passed by value.  The exit
test is an equality: from `cIdx[curr] > cBound[curr]` the recursion would count upwards without
end, which is the result `diverges`.  The reference parameter `iter` is never read or written
(the code uses the member `iter_`) and is left out. -/
def SearchEngine.setChoicesHelper (depth : Nat) (vIdx cIdx cBound : List Nat) (curr : Nat)
    (s : SearchEngine) : Except Fault SearchEngine :=
  match hc : cIdx[curr]?, hb : cBound[curr]? with
  | some c, some b =>
    if c = b then .ok s
    else if hlt : b < c then .error .diverges
    else
      (if curr < depth - 1 then
        SearchEngine.setChoicesHelper depth vIdx cIdx cBound (curr + 1) s
      else
        SearchEngine.storeChoice depth vIdx cIdx s) >>= fun s1 =>
      SearchEngine.setChoicesHelper depth vIdx (cIdx.set curr (c + 1)) cBound curr s1
  | _, _ => .error .outOfRange
termination_by (depth - curr, cBound.getD curr 0 - cIdx.getD curr 0)
decreasing_by
  · apply Prod.Lex.left
    omega
  · apply Prod.Lex.right
    have h1 : curr < cIdx.length := by
      rcases Nat.lt_or_ge curr cIdx.length with h | h
      · exact h
      · rw [List.getElem?_eq_none h] at hc
        cases hc
    have hc1 : cIdx[curr]?.getD 0 = c := by rw [hc]; rfl
    have hb1 : cBound[curr]?.getD 0 = b := by rw [hb]; rfl
    simp only [List.getD_eq_getElem?_getD]
    rw [List.getElem?_set_self h1, hc1, hb1]
    simp only [Option.getD_some]
    omega

/-- The member function `setChoices`, lines 123-133. -/
def SearchEngine.setChoices (data : Data) (depth : Nat) (choices : List Nat) (s : SearchEngine) :
    Except Fault SearchEngine :=
  let cIdx := choices.map fun _ => 0
  let cBound := choices.map fun vidx => data.nCut vidx
  SearchEngine.setChoicesHelper depth choices cIdx cBound 0 s

/-- The member function `combination`, lines 88-114.  `option` loses its first element in every
recursive call; on the empty `option` the test `option.size() < nchoices` holds whenever
`nchoices` is not 0.  `curr` never has more than `depth_` elements, so `depth_ - curr.size()`
does not wrap.  The function-local `static size_t iter` only feeds the unused reference
parameter of `setChoices` and is left out. -/
def SearchEngine.combination (data : Data) (depth : Nat) (curr : List Nat) :
    List Nat → Char → SearchEngine → Except Fault SearchEngine
  | [], mode, s =>
    let nchoices := depth - curr.length
    if nchoices = 0 then
      if mode = 'c' then .ok (SearchEngine.countChoices data curr s)
      else SearchEngine.setChoices data depth curr s
    else .ok s
  | o :: option, mode, s =>
    let nchoices := depth - curr.length
    if nchoices = 0 then
      if mode = 'c' then .ok (SearchEngine.countChoices data curr s)
      else SearchEngine.setChoices data depth curr s
    else if (o :: option).length < nchoices then .ok s
    else
      let curr1 := curr ++ [o]
      SearchEngine.combination data depth curr option mode s >>= fun s1 =>
      SearchEngine.combination data depth curr1 option mode s1

/-- The effect of `std::vector::resize(n)`: keep the first `n` elements, pad with
value-initialised elements. -/
def resize {α : Type} (xs : List α) (n : Nat) (dflt : α) : List α :=
  xs.take n ++ List.replicate (n - xs.length) dflt

/-- A value-initialised `Choice`: `depth` zero entries in each array. -/
def Choice.zero (depth : Nat) : Choice := ⟨List.replicate depth 0, List.replicate depth 0⟩

/-- Modelled from the spec: the members before the constructor body runs.  The running total
`totalChoices_` starts at zero ("add ... to a running total") and the two vectors are empty;
their in-class initialisers are in the missing `SearchEngine.h`.  `nThreads_` and `iter_` are
assigned by the body before they are read; their value before that is immaterial (here 0). -/
def SearchEngine.fresh : SearchEngine :=
  { nThreads_ := 0, totalChoices_ := 0, iter_ := 0, choices_ := [], scores_ := [] }

/-- The constructor `SearchEngine::SearchEngine`, lines 12-33, with
`hardware = std::thread::hardware_concurrency()`.  The result is the members as they are when
the body ends and, when it ends by a fault, the fault and the members at the start of the
failing statement. -/
def SearchEngine.construct (data : Data) (depth nThreads hardware : Nat) :
    SearchEngine × Option Fault :=
  let s := SearchEngine.fresh
  if depth ≠ 1 ∧ depth ≠ 2 ∧ depth ≠ 3 then (s, some .invalidDepth)
  else
    let s := { s with nThreads_ := min nThreads hardware }
    let vIdx := List.range data.nVar
    match SearchEngine.combination data depth [] vIdx 'c' s with
    | .error f => (s, some f)
    | .ok s =>
      let s := { s with choices_ := resize s.choices_ s.totalChoices_ (Choice.zero depth) }
      let s := { s with scores_ := resize s.scores_ (s.totalChoices_ <<< depth) 0 }
      let s := { s with iter_ := 0 }
      match SearchEngine.combination data depth [] vIdx 's' s with
      | .error f => (s, some f)
      | .ok s => (s, none)

/-! ## `SearchEngine::report`, lines 55-86 -/

/-- The first element of `b :: ys` that no element of the list precedes under `comp`, when
`comp` is a strict weak order. -/
def bestOf (comp : Nat → Nat → Bool) : Nat → List Nat → Nat
  | b, [] => b
  | b, y :: ys => if comp y b then bestOf comp y ys else bestOf comp b ys

/-- Modelled from the C++ standard: `std::partial_sort(first, middle, last, comp)` with
`middle = first + k`.  Afterwards the first `k` positions hold the `k` elements that come first
under `comp`, in order, and the other elements follow in an order the standard leaves open
(here: the order they had).  The model selects the best remaining element `k` times. -/
def partial_sort (comp : Nat → Nat → Bool) : Nat → List Nat → List Nat
  | 0, xs => xs
  | _ + 1, [] => []
  | k + 1, x :: xs =>
    let b := bestOf comp x xs
    b :: partial_sort comp k ((x :: xs).erase b)

/-- The comparator of line 66-68: `scores_[i1] > scores_[i2]`. -/
def SearchEngine.scoreGreater (s : SearchEngine) (i1 i2 : Nat) : Bool :=
  decide (s.scores_.getD i1 0 > s.scores_.getD i2 0)

/-- Lines 57-68: the capped `nTop` and the vector `index` after the partial sort. -/
def SearchEngine.ranking (s : SearchEngine) (nTop : Nat) : Except Fault (Nat × List Nat) :=
  let nTop := min nTop s.choices_.length
  let index := List.range s.scores_.length
  if nTop ≤ index.length then .ok (nTop, partial_sort s.scoreGreater nTop index)
  else .error .outOfRange

/-- The statement `rule.pop_back()`. -/
def pop_back (rule : String) : Except Fault String :=
  if rule.data = [] then .error .outOfRange else .ok ⟨rule.data.dropLast⟩

/-- One line `Score = <score>, Rule = <rule>` of the report. -/
structure ReportLine where
  score : ℚ
  rule : String
  deriving DecidableEq, Repr

/-- Lines 77-81: one step `rule += data_->cutInfo(choices_[cID].vIdx[d], choices_[cID].cIdx[d],
mask & (1u << (depth_ - 1u - d)))` of the loop over `d`. -/
def SearchEngine.addFragment (data : Data) (depth : Nat) (ch : Choice) (mask d : Nat)
    (rule : String) : Except Fault String :=
  match ch.vIdx[d]?, ch.cIdx[d]? with
  | some v, some c => .ok (rule ++ data.cutInfo v c (mask &&& (1 <<< (depth - 1 - d))))
  | _, _ => .error .outOfRange

/-- Lines 70-85: the body of the output loop for the position `i` of `index`. -/
def SearchEngine.reportLine (data : Data) (depth : Nat) (s : SearchEngine) (index : List Nat)
    (i : Nat) : Except Fault ReportLine :=
  let T0 := data.T0
  let scale : ℚ := 1 / (data.nSample : ℚ)
  match index[i]? with
  | none => .error .outOfRange
  | some sID =>
    let cID := sID >>> depth
    let mask := sID % (1 <<< depth)
    match s.scores_[sID]?, s.choices_[cID]? with
    | some raw, some ch =>
      let score := (T0 + raw) * scale
      forLoop (SearchEngine.addFragment data depth ch mask) 0 depth "" >>= fun rule =>
      pop_back rule >>= fun rule =>
      pop_back rule >>= fun rule =>
      .ok ⟨score, rule⟩
    | _, _ => .error .outOfRange

/-- The member function `report(nTop)`: the lines written to the standard output, in order. -/
def SearchEngine.report (data : Data) (depth : Nat) (s : SearchEngine) (nTop : Nat) :
    Except Fault (List ReportLine) :=
  SearchEngine.ranking s nTop >>= fun r =>
  (List.range r.1).mapM (SearchEngine.reportLine data depth s r.2)

/-! ## A small dataset for the concrete instances -/

/-- Three variables with 2, 3 and 4 cuts and eleven samples (one full batch and a tail of
three); every nibble of the packed words is 0 or 1. -/
def demoData : Data where
  nSample := 11
  nVar := 3
  nCut := fun v => [2, 3, 4].getD v 0
  cutMask := fun v _ _ => if v = 0 then 0x01100110 else 0x10101010
  act := fun _ => 0x11001100
  resp := fun s => (s : ℚ) + 1
  T0 := 0
  cutInfo := fun _ _ flag => if flag = 0 then "lo, " else "hi, "

/-! ## The enumeration in closed form -/

/-- The cut tuples below the bounds `cBound`, in lexicographic order with the last dimension
varying fastest: the tuples that the nested recursion of `setChoicesHelper` stores
(`setChoices_eq`). -/
def cutTuples : List Nat → List (List Nat)
  | [] => [[]]
  | b :: bs => (List.range b).flatMap fun c => (cutTuples bs).map (List.cons c)

/-- The choice list that the constructor builds (`construct_eq`): the variable combinations in
the order in which `combination` completes them, each with its cut tuples. -/
def enumeration (data : Data) (depth : Nat) : List Choice :=
  (List.sublistsLen depth (List.range data.nVar)).flatMap fun vs =>
    (cutTuples (vs.map data.nCut)).map (Choice.mk vs)

/-- The mixed-radix digits of `k` for the given radices, most significant digit first. -/
def mixedRadix : List Nat → Nat → List Nat
  | [], _ => []
  | r :: rs, k => k / rs.prod % r :: mixedRadix rs k

/-- The score table after the block of choice `i` has been overwritten with the differences
`v[2 m + 1] - v[2 m]` of the accumulator `v`: the effect of lines 223-224
(`scoreChoice_closed`). -/
def blockWrite (depth i : Nat) (v scores : List ℚ) : List ℚ :=
  (List.range scores.length).map fun idx =>
    if i * 2 ^ depth ≤ idx ∧ idx < i * 2 ^ depth + 2 ^ depth then
      v.getD (2 * (idx - i * 2 ^ depth) + 1) 0 - v.getD (2 * (idx - i * 2 ^ depth)) 0
    else scores.getD idx 0

/-- The members after `report(nTop)`.  `report` is a `const` member function: its body, lines
55-86, assigns no member; it reads `choices_` and `scores_`, works on the local vector `index`
and writes to the standard output.  When it ends normally the members are those it started
with. -/
def SearchEngine.afterReport (data : Data) (depth : Nat) (s : SearchEngine) (nTop : Nat) :
    Except Fault SearchEngine :=
  SearchEngine.report data depth s nTop >>= fun _ => .ok s

/-- Lines 174-178 and 224: the flat index of the entry `ans[m]` that the worker writes for choice
`i`, with `ans = scores_.data() + i * stride` and `stride = 1 << depth_`. -/
def SearchEngine.flatIndex (depth i m : Nat) : Nat := i * (1 <<< depth) + m

/-- Lines 73-74: the choice id `cID = sID >> depth_` and the direction mask
`mask = sID % (1 << depth_)` that `report` decodes from the flat index `sID`. -/
def SearchEngine.decode (depth sID : Nat) : Nat × Nat := (sID >>> depth, sID % (1 <<< depth))

/-- Line 81: the third argument `mask & (1u << (depth_ - 1u - d))` of the call of `cutInfo` for
dimension `d`, the direction flag; for `d < depth_ ≤ 3` neither the subtraction nor the shift
wraps. -/
def SearchEngine.directionFlag (depth mask d : Nat) : Nat := mask &&& (1 <<< (depth - 1 - d))

/-! # Theorems -/

/-! ## Basic facts: results, loops, tables -/

@[simp] theorem ok_bind {α β : Type} (a : α) (f : α → Except Fault β) :
    (Except.ok a >>= f) = f a := rfl

@[simp] theorem error_bind {α β : Type} (e : Fault) (f : α → Except Fault β) :
    ((Except.error e : Except Fault α) >>= f) = Except.error e := rfl

theorem bind_congr_ok {α β : Type} (x : Except Fault α) (f g : α → Except Fault β)
    (h : ∀ a, x = .ok a → f a = g a) : (x >>= f) = (x >>= g) := by
  cases x with
  | error e => rfl
  | ok a => exact h a rfl

@[simp] theorem forLoop_zero {σ : Type} (body : Nat → σ → Except Fault σ) (lo : Nat) (s : σ) :
    forLoop body lo 0 s = .ok s := rfl

theorem forLoop_succ {σ : Type} (body : Nat → σ → Except Fault σ) (lo n : Nat) (s : σ) :
    forLoop body lo (n + 1) s = (body lo s >>= forLoop body (lo + 1) n) := rfl

/-- A loop over `a + b` iterations is the loop over the first `a` followed by the loop over the
next `b`. -/
theorem forLoop_add {σ : Type} (body : Nat → σ → Except Fault σ) (a b : Nat) :
    ∀ (lo : Nat) (s : σ),
      forLoop body lo (a + b) s = (forLoop body lo a s >>= forLoop body (lo + a) b) := by
  induction a with
  | zero => intro lo s; simp
  | succ a ih =>
    intro lo s
    rw [show a + 1 + b = (a + b) + 1 by omega, forLoop_succ, forLoop_succ]
    cases h : body lo s with
    | error e => simp
    | ok s1 =>
      simp only [ok_bind]
      rw [ih (lo + 1) s1, show lo + 1 + a = lo + (a + 1) by omega]

theorem forLoop_succ_last {σ : Type} (body : Nat → σ → Except Fault σ) (lo n : Nat) (s : σ) :
    forLoop body lo (n + 1) s = (forLoop body lo n s >>= body (lo + n)) := by
  rw [forLoop_add]
  cases forLoop body lo n s with
  | error e => simp
  | ok s1 =>
    simp only [ok_bind, forLoop_succ, forLoop_zero]
    cases body (lo + n) s1 <;> simp

theorem replicate_eq_tab (L : Nat) (x : ℚ) : List.replicate L x = (List.range L).map fun _ => x := by
  apply List.ext_getElem <;> simp

theorem accumulate_tab (L : Nat) (f : Nat → ℚ) (i : Nat) (x : ℚ) (hi : i < L) :
    accumulate ((List.range L).map f) i x =
      .ok ((List.range L).map fun b => f b + if b = i then x else 0) := by
  unfold accumulate
  rw [dif_pos (by simpa using hi)]
  congr 1
  apply List.ext_getElem
  · simp
  · intro n h1 h2
    simp only [List.length_map, List.length_range] at h2
    simp only [List.getElem_set, List.getElem_map, List.getElem_range]
    by_cases h : i = n
    · subst h; simp
    · simp [h, Ne.symm h]

theorem modify_tab (L : Nat) (f : Nat → ℚ) (i : Nat) (g : ℚ → ℚ) :
    ((List.range L).map f).modify g i =
      (List.range L).map fun b => if b = i then g (f b) else f b := by
  apply List.ext_getElem
  · simp
  · intro n h1 h2
    simp only [List.length_map, List.length_range] at h2
    simp only [List.getElem_modify, List.getElem_map, List.getElem_range]
    by_cases h : i = n
    · subst h; simp
    · simp [h, Ne.symm h]

/-! ## Nibble arithmetic of the packed words -/

theorem sampleNibble_eq (w k : Nat) : sampleNibble w k = w / 16 ^ (7 - k) % 16 := by
  unfold sampleNibble
  rw [Nat.shiftRight_eq_div_pow, show (0xF : Nat) = 2 ^ 4 - 1 by norm_num,
    Nat.and_pow_two_sub_one_eq_mod, pow_mul]
  norm_num

/-- A 32-bit word whose eight nibbles are 0 or 1 has all its base-16 digits at most 1. -/
theorem digits_le_one (w : Nat) (hw : w < 2 ^ 32) (hn : ∀ k, k < 8 → sampleNibble w k ≤ 1) :
    ∀ i, w / 16 ^ i % 16 ≤ 1 := by
  intro i
  rcases Nat.lt_or_ge i 8 with h | h
  · have := hn (7 - i) (by omega)
    rw [sampleNibble_eq, show 7 - (7 - i) = i by omega] at this
    exact this
  · have h16 : w < 16 ^ i := by
      calc w < 2 ^ 32 := hw
        _ = 16 ^ 8 := by norm_num
        _ ≤ 16 ^ i := Nat.pow_le_pow_right (by norm_num) h
    rw [Nat.div_eq_of_lt h16]
    simp

theorem word_le (w : Nat) (hw : w < 2 ^ 32) (hn : ∀ k, k < 8 → sampleNibble w k ≤ 1) :
    w ≤ 0x11111111 := by
  have h := digits_le_one w hw hn
  have h0 := h 0
  have h1 := h 1
  have h2 := h 2
  have h3 := h 3
  have h4 := h 4
  have h5 := h 5
  have h6 := h 6
  have h7 := h 7
  norm_num at h0 h1 h2 h3 h4 h5 h6 h7 hw
  omega

/-- The 32-bit shift of line 197 loses no bit on such a word. -/
theorem shift32_eq (w t : Nat) (ht : t ≤ 3) (hw : w < 2 ^ 32)
    (hn : ∀ k, k < 8 → sampleNibble w k ≤ 1) : (w <<< t) % 2 ^ 32 = w * 2 ^ t := by
  have h := word_le w hw hn
  rw [Nat.shiftLeft_eq]
  apply Nat.mod_eq_of_lt
  have : t = 0 ∨ t = 1 ∨ t = 2 ∨ t = 3 := by omega
  rcases this with rfl | rfl | rfl | rfl <;> norm_num <;> omega

/-- Digit-wise addition without carry: the base-16 digits of `a + 8 x + 4 y + 2 z`. -/
theorem digit_combine : ∀ (i a x y z : Nat),
    (∀ i, a / 16 ^ i % 16 ≤ 1) → (∀ i, x / 16 ^ i % 16 ≤ 1) →
    (∀ i, y / 16 ^ i % 16 ≤ 1) → (∀ i, z / 16 ^ i % 16 ≤ 1) →
    (a + 8 * x + 4 * y + 2 * z) / 16 ^ i % 16 =
      a / 16 ^ i % 16 + 8 * (x / 16 ^ i % 16) + 4 * (y / 16 ^ i % 16) + 2 * (z / 16 ^ i % 16) := by
  intro i
  induction i with
  | zero =>
    intro a x y z ha hx hy hz
    have ha0 := ha 0
    have hx0 := hx 0
    have hy0 := hy 0
    have hz0 := hz 0
    simp only [pow_zero, Nat.div_one] at *
    omega
  | succ i ih =>
    intro a x y z ha hx hy hz
    have ha0 := ha 0
    have hx0 := hx 0
    have hy0 := hy 0
    have hz0 := hz 0
    simp only [pow_zero, Nat.div_one] at ha0 hx0 hy0 hz0
    have shift : ∀ w : Nat, (∀ i, w / 16 ^ i % 16 ≤ 1) → ∀ i, w / 16 / 16 ^ i % 16 ≤ 1 := by
      intro w hw i
      have := hw (i + 1)
      rwa [pow_succ, Nat.mul_comm, ← Nat.div_div_eq_div_mul] at this
    have key : ∀ w : Nat, w / 16 ^ (i + 1) = w / 16 / 16 ^ i := by
      intro w
      rw [pow_succ, Nat.mul_comm, ← Nat.div_div_eq_div_mul]
    have hdiv : (a + 8 * x + 4 * y + 2 * z) / 16 = a / 16 + 8 * (x / 16) + 4 * (y / 16) + 2 * (z / 16) := by
      omega
    rw [key, key a, key x, key y, key z, hdiv]
    exact ih _ _ _ _ (shift a ha) (shift x hx) (shift y hy) (shift z hz)

/-! ## The scoring kernel -/

/-- Every base-16 digit of the word 0 is 0. -/
theorem zero_digits (i : Nat) : 0 / 16 ^ i % 16 ≤ 1 := by simp

theorem bucket_split (data : Data) (depth : Nat) (ch : Choice) (j k : Nat) (hk : k < 8) :
    bucket data depth ch (8 * j + k) =
      sampleNibble (data.act j) k +
        ((List.range depth).map fun d =>
          sampleNibble (data.cutMask (ch.vIdx.getD d 0) (ch.cIdx.getD d 0) j) k *
            2 ^ (depth - d)).sum := by
  have h1 : (8 * j + k) / 8 = j := by omega
  have h2 : (8 * j + k) % 8 = k := by omega
  simp only [bucket, actionCode, membershipBit, h1, h2]

/-- The nibble of sample `8 j + k` in the index word built at lines 195-197 is the bucket of
that sample. -/
theorem index_digit (data : Data) (depth : Nat) (ch : Choice)
    (hdepth : depth = 1 ∨ depth = 2 ∨ depth = 3)
    (hact : ∀ j, data.act j < 2 ^ 32 ∧ ∀ k, k < 8 → sampleNibble (data.act j) k ≤ 1)
    (hmask : ∀ d, d < depth → ∀ j,
      data.cutMask (ch.vIdx.getD d 0) (ch.cIdx.getD d 0) j < 2 ^ 32 ∧
      ∀ k, k < 8 → sampleNibble (data.cutMask (ch.vIdx.getD d 0) (ch.cIdx.getD d 0) j) k ≤ 1)
    (j k : Nat) (hk : k < 8) :
    SearchEngine.addMasks depth j (SearchEngine.cutMasks data depth ch) 0 (data.act j)
        / 16 ^ (7 - k) % 16 = bucket data depth ch (8 * j + k) := by
  have da := digits_le_one _ (hact j).1 (hact j).2
  rw [bucket_split data depth ch j k hk]
  rcases hdepth with rfl | rfl | rfl
  · have d0 := digits_le_one _ (hmask 0 (by omega) j).1 (hmask 0 (by omega) j).2
    have e0 := shift32_eq _ 1 (by omega) (hmask 0 (by omega) j).1 (hmask 0 (by omega) j).2
    have h := digit_combine (7 - k) (data.act j) 0 0 _ da zero_digits zero_digits d0
    have hW : SearchEngine.addMasks 1 j (SearchEngine.cutMasks data 1 ch) 0 (data.act j) =
        data.act j + 8 * 0 + 4 * 0 +
          2 * data.cutMask (ch.vIdx.getD 0 0) (ch.cIdx.getD 0 0) j := by
      simp only [SearchEngine.cutMasks, SearchEngine.addMasks, List.range_succ, List.range_zero,
        List.nil_append, List.map_cons, List.map_nil, Nat.sub_zero, e0]
      omega
    rw [hW, h]
    simp only [List.range_succ, List.range_zero, List.nil_append, List.map_cons, List.map_nil,
      List.sum_cons, List.sum_nil, sampleNibble_eq]
    simp
    omega
  · have d0 := digits_le_one _ (hmask 0 (by omega) j).1 (hmask 0 (by omega) j).2
    have d1 := digits_le_one _ (hmask 1 (by omega) j).1 (hmask 1 (by omega) j).2
    have e0 := shift32_eq _ 2 (by omega) (hmask 0 (by omega) j).1 (hmask 0 (by omega) j).2
    have e1 := shift32_eq _ 1 (by omega) (hmask 1 (by omega) j).1 (hmask 1 (by omega) j).2
    have h := digit_combine (7 - k) (data.act j) 0 _ _ da zero_digits d0 d1
    have hW : SearchEngine.addMasks 2 j (SearchEngine.cutMasks data 2 ch) 0 (data.act j) =
        data.act j + 8 * 0 +
          4 * data.cutMask (ch.vIdx.getD 0 0) (ch.cIdx.getD 0 0) j +
          2 * data.cutMask (ch.vIdx.getD 1 0) (ch.cIdx.getD 1 0) j := by
      simp only [SearchEngine.cutMasks, SearchEngine.addMasks, List.range_succ, List.range_zero,
        List.nil_append, List.map_cons, List.map_nil, List.cons_append, Nat.sub_zero,
        Nat.zero_add, show 2 - 1 = 1 by rfl, e0, e1]
      omega
    rw [hW, h]
    simp only [List.range_succ, List.range_zero, List.nil_append, List.map_cons, List.map_nil,
      List.cons_append, List.sum_cons, List.sum_nil, sampleNibble_eq]
    simp
    omega
  · have d0 := digits_le_one _ (hmask 0 (by omega) j).1 (hmask 0 (by omega) j).2
    have d1 := digits_le_one _ (hmask 1 (by omega) j).1 (hmask 1 (by omega) j).2
    have d2 := digits_le_one _ (hmask 2 (by omega) j).1 (hmask 2 (by omega) j).2
    have e0 := shift32_eq _ 3 (by omega) (hmask 0 (by omega) j).1 (hmask 0 (by omega) j).2
    have e1 := shift32_eq _ 2 (by omega) (hmask 1 (by omega) j).1 (hmask 1 (by omega) j).2
    have e2 := shift32_eq _ 1 (by omega) (hmask 2 (by omega) j).1 (hmask 2 (by omega) j).2
    have h := digit_combine (7 - k) (data.act j) _ _ _ da d0 d1 d2
    have hW : SearchEngine.addMasks 3 j (SearchEngine.cutMasks data 3 ch) 0 (data.act j) =
        data.act j +
          8 * data.cutMask (ch.vIdx.getD 0 0) (ch.cIdx.getD 0 0) j +
          4 * data.cutMask (ch.vIdx.getD 1 0) (ch.cIdx.getD 1 0) j +
          2 * data.cutMask (ch.vIdx.getD 2 0) (ch.cIdx.getD 2 0) j := by
      simp only [SearchEngine.cutMasks, SearchEngine.addMasks, List.range_succ, List.range_zero,
        List.nil_append, List.map_cons, List.map_nil, List.cons_append, Nat.sub_zero,
        Nat.zero_add, show 3 - 1 = 2 by rfl, show 3 - 2 = 1 by rfl, show 1 + 1 = 2 by rfl,
        e0, e1, e2]
      omega
    rw [hW, h]
    simp only [List.range_succ, List.range_zero, List.nil_append, List.map_cons, List.map_nil,
      List.cons_append, List.sum_cons, List.sum_nil, sampleNibble_eq]
    simp
    omega

theorem bucket_lt (data : Data) (depth : Nat) (ch : Choice)
    (hdepth : depth = 1 ∨ depth = 2 ∨ depth = 3)
    (hact : ∀ j, data.act j < 2 ^ 32 ∧ ∀ k, k < 8 → sampleNibble (data.act j) k ≤ 1)
    (hmask : ∀ d, d < depth → ∀ j,
      data.cutMask (ch.vIdx.getD d 0) (ch.cIdx.getD d 0) j < 2 ^ 32 ∧
      ∀ k, k < 8 → sampleNibble (data.cutMask (ch.vIdx.getD d 0) (ch.cIdx.getD d 0) j) k ≤ 1)
    (s : Nat) : bucket data depth ch s < 2 ^ (depth + 1) := by
  have hk : s % 8 < 8 := Nat.mod_lt _ (by norm_num)
  have ha := (hact (s / 8)).2 (s % 8) hk
  rcases hdepth with rfl | rfl | rfl
  · have h0 := (hmask 0 (by omega) (s / 8)).2 (s % 8) hk
    simp only [bucket, actionCode, membershipBit, List.range_succ, List.range_zero,
      List.nil_append, List.map_cons, List.map_nil, List.cons_append, List.sum_cons,
      List.sum_nil]
    norm_num at *
    omega
  · have h0 := (hmask 0 (by omega) (s / 8)).2 (s % 8) hk
    have h1 := (hmask 1 (by omega) (s / 8)).2 (s % 8) hk
    simp only [bucket, actionCode, membershipBit, List.range_succ, List.range_zero,
      List.nil_append, List.map_cons, List.map_nil, List.cons_append, List.sum_cons,
      List.sum_nil]
    norm_num at *
    omega
  · have h0 := (hmask 0 (by omega) (s / 8)).2 (s % 8) hk
    have h1 := (hmask 1 (by omega) (s / 8)).2 (s % 8) hk
    have h2 := (hmask 2 (by omega) (s / 8)).2 (s % 8) hk
    simp only [bucket, actionCode, membershipBit, List.range_succ, List.range_zero,
      List.nil_append, List.map_cons, List.map_nil, List.cons_append, List.sum_cons,
      List.sum_nil]
    norm_num at *
    omega

/-- The loop of lines 200-205 on a table: it adds `resp (j8 + k)` to the entry selected by the
`k`-th nibble read, for `k = cnt - 1` down to `0`. -/
theorem drain_tab (resp : Nat → ℚ) (j8 L : Nat) (n : Nat → Nat) :
    ∀ (cnt idx : Nat) (f : Nat → ℚ),
      (∀ k, k < cnt → idx / 16 ^ (cnt - 1 - k) % 16 = n k ∧ n k < L) →
      SearchEngine.drain resp j8 cnt idx ((List.range L).map f) =
        .ok ((List.range L).map fun b =>
          f b + ∑ k ∈ Finset.range cnt, if b = n k then resp (j8 + k) else 0) := by
  intro cnt
  induction cnt with
  | zero => intro idx f _; simp [SearchEngine.drain]
  | succ c ih =>
    intro idx f h
    have hc := h c (by omega)
    simp only [show c + 1 - 1 - c = 0 by omega, pow_zero, Nat.div_one] at hc
    have hand : idx &&& 0xF = idx % 16 := by
      rw [show (0xF : Nat) = 2 ^ 4 - 1 by norm_num, Nat.and_pow_two_sub_one_eq_mod]
    have hshr : idx >>> 4 = idx / 16 := by
      rw [Nat.shiftRight_eq_div_pow]
    unfold SearchEngine.drain
    rw [hand, hshr, hc.1, accumulate_tab L f (n c) _ hc.2, ok_bind, ih]
    · congr 1
      apply List.map_congr_left
      intro b _
      rw [Finset.sum_range_succ]
      ring
    · intro k hk
      have := h k (by omega)
      rw [Nat.div_div_eq_div_mul, ← pow_succ']
      rw [show c - 1 - k + 1 = c + 1 - 1 - k by omega]
      exact this

/-- The batched loop followed by the tail path computes, entry by entry, the sum of the
responses of the samples of each bucket. -/
theorem accumulator_eq_sums (data : Data) (depth : Nat) (ch : Choice)
    (hdepth : depth = 1 ∨ depth = 2 ∨ depth = 3)
    (hact : ∀ j, data.act j < 2 ^ 32 ∧ ∀ k, k < 8 → sampleNibble (data.act j) k ≤ 1)
    (hmask : ∀ d, d < depth → ∀ j,
      data.cutMask (ch.vIdx.getD d 0) (ch.cIdx.getD d 0) j < 2 ^ 32 ∧
      ∀ k, k < 8 → sampleNibble (data.cutMask (ch.vIdx.getD d 0) (ch.cIdx.getD d 0) j) k ≤ 1) :
    SearchEngine.accumulator data depth ch =
      .ok ((List.range (2 ^ (depth + 1))).map fun b =>
        ∑ s ∈ Finset.range data.nSample, if b = bucket data depth ch s then data.resp s else 0) := by
  have hbatch : ∀ (j : Nat) (f : Nat → ℚ),
      SearchEngine.batch data depth (SearchEngine.cutMasks data depth ch) j
          ((List.range (2 ^ (depth + 1))).map f) =
        .ok ((List.range (2 ^ (depth + 1))).map fun b =>
          f b + ∑ k ∈ Finset.range 8,
            if b = bucket data depth ch (8 * j + k) then data.resp (8 * j + k) else 0) := by
    intro j f
    unfold SearchEngine.batch
    simp only [Nat.shiftLeft_eq, show (2 : Nat) ^ 3 = 8 by norm_num, Nat.mul_comm j 8]
    apply drain_tab
    intro k hk
    rw [show 8 - 1 - k = 7 - k by omega]
    exact ⟨index_digit data depth ch hdepth hact hmask j k hk,
      bucket_lt data depth ch hdepth hact hmask _⟩
  have hloop : ∀ nB : Nat,
      forLoop (SearchEngine.batch data depth (SearchEngine.cutMasks data depth ch)) 0 nB
          ((List.range (2 ^ (depth + 1))).map fun _ => (0 : ℚ)) =
        .ok ((List.range (2 ^ (depth + 1))).map fun b =>
          ∑ s ∈ Finset.range (8 * nB),
            if b = bucket data depth ch s then data.resp s else 0) := by
    intro nB
    induction nB with
    | zero => simp
    | succ n ih =>
      rw [forLoop_succ_last, ih, ok_bind, Nat.zero_add, hbatch]
      congr 1
      apply List.map_congr_left
      intro b _
      rw [show 8 * (n + 1) = 8 * n + 8 by ring, Finset.sum_range_add]
  unfold SearchEngine.accumulator
  simp only [Nat.shiftLeft_eq, Nat.one_mul, replicate_eq_tab]
  rw [hloop, ok_bind]
  unfold SearchEngine.tail
  have hn : data.nSample = 8 * (data.nSample >>> 3) + data.nSample % 8 := by
    rw [Nat.shiftRight_eq_div_pow]
    norm_num
    omega
  by_cases hr : data.nSample % 8 = 0
  · simp only [hr, ne_eq, not_true_eq_false, if_false]
    congr 2
    funext b
    rw [hr, Nat.add_zero] at hn
    rw [← hn]
  · simp only [ne_eq, hr, not_false_eq_true, if_true]
    simp only [Nat.shiftLeft_eq, show (2 : Nat) ^ 3 = 8 by norm_num,
      Nat.mul_comm (data.nSample >>> 3) 8]
    rw [drain_tab data.resp _ (2 ^ (depth + 1))
      (fun k => bucket data depth ch (8 * (data.nSample >>> 3) + k))]
    · congr 1
      apply List.map_congr_left
      intro b _
      rw [← Finset.sum_range_add (fun s => if b = bucket data depth ch s then data.resp s else 0),
        ← hn]
    · intro k hk
      have hr8 : data.nSample % 8 < 8 := Nat.mod_lt _ (by norm_num)
      refine ⟨?_, bucket_lt data depth ch hdepth hact hmask _⟩
      rw [← index_digit data depth ch hdepth hact hmask _ k (by omega),
        Nat.shiftRight_eq_div_pow, Nat.div_div_eq_div_mul,
        show 32 - 4 * (data.nSample % 8) = 4 * (8 - data.nSample % 8) by omega, pow_mul,
        show (2 : Nat) ^ 4 = 16 by norm_num, ← pow_add,
        show 8 - data.nSample % 8 + (data.nSample % 8 - 1 - k) = 7 - k by omega]

/-- The naive per-sample loop computes the same sums. -/
theorem naiveAccumulator_eq_sums (data : Data) (depth : Nat) (ch : Choice) :
    naiveAccumulator data depth ch =
      (List.range (2 ^ (depth + 1))).map fun b =>
        ∑ s ∈ Finset.range data.nSample, if b = bucket data depth ch s then data.resp s else 0 := by
  unfold naiveAccumulator
  generalize data.nSample = n
  induction n with
  | zero => rw [replicate_eq_tab]; simp
  | succ n ih =>
    rw [List.range_succ, List.foldl_append, ih]
    simp only [List.foldl_cons, List.foldl_nil, modify_tab]
    apply List.map_congr_left
    intro b _
    rw [Finset.sum_range_succ]
    by_cases h : b = bucket data depth ch n <;> simp [h]

/-- The loop of lines 223-224 overwrites the block `[base, base + n)` of the score table and
nothing else. -/
theorem writeScore_loop (v scores : List ℚ) (base : Nat) :
    ∀ n : Nat, 2 * n ≤ v.length → base + n ≤ scores.length →
      forLoop (SearchEngine.writeScore v base) 0 n scores =
        .ok ((List.range scores.length).map fun idx =>
          if base ≤ idx ∧ idx < base + n then
            v.getD (2 * (idx - base) + 1) 0 - v.getD (2 * (idx - base)) 0
          else scores.getD idx 0) := by
  intro n
  induction n with
  | zero =>
    intro _ _
    rw [forLoop_zero]
    congr 1
    apply List.ext_getElem
    · simp
    · intro i h1 h2
      simp only [List.getElem_map, List.getElem_range]
      rw [if_neg (by omega), List.getD_eq_getElem?_getD, List.getElem?_eq_getElem h1]
      rfl
  | succ n ih =>
    intro hv hs
    rw [forLoop_succ_last, ih (by omega) (by omega), ok_bind, Nat.zero_add]
    unfold SearchEngine.writeScore
    have h1 : v[2 * n + 1]? = some (v.getD (2 * n + 1) 0) := by
      rw [List.getD_eq_getElem?_getD, List.getElem?_eq_getElem (by omega)]; rfl
    have h2 : v[2 * n]? = some (v.getD (2 * n) 0) := by
      rw [List.getD_eq_getElem?_getD, List.getElem?_eq_getElem (by omega)]; rfl
    simp only [h1, h2, List.length_map, List.length_range]
    rw [if_pos (by omega)]
    congr 1
    apply List.ext_getElem
    · simp
    · intro i hi1 hi2
      simp only [List.length_map, List.length_range] at hi2
      simp only [List.getElem_set, List.getElem_map, List.getElem_range]
      by_cases h : base + n = i
      · subst h
        simp
      · rw [if_neg h]
        by_cases h3 : base ≤ i ∧ i < base + n
        · rw [if_pos h3, if_pos (by omega)]
        · rw [if_neg h3, if_neg (by omega)]

/-- The body of the loop over the choices, for a choice whose accumulator is `v`. -/
theorem scoreChoice_eq (data : Data) (depth : Nat) (i : Nat) (s : SearchEngine) (ch : Choice)
    (v : List ℚ) (hch : s.choices_[i]? = some ch)
    (hv : SearchEngine.accumulator data depth ch = .ok v) (hlen : v.length = 2 ^ (depth + 1))
    (hs : (i + 1) * 2 ^ depth ≤ s.scores_.length) :
    SearchEngine.scoreChoice data depth i s =
      .ok { s with scores_ := (List.range s.scores_.length).map (fun idx =>
          if i * 2 ^ depth ≤ idx ∧ idx < i * 2 ^ depth + 2 ^ depth then
            v.getD (2 * (idx - i * 2 ^ depth) + 1) 0 - v.getD (2 * (idx - i * 2 ^ depth)) 0
          else s.scores_.getD idx 0) } := by
  unfold SearchEngine.scoreChoice
  simp only [hch, hv, ok_bind, Nat.shiftLeft_eq, Nat.one_mul]
  rw [writeScore_loop v s.scores_ (i * 2 ^ depth) (2 ^ depth) (by rw [hlen, pow_succ]; omega)
    (by rw [Nat.add_mul] at hs; omega)]
  rfl

/-- C1. For depth 1, 2 or 3, every sample count and every choice, when the packed words of the
action array and of the choice's cut masks are 32-bit words whose nibbles are 0 or 1 (sample
`8 j + k` in the nibble at bits `[4 (7 - k), 4 (7 - k) + 3]` of word `j`), the batched loop with
its tail path returns the accumulator of the naive per-sample loop, and the loop body for choice
`i` writes `score[i * 2 ^ depth + m] = v[2 m + 1] - v[2 m]` for every `m < 2 ^ depth`. -/
theorem kernel_refines_naive (data : Data) (depth : Nat) (ch : Choice)
    (hdepth : depth = 1 ∨ depth = 2 ∨ depth = 3)
    (hact : ∀ j, data.act j < 2 ^ 32 ∧ ∀ k, k < 8 → sampleNibble (data.act j) k ≤ 1)
    (hmask : ∀ d, d < depth → ∀ j,
      data.cutMask (ch.vIdx.getD d 0) (ch.cIdx.getD d 0) j < 2 ^ 32 ∧
      ∀ k, k < 8 → sampleNibble (data.cutMask (ch.vIdx.getD d 0) (ch.cIdx.getD d 0) j) k ≤ 1) :
    SearchEngine.accumulator data depth ch = .ok (naiveAccumulator data depth ch) ∧
    ∀ (s : SearchEngine) (i : Nat), s.choices_[i]? = some ch →
      (i + 1) * 2 ^ depth ≤ s.scores_.length →
      ∃ s1, SearchEngine.scoreChoice data depth i s = .ok s1 ∧
        ∀ m, m < 2 ^ depth →
          s1.scores_[i * 2 ^ depth + m]? =
            some ((naiveAccumulator data depth ch).getD (2 * m + 1) 0 -
              (naiveAccumulator data depth ch).getD (2 * m) 0) := by
  have hacc : SearchEngine.accumulator data depth ch = .ok (naiveAccumulator data depth ch) := by
    rw [accumulator_eq_sums data depth ch hdepth hact hmask, naiveAccumulator_eq_sums]
  refine ⟨hacc, ?_⟩
  intro s i hch hs
  have hlen : (naiveAccumulator data depth ch).length = 2 ^ (depth + 1) := by
    rw [naiveAccumulator_eq_sums]; simp
  refine ⟨_, scoreChoice_eq data depth i s ch _ hch hacc hlen hs, ?_⟩
  intro m hm
  have hlt : i * 2 ^ depth + m < s.scores_.length := by
    rw [Nat.add_mul] at hs; omega
  simp only [List.getElem?_map]
  rw [List.getElem?_range hlt]
  simp only [Option.map_some']
  rw [if_pos (by omega), show i * 2 ^ depth + m - i * 2 ^ depth = m by omega]

/-- C1, concrete instance: depth 2, eleven samples (`8 + 3`), the choice of cut 0 of variables
0 and 1. -/
theorem kernel_refines_naive_witness :
    ((2 : Nat) = 1 ∨ (2 : Nat) = 2 ∨ (2 : Nat) = 3) ∧
    (∀ j, demoData.act j < 2 ^ 32 ∧ ∀ k, k < 8 → sampleNibble (demoData.act j) k ≤ 1) ∧
    (∀ d, d < 2 → ∀ j, demoData.cutMask ([0, 1].getD d 0) ([0, 0].getD d 0) j < 2 ^ 32 ∧
      ∀ k, k < 8 →
        sampleNibble (demoData.cutMask ([0, 1].getD d 0) ([0, 0].getD d 0) j) k ≤ 1) ∧
    SearchEngine.accumulator demoData 2 ⟨[0, 1], [0, 0]⟩ =
      .ok (naiveAccumulator demoData 2 ⟨[0, 1], [0, 0]⟩) := by
  have hw : ∀ w : Nat, w = 0x11001100 ∨ w = 0x01100110 ∨ w = 0x10101010 →
      w < 2 ^ 32 ∧ ∀ k, k < 8 → sampleNibble w k ≤ 1 := by
    rintro w (rfl | rfl | rfl) <;> refine ⟨by decide, fun k hk => ?_⟩ <;>
      interval_cases k <;> decide
  have hact : ∀ j, demoData.act j < 2 ^ 32 ∧ ∀ k, k < 8 → sampleNibble (demoData.act j) k ≤ 1 :=
    fun _ => hw _ (Or.inl rfl)
  have hmask : ∀ d, d < 2 → ∀ j,
      demoData.cutMask ([0, 1].getD d 0) ([0, 0].getD d 0) j < 2 ^ 32 ∧
      ∀ k, k < 8 →
        sampleNibble (demoData.cutMask ([0, 1].getD d 0) ([0, 0].getD d 0) j) k ≤ 1 := by
    intro d hd j
    interval_cases d
    · exact hw _ (Or.inr (Or.inl rfl))
    · exact hw _ (Or.inr (Or.inr rfl))
  exact ⟨by decide, hact, hmask,
    (kernel_refines_naive demoData 2 ⟨[0, 1], [0, 0]⟩ (by decide) hact hmask).1⟩

/-! ## The work distribution, lines 160-171 -/

/-- Both branches of lines 165-171 in one formula. -/
theorem workerRange_eq (nChoice nThreads tid : Nat) :
    SearchEngine.workerRange nChoice nThreads tid =
      (nChoice / nThreads * tid + min tid (nChoice % nThreads),
        nChoice / nThreads * (tid + 1) + min (tid + 1) (nChoice % nThreads)) := by
  unfold SearchEngine.workerRange
  by_cases h : tid < nChoice % nThreads
  · simp only [h, if_true, Nat.add_mul, Nat.mul_add, Nat.one_mul, Nat.mul_one]
    rw [Nat.min_eq_left (by omega), Nat.min_eq_left (by omega)]
    refine Prod.ext ?_ ?_
    · simp
    · simp; omega
  · simp only [h, if_false, Nat.mul_add, Nat.mul_one]
    rw [Nat.min_eq_right (by omega), Nat.min_eq_right (by omega)]
    refine Prod.ext ?_ ?_
    · simp
    · simp; omega

theorem rangeStart_mono (b r : Nat) {t u : Nat} (h : t ≤ u) :
    b * t + min t r ≤ b * u + min u r := by
  have h1 : b * t ≤ b * u := Nat.mul_le_mul_left b h
  have h2 : min t r ≤ min u r := by omega
  omega

/-- Every position below the last start lies in exactly one of the consecutive ranges. -/
theorem range_cover (b r c : Nat) :
    ∀ n : Nat, c < b * n + min n r →
      ∃ t, t < n ∧ b * t + min t r ≤ c ∧ c < b * (t + 1) + min (t + 1) r := by
  intro n
  induction n with
  | zero => intro h; simp at h
  | succ n ih =>
    intro h
    by_cases hc : c < b * n + min n r
    · obtain ⟨t, ht, h1, h2⟩ := ih hc
      exact ⟨t, by omega, h1, h2⟩
    · exact ⟨n, by omega, by omega, h⟩

/-- C5. For every number of choices and every thread count `nThreads ≥ 1`, with
`base = nChoices / nThreads` and `remainder = nChoices % nThreads`: the range of worker `tid`
has `base + 1` choices when `tid < remainder` and `base` otherwise; the first range starts at 0,
each range ends where the next one starts, the last one ends at `nChoices`; and every choice id
below `nChoices` lies in the range of exactly one worker. -/
theorem workerRange_partition (nChoices nThreads : Nat) (hn : 1 ≤ nThreads) :
    (∀ tid, tid < nThreads →
      (SearchEngine.workerRange nChoices nThreads tid).1 ≤
        (SearchEngine.workerRange nChoices nThreads tid).2 ∧
      (SearchEngine.workerRange nChoices nThreads tid).2 -
        (SearchEngine.workerRange nChoices nThreads tid).1 =
          if tid < nChoices % nThreads then nChoices / nThreads + 1 else nChoices / nThreads) ∧
    (SearchEngine.workerRange nChoices nThreads 0).1 = 0 ∧
    (∀ tid, tid + 1 < nThreads →
      (SearchEngine.workerRange nChoices nThreads tid).2 =
        (SearchEngine.workerRange nChoices nThreads (tid + 1)).1) ∧
    (SearchEngine.workerRange nChoices nThreads (nThreads - 1)).2 = nChoices ∧
    (∀ c, c < nChoices →
      ∃! tid, tid < nThreads ∧
        (SearchEngine.workerRange nChoices nThreads tid).1 ≤ c ∧
        c < (SearchEngine.workerRange nChoices nThreads tid).2) := by
  have hmod : nChoices % nThreads < nThreads := Nat.mod_lt _ (by omega)
  have hsum : nChoices / nThreads * nThreads + nChoices % nThreads = nChoices := by
    rw [Nat.mul_comm]; exact Nat.div_add_mod nChoices nThreads
  refine ⟨?_, ?_, ?_, ?_, ?_⟩
  · intro tid _
    unfold SearchEngine.workerRange
    clear hsum hmod
    generalize nChoices / nThreads = b
    generalize nChoices % nThreads = r
    by_cases h : tid < r
    · simp only [h, if_true]; omega
    · simp only [h, if_false]; omega
  · simp [workerRange_eq]
  · intro tid _
    simp only [workerRange_eq]
  · simp only [workerRange_eq]
    rw [show nThreads - 1 + 1 = nThreads by omega, Nat.min_eq_right (by omega)]
    exact hsum
  · intro c hc
    have hc1 : c < nChoices / nThreads * nThreads + min nThreads (nChoices % nThreads) := by
      rw [Nat.min_eq_right (by omega)]; omega
    obtain ⟨t, ht, h1, h2⟩ := range_cover _ _ c nThreads hc1
    refine ⟨t, ⟨ht, by simpa [workerRange_eq] using h1, by simpa [workerRange_eq] using h2⟩, ?_⟩
    rintro u ⟨_, hu1, hu2⟩
    simp only [workerRange_eq] at hu1 hu2
    rcases Nat.lt_trichotomy u t with h | h | h
    · have := rangeStart_mono (nChoices / nThreads) (nChoices % nThreads)
        (show u + 1 ≤ t by omega)
      omega
    · exact h
    · have := rangeStart_mono (nChoices / nThreads) (nChoices % nThreads)
        (show t + 1 ≤ u by omega)
      omega

/-- C5, concrete instance: seven choices on five workers. -/
theorem workerRange_partition_witness :
    (1 ≤ 5) ∧ (List.range 5).map (SearchEngine.workerRange 7 5) =
      [(0, 2), (2, 4), (4, 5), (5, 6), (6, 7)] ∧
    (SearchEngine.workerRange 7 5 (5 - 1)).2 = 7 :=
  ⟨by decide, by decide, (workerRange_partition 7 5 (by decide)).2.2.2.1⟩

/-! ## `run`: the workers together -/

/-- A quantity that every iteration leaves unchanged is unchanged by the loop. -/
theorem forLoop_preserves {σ β : Type} (body : Nat → σ → Except Fault σ) (g : σ → β)
    (hbody : ∀ i s s1, body i s = .ok s1 → g s1 = g s) :
    ∀ (n lo : Nat) (s s1 : σ), forLoop body lo n s = .ok s1 → g s1 = g s := by
  intro n
  induction n with
  | zero =>
    intro lo s s1 h
    rw [forLoop_zero] at h
    cases h
    rfl
  | succ n ih =>
    intro lo s s1 h
    rw [forLoop_succ] at h
    cases hb : body lo s with
    | error e => rw [hb] at h; cases h
    | ok s2 =>
      rw [hb, ok_bind] at h
      rw [ih _ _ _ h, hbody _ _ _ hb]

/-- Scoring a choice assigns `scores_` only. -/
theorem scoreChoice_frame (data : Data) (depth i : Nat) (s s1 : SearchEngine)
    (h : SearchEngine.scoreChoice data depth i s = .ok s1) :
    (s1.nThreads_, s1.totalChoices_, s1.iter_, s1.choices_) =
      (s.nThreads_, s.totalChoices_, s.iter_, s.choices_) := by
  unfold SearchEngine.scoreChoice at h
  cases hch : s.choices_[i]? with
  | none => simp [hch] at h
  | some ch =>
    simp only [hch] at h
    cases hv : SearchEngine.accumulator data depth ch with
    | error e => rw [hv] at h; cases h
    | ok v =>
      rw [hv, ok_bind] at h
      cases hw : forLoop (SearchEngine.writeScore v (i * 1 <<< depth)) 0 (1 <<< depth) s.scores_ with
      | error e => rw [hw] at h; cases h
      | ok sc =>
        rw [hw, ok_bind] at h
        cases h
        rfl

/-- Scoring does not read `nThreads_`. -/
theorem scoreChoice_nThreads (data : Data) (depth i n : Nat) (s : SearchEngine) :
    SearchEngine.scoreChoice data depth i { s with nThreads_ := n } =
      (SearchEngine.scoreChoice data depth i s).map fun e => { e with nThreads_ := n } := by
  unfold SearchEngine.scoreChoice
  simp only
  cases s.choices_[i]? with
  | none => rfl
  | some ch =>
    simp only
    cases SearchEngine.accumulator data depth ch with
    | error e => rfl
    | ok v =>
      simp only [ok_bind]
      cases forLoop (SearchEngine.writeScore v (i * 1 <<< depth)) 0 (1 <<< depth) s.scores_ with
      | error e => rfl
      | ok sc => rfl

theorem scoreLoop_nThreads (data : Data) (depth n : Nat) :
    ∀ (cnt lo : Nat) (s : SearchEngine),
      forLoop (SearchEngine.scoreChoice data depth) lo cnt { s with nThreads_ := n } =
        (forLoop (SearchEngine.scoreChoice data depth) lo cnt s).map
          fun e => { e with nThreads_ := n } := by
  intro cnt
  induction cnt with
  | zero => intro lo s; rfl
  | succ c ih =>
    intro lo s
    rw [forLoop_succ, forLoop_succ, scoreChoice_nThreads]
    cases SearchEngine.scoreChoice data depth lo s with
    | error e => rfl
    | ok s1 =>
      simp only [Except.map, ok_bind]
      exact ih _ _

/-- The workers `0 .. t - 1`, one after the other, score the choices below the start of worker
`t`, in increasing order. -/
theorem workers_eq_loop (data : Data) (depth : Nat) (s : SearchEngine) (hn : s.nThreads_ ≠ 0) :
    ∀ t : Nat, forLoop (SearchEngine.worker data depth) 0 t s =
      forLoop (SearchEngine.scoreChoice data depth) 0
        (s.choices_.length / s.nThreads_ * t + min t (s.choices_.length % s.nThreads_)) s := by
  intro t
  induction t with
  | zero => simp
  | succ t ih =>
    have hmono := rangeStart_mono (s.choices_.length / s.nThreads_)
      (s.choices_.length % s.nThreads_) (show t ≤ t + 1 by omega)
    rw [forLoop_succ_last, ih, Nat.zero_add]
    generalize hF : s.choices_.length / s.nThreads_ * t +
      min t (s.choices_.length % s.nThreads_) = first at hmono ⊢
    generalize hG : s.choices_.length / s.nThreads_ * (t + 1) +
      min (t + 1) (s.choices_.length % s.nThreads_) = last at hmono ⊢
    conv_rhs => rw [show last = first + (last - first) by omega, forLoop_add]
    cases h : forLoop (SearchEngine.scoreChoice data depth) 0 first s with
    | error e => rfl
    | ok s1 =>
      have hf := forLoop_preserves (SearchEngine.scoreChoice data depth)
        (fun e => (e.nThreads_, e.totalChoices_, e.iter_, e.choices_))
        (scoreChoice_frame data depth) _ _ _ _ h
      simp only [Prod.mk.injEq] at hf
      obtain ⟨h1, -, -, h4⟩ := hf
      simp only [ok_bind, SearchEngine.worker, h1, h4, hn, if_false, workerRange_eq, hF, hG,
        Nat.zero_add]

/-- With at least one thread, `run` scores every choice once, in increasing order. -/
theorem run_eq_loop (data : Data) (depth : Nat) (s : SearchEngine) (hn : s.nThreads_ ≠ 0) :
    SearchEngine.run data depth s =
      forLoop (SearchEngine.scoreChoice data depth) 0 s.choices_.length s := by
  unfold SearchEngine.run
  rw [workers_eq_loop data depth s hn]
  have hmod : s.choices_.length % s.nThreads_ < s.nThreads_ := Nat.mod_lt _ (by omega)
  rw [Nat.min_eq_right (by omega), Nat.mul_comm, Nat.div_add_mod]

/-! ## The enumeration of the choices -/

@[simp] theorem pure_eq_ok {α : Type} (a : α) : (pure a : Except Fault α) = .ok a := rfl

@[simp] theorem bind_ok {α : Type} (x : Except Fault α) :
    (x >>= fun a => (Except.ok a : Except Fault α)) = x := by
  cases x <;> rfl

theorem foldlM_ok_pure {α β : Type} (f : β → α → β) (l : List α) (b : β) :
    l.foldlM (fun s a => (Except.ok (f s a) : Except Fault β)) b = .ok (l.foldl f b) := by
  induction l generalizing b with
  | nil => rfl
  | cons a l ih => rw [List.foldlM_cons, ok_bind, ih, List.foldl_cons]

/-- The recursion of `combination` completes the combinations `curr ++ S`, `S` running through
the sublists of `option` with the missing number of elements, in the order of `sublistsLen`. -/
theorem combination_eq (data : Data) (depth : Nat) (mode : Char) :
    ∀ (option curr : List Nat) (s : SearchEngine),
      SearchEngine.combination data depth curr option mode s =
        (List.sublistsLen (depth - curr.length) option).foldlM
          (fun s S =>
            if mode = 'c' then .ok (SearchEngine.countChoices data (curr ++ S) s)
            else SearchEngine.setChoices data depth (curr ++ S) s) s := by
  intro option
  induction option with
  | nil =>
    intro curr s
    unfold SearchEngine.combination
    by_cases h : depth - curr.length = 0
    · simp only [h, if_true, List.sublistsLen_zero, List.foldlM_cons, List.foldlM_nil,
        List.append_nil]
      split <;> simp
    · rw [List.sublistsLen_of_length_lt (by simp; omega)]
      simp [h]
  | cons o rest ih =>
    intro curr s
    unfold SearchEngine.combination
    by_cases h : depth - curr.length = 0
    · simp only [h, if_true, List.sublistsLen_zero, List.foldlM_cons, List.foldlM_nil,
        List.append_nil]
      split <;> simp
    · simp only [h, if_false]
      by_cases h2 : (o :: rest).length < depth - curr.length
      · rw [List.sublistsLen_of_length_lt h2, if_pos h2]
        rfl
      · obtain ⟨k, hk⟩ : ∃ k, depth - curr.length = k + 1 := ⟨depth - curr.length - 1, by omega⟩
        have hk2 : depth - (curr ++ [o]).length = k := by
          simp only [List.length_append, List.length_cons, List.length_nil]; omega
        rw [if_neg h2]
        simp only [ih, hk, hk2, List.sublistsLen_succ_cons, List.foldlM_append,
          List.foldlM_map, List.append_assoc, List.singleton_append]

theorem foldl_mul_eq (f : Nat → Nat) (l : List Nat) (a : Nat) :
    l.foldl (fun n v => n * f v) a = a * (l.map f).prod := by
  induction l generalizing a with
  | nil => simp
  | cons x l ih => rw [List.foldl_cons, ih, List.map_cons, List.prod_cons, Nat.mul_assoc]

theorem foldl_count (data : Data) (curr : List Nat) (L : List (List Nat)) (s : SearchEngine) :
    L.foldl (fun s S => SearchEngine.countChoices data (curr ++ S) s) s =
      { s with totalChoices_ :=
        s.totalChoices_ + (L.map fun S => ((curr ++ S).map data.nCut).prod).sum } := by
  induction L generalizing s with
  | nil => simp
  | cons S L ih =>
    rw [List.foldl_cons, ih]
    simp only [SearchEngine.countChoices, foldl_mul_eq, Nat.one_mul, List.map_cons,
      List.sum_cons, Nat.add_assoc]

/-- The counting pass adds the product of the cut counts of every combination. -/
theorem countPass_eq (data : Data) (depth : Nat) (s : SearchEngine) :
    SearchEngine.combination data depth [] (List.range data.nVar) 'c' s =
      .ok { s with totalChoices_ := s.totalChoices_ +
        ((List.sublistsLen depth (List.range data.nVar)).map
          fun S => (S.map data.nCut).prod).sum } := by
  rw [combination_eq]
  simp only [if_true, foldlM_ok_pure, foldl_count, List.length_nil, Nat.sub_zero]
  simp only [List.nil_append]

/-- Sums over the sublists of a list without duplicates are sums over the subsets of its
elements. -/
theorem sum_sublistsLen_eq (f : Nat → Nat) :
    ∀ (l : List Nat), l.Nodup → ∀ k : Nat,
      ((List.sublistsLen k l).map fun S => (S.map f).prod).sum =
        ∑ S ∈ Finset.powersetCard k l.toFinset, ∏ v ∈ S, f v := by
  intro l
  induction l with
  | nil =>
    intro _ k
    cases k with
    | zero => simp
    | succ k =>
      rw [List.toFinset_nil, Finset.powersetCard_eq_empty.mpr (by simp)]
      simp
  | cons a t ih =>
    intro hnd k
    have hat : a ∉ t.toFinset := by
      simpa using (List.nodup_cons.mp hnd).1
    have ht := (List.nodup_cons.mp hnd).2
    cases k with
    | zero => simp
    | succ k =>
      rw [List.sublistsLen_succ_cons, List.map_append, List.sum_append, List.map_map,
        List.toFinset_cons, Finset.powersetCard_succ_insert hat, Finset.sum_union,
        Finset.sum_image, ih hnd.of_cons (k + 1)]
      · congr 1
        have : (fun S => (List.map f S).prod) ∘ List.cons a =
            fun S => f a * (List.map f S).prod := by
          funext S; simp
        rw [this, List.sum_map_mul_left, ih hnd.of_cons k, Finset.mul_sum]
        apply Finset.sum_congr rfl
        intro S hS
        rw [Finset.prod_insert]
        intro ha
        exact hat ((Finset.mem_powersetCard.mp hS).1 ha)
      · intro x hx y hy hxy
        have hax : a ∉ x := fun h => hat ((Finset.mem_powersetCard.mp hx).1 h)
        have hay : a ∉ y := fun h => hat ((Finset.mem_powersetCard.mp hy).1 h)
        rw [← Finset.erase_insert hax, ← Finset.erase_insert hay, hxy]
      · rw [Finset.disjoint_left]
        intro x hx hx2
        obtain ⟨y, _, rfl⟩ := Finset.mem_image.mp hx2
        exact hat ((Finset.mem_powersetCard.mp hx).1 (Finset.mem_insert_self a y))

example : (∑ S ∈ Finset.powersetCard 1 (Finset.range 3), ∏ v ∈ S, [2,3,4].getD v 0) = 9 := by decide

theorem take_drop_set (v o : List Nat) (d : Nat) (hv : d < v.length) (ho : d < o.length) :
    (v.take d ++ o.drop d).set d (v.getD d 0) = v.take (d + 1) ++ o.drop (d + 1) := by
  apply List.ext_getElem?
  intro i
  simp only [List.getElem?_set, List.getElem?_append, List.getElem?_take, List.getElem?_drop,
    List.length_take, List.length_append, List.length_drop, List.getD_eq_getElem?_getD]
  rw [Nat.min_eq_left (by omega), Nat.min_eq_left (by omega)]
  by_cases h1 : d = i
  · subst h1
    simp [List.getElem?_eq_getElem hv]
    omega
  · by_cases h2 : i < d
    · simp [h1, h2, show i < d + 1 by omega]
    · simp only [h1, h2, if_false, show ¬ i < d + 1 by omega]
      congr 1
      omega

/-- Lines 145-150 on a free slot: the slot `iter_` receives the tuple and `iter_` advances. -/
theorem storeChoice_eq (depth : Nat) (vIdx cIdx : List Nat) (s : SearchEngine) (ch0 : Choice)
    (hslot : s.choices_[s.iter_]? = some ch0)
    (h0v : ch0.vIdx.length = depth) (h0c : ch0.cIdx.length = depth)
    (hv : vIdx.length = depth) (hc : cIdx.length = depth) :
    SearchEngine.storeChoice depth vIdx cIdx s =
      .ok { s with choices_ := s.choices_.set s.iter_ ⟨vIdx, cIdx⟩, iter_ := s.iter_ + 1 } := by
  have hlt : s.iter_ < s.choices_.length := by
    rcases Nat.lt_or_ge s.iter_ s.choices_.length with h | h
    · exact h
    · rw [List.getElem?_eq_none h] at hslot; cases hslot
  have hloop : ∀ d, d ≤ depth →
      forLoop (SearchEngine.storeEntry vIdx cIdx) 0 d s =
      .ok { s with choices_ := (s.choices_.set s.iter_
          ⟨vIdx.take d ++ ch0.vIdx.drop d, cIdx.take d ++ ch0.cIdx.drop d⟩) } := by
    intro d
    induction d with
    | zero =>
      intro _
      simp only [forLoop_zero, List.take_zero, List.nil_append, List.drop_zero]
      have hget : s.choices_[s.iter_] = ch0 := by
        rw [List.getElem?_eq_getElem hlt] at hslot
        exact Option.some.inj hslot
      have e : s.choices_.set s.iter_ ⟨ch0.vIdx, ch0.cIdx⟩ = s.choices_ := by
        have : (⟨ch0.vIdx, ch0.cIdx⟩ : Choice) = s.choices_[s.iter_] := by rw [hget]
        rw [this]
        apply List.ext_getElem?
        intro j
        rw [List.getElem?_set]
        by_cases hj : s.iter_ = j
        · subst hj
          simp [hlt]
        · simp [hj]
      rw [e]
    | succ d ih =>
      intro hd
      rw [forLoop_succ_last, ih (by omega), ok_bind, Nat.zero_add]
      unfold SearchEngine.storeEntry
      simp only [List.getElem?_set_self hlt, List.getElem?_eq_getElem (show d < vIdx.length by omega),
        List.getElem?_eq_getElem (show d < cIdx.length by omega), List.length_append,
        List.length_take, List.length_drop, List.set_set]
      rw [if_pos (by omega)]
      have e1 := take_drop_set vIdx ch0.vIdx d (by omega) (by omega)
      have e2 := take_drop_set cIdx ch0.cIdx d (by omega) (by omega)
      rw [List.getD_eq_getElem?_getD, List.getElem?_eq_getElem (show d < vIdx.length by omega)]
        at e1
      rw [List.getD_eq_getElem?_getD, List.getElem?_eq_getElem (show d < cIdx.length by omega)]
        at e2
      simp only [Option.getD_some] at e1 e2
      rw [e1, e2]
  unfold SearchEngine.storeChoice
  rw [hloop depth (Nat.le_refl _), ok_bind]
  rw [List.take_of_length_le (by omega), List.take_of_length_le (by omega),
    List.drop_of_length_le (by omega), List.drop_of_length_le (by omega)]
  simp

theorem setChoicesHelper_done (depth : Nat) (vIdx cIdx cBound : List Nat) (curr : Nat)
    (s : SearchEngine) (hc : curr < cIdx.length) (hb : curr < cBound.length)
    (h : cIdx.getD curr 0 = cBound.getD curr 0) :
    SearchEngine.setChoicesHelper depth vIdx cIdx cBound curr s = .ok s := by
  rw [SearchEngine.setChoicesHelper]
  simp only [List.getD_eq_getElem?_getD, List.getElem?_eq_getElem hc,
    List.getElem?_eq_getElem hb, Option.getD_some] at h
  split
  · rename_i c b h1 h2
    rw [List.getElem?_eq_getElem hc] at h1
    rw [List.getElem?_eq_getElem hb] at h2
    cases h1
    cases h2
    rw [if_pos h]
  · rename_i h1
    exact absurd (List.getElem?_eq_getElem hb) (h1 _ _ (List.getElem?_eq_getElem hc))

theorem setChoicesHelper_step (depth : Nat) (vIdx cIdx cBound : List Nat) (curr : Nat)
    (s : SearchEngine) (hc : curr < cIdx.length) (hb : curr < cBound.length)
    (h : cIdx.getD curr 0 < cBound.getD curr 0) :
    SearchEngine.setChoicesHelper depth vIdx cIdx cBound curr s =
      ((if curr < depth - 1 then
          SearchEngine.setChoicesHelper depth vIdx cIdx cBound (curr + 1) s
        else SearchEngine.storeChoice depth vIdx cIdx s) >>= fun s1 =>
        SearchEngine.setChoicesHelper depth vIdx (cIdx.set curr (cIdx.getD curr 0 + 1)) cBound
          curr s1) := by
  rw [SearchEngine.setChoicesHelper]
  simp only [List.getD_eq_getElem?_getD, List.getElem?_eq_getElem hc,
    List.getElem?_eq_getElem hb, Option.getD_some] at h ⊢
  split
  · rename_i c b h1 h2
    rw [List.getElem?_eq_getElem hc] at h1
    rw [List.getElem?_eq_getElem hb] at h2
    cases h1
    cases h2
    rw [if_neg (by omega), dif_neg (by omega)]
  · rename_i h1
    exact absurd (List.getElem?_eq_getElem hb) (h1 _ _ (List.getElem?_eq_getElem hc))

theorem getD_set_self (l : List Nat) (i x : Nat) (h : i < l.length) :
    (l.set i x).getD i 0 = x := by
  simp [List.getD_eq_getElem?_getD, List.getElem?_set_self h]

theorem getD_set_ne (l : List Nat) (i j x : Nat) (h : i ≠ j) :
    (l.set i x).getD j 0 = l.getD j 0 := by
  simp [List.getD_eq_getElem?_getD, List.getElem?_set_ne h]

theorem take_set_self (l : List Nat) (i x : Nat) : (l.set i x).take i = l.take i := by
  apply List.ext_getElem?
  intro j
  simp only [List.getElem?_take, List.getElem?_set]
  by_cases h : j < i
  · simp [h, show i ≠ j by omega]
  · simp [h]

theorem take_succ_getD (l : List Nat) (i : Nat) (h : i < l.length) :
    l.take (i + 1) = l.take i ++ [l.getD i 0] := by
  rw [List.take_succ, List.getD_eq_getElem?_getD, List.getElem?_eq_getElem h]
  rfl

theorem drop_eq_getD_cons (l : List Nat) (i : Nat) (h : i < l.length) :
    l.drop i = l.getD i 0 :: l.drop (i + 1) := by
  rw [List.getD_eq_getElem?_getD, List.getElem?_eq_getElem h]
  exact List.drop_eq_getElem_cons h

/-- The recursion of `setChoicesHelper` at dimension `curr` stores the tuples that extend the
fixed prefix `cIdx[0 .. curr)` by the remaining values of dimension `curr` and all values of the
later dimensions, in lexicographic order. -/
theorem setChoicesHelper_eq (depth : Nat) (vIdx cBound : List Nat) (hB : cBound.length = depth) :
    ∀ (k curr : Nat), curr + k + 1 = depth →
    ∀ (m : Nat) (cIdx : List Nat) (s : SearchEngine), cIdx.length = depth →
      (∀ e, curr < e → e < depth → cIdx.getD e 0 = 0) →
      cIdx.getD curr 0 + m = cBound.getD curr 0 →
      SearchEngine.setChoicesHelper depth vIdx cIdx cBound curr s =
        ((List.range' (cIdx.getD curr 0) m).flatMap fun c =>
          (cutTuples (cBound.drop (curr + 1))).map fun t => cIdx.take curr ++ c :: t).foldlM
          (fun s t => SearchEngine.storeChoice depth vIdx t s) s := by
  intro k
  induction k with
  | zero =>
    intro curr hcurr m
    induction m with
    | zero =>
      intro cIdx s hlen _ hm
      rw [setChoicesHelper_done depth vIdx cIdx cBound curr s (by omega) (by omega) (by omega)]
      simp
    | succ m ihm =>
      intro cIdx s hlen hz hm
      rw [setChoicesHelper_step depth vIdx cIdx cBound curr s (by omega) (by omega) (by omega),
        if_neg (by omega)]
      have ih2 := fun s1 => ihm (cIdx.set curr (cIdx.getD curr 0 + 1)) s1
        (by simpa using hlen)
        (by intro e h1 h2; rw [getD_set_ne _ _ _ _ (by omega)]; exact hz e h1 h2)
        (by rw [getD_set_self _ _ _ (by omega)]; omega)
      simp only [getD_set_self cIdx curr _ (show curr < cIdx.length by omega),
        take_set_self] at ih2
      simp only [ih2, List.range'_succ, List.flatMap_cons, List.foldlM_append]
      rw [List.drop_of_length_le (show cBound.length ≤ curr + 1 by omega)]
      simp only [cutTuples, List.map_cons, List.map_nil, List.foldlM_cons, List.foldlM_nil,
        bind_ok, pure_eq_ok]
      have hfull : cIdx.take curr ++ [cIdx.getD curr 0] = cIdx := by
        rw [← take_succ_getD cIdx curr (by omega)]
        exact List.take_of_length_le (by omega)
      rw [hfull]
  | succ k ihk =>
    intro curr hcurr m
    induction m with
    | zero =>
      intro cIdx s hlen _ hm
      rw [setChoicesHelper_done depth vIdx cIdx cBound curr s (by omega) (by omega) (by omega)]
      simp
    | succ m ihm =>
      intro cIdx s hlen hz hm
      rw [setChoicesHelper_step depth vIdx cIdx cBound curr s (by omega) (by omega) (by omega),
        if_pos (by omega)]
      have ih2 := fun s1 => ihm (cIdx.set curr (cIdx.getD curr 0 + 1)) s1
        (by simpa using hlen)
        (by intro e h1 h2; rw [getD_set_ne _ _ _ _ (by omega)]; exact hz e h1 h2)
        (by rw [getD_set_self _ _ _ (by omega)]; omega)
      simp only [getD_set_self cIdx curr _ (show curr < cIdx.length by omega),
        take_set_self] at ih2
      have hz1 : cIdx.getD (curr + 1) 0 = 0 := hz (curr + 1) (by omega) (by omega)
      have ih1 := ihk (curr + 1) (by omega) (cBound.getD (curr + 1) 0) cIdx s hlen
        (by intro e h1 h2; exact hz e (by omega) h2) (by omega)
      simp only [ih2, ih1, List.range'_succ, List.flatMap_cons, List.foldlM_append]
      congr 2
      rw [drop_eq_getD_cons cBound (curr + 1) (by omega), hz1,
        take_succ_getD cIdx curr (by omega)]
      simp only [cutTuples, List.map_flatMap, List.map_map, ← List.range_eq_range']
      congr 1
      funext c
      congr 1
      funext t
      simp

theorem length_of_mem_cutTuples : ∀ (bs t : List Nat), t ∈ cutTuples bs → t.length = bs.length := by
  intro bs
  induction bs with
  | nil => intro t h; simp [cutTuples] at h; simp [h]
  | cons b bs ih =>
    intro t h
    simp only [cutTuples, List.mem_flatMap, List.mem_map] at h
    obtain ⟨c, _, u, hu, rfl⟩ := h
    simp [ih u hu]

theorem length_cutTuples : ∀ bs : List Nat, (cutTuples bs).length = bs.prod := by
  intro bs
  induction bs with
  | nil => simp [cutTuples]
  | cons b bs ih =>
    simp only [cutTuples, List.length_flatMap, List.prod_cons]
    have : (List.length ∘ fun c => List.map (List.cons c) (cutTuples bs)) =
        fun _ => bs.prod := by
      funext c; simp [ih]
    rw [this]
    simp

/-- The member function `setChoices` stores the cut tuples of the combination, in order. -/
theorem setChoices_eq (data : Data) (depth : Nat) (choices : List Nat) (s : SearchEngine)
    (hd : 1 ≤ depth) (hlen : choices.length = depth) :
    SearchEngine.setChoices data depth choices s =
      (cutTuples (choices.map data.nCut)).foldlM
        (fun s t => SearchEngine.storeChoice depth choices t s) s := by
  unfold SearchEngine.setChoices
  have hB : (choices.map fun vidx => data.nCut vidx).length = depth := by simpa using hlen
  have hz : ∀ e, (choices.map fun _ => 0).getD e 0 = 0 := by
    intro e
    simp only [List.getD_eq_getElem?_getD, List.getElem?_map]
    cases choices[e]? <;> rfl
  rw [setChoicesHelper_eq depth choices _ hB (depth - 1) 0 (by omega)
    ((choices.map fun vidx => data.nCut vidx).getD 0 0) _ s (by simpa using hlen)
    (fun e _ _ => hz e) (by rw [hz]; omega)]
  congr 1
  rw [hz 0, List.take_zero, ← List.range_eq_range']
  have hX := drop_eq_getD_cons (choices.map data.nCut) 0
    (by simpa using (by omega : 0 < choices.length))
  rw [List.drop_zero] at hX
  conv_rhs => rw [hX]
  simp only [cutTuples, List.nil_append, Nat.zero_add]

/-- Storing a list of tuples fills consecutive slots from `iter_` on. -/
theorem storeAll_eq (depth : Nat) (vs : List Nat) (hvs : vs.length = depth) :
    ∀ (T : List (List Nat)) (s : SearchEngine), (∀ t ∈ T, t.length = depth) →
      s.iter_ + T.length ≤ s.choices_.length →
      (∀ ch ∈ s.choices_, ch.vIdx.length = depth ∧ ch.cIdx.length = depth) →
      T.foldlM (fun s t => SearchEngine.storeChoice depth vs t s) s =
        .ok { s with
          choices_ := s.choices_.take s.iter_ ++ T.map (Choice.mk vs) ++
            s.choices_.drop (s.iter_ + T.length),
          iter_ := s.iter_ + T.length } := by
  intro T
  induction T with
  | nil =>
    intro s _ _ _
    simp
  | cons t T ih =>
    intro s hT hroom hinv
    have hlt : s.iter_ < s.choices_.length := by
      simp only [List.length_cons] at hroom; omega
    have hslot : s.choices_[s.iter_]? = some s.choices_[s.iter_] := List.getElem?_eq_getElem hlt
    have hin := hinv _ (List.getElem_mem hlt)
    rw [List.foldlM_cons, storeChoice_eq depth vs t s _ hslot hin.1 hin.2 hvs
      (hT t (List.mem_cons_self _ _)), ok_bind, ih]
    · simp only [List.length_cons, List.map_cons]
      congr 1
      have e1 : (s.choices_.set s.iter_ ⟨vs, t⟩).take (s.iter_ + 1) =
          s.choices_.take s.iter_ ++ [⟨vs, t⟩] := by
        rw [List.take_succ, List.getElem?_set_self hlt]
        simp only [Option.toList_some]
        congr 1
        apply List.ext_getElem?
        intro j
        simp only [List.getElem?_take, List.getElem?_set]
        by_cases h : j < s.iter_
        · simp [h, show s.iter_ ≠ j by omega]
        · simp [h]
      have e2 : (s.choices_.set s.iter_ ⟨vs, t⟩).drop (s.iter_ + 1 + T.length) =
          s.choices_.drop (s.iter_ + (T.length + 1)) := by
        apply List.ext_getElem?
        intro j
        simp only [List.getElem?_drop, List.getElem?_set]
        rw [if_neg (by omega)]
        congr 1
        omega
      rw [e1, e2]
      simp [Nat.add_assoc, Nat.add_comm 1]
    · intro u hu
      exact hT u (List.mem_cons_of_mem _ hu)
    · simp only [List.length_cons, List.length_set] at hroom ⊢
      omega
    · intro ch hch
      rcases List.mem_or_eq_of_mem_set hch with h | h
      · exact hinv ch h
      · subst h
        exact ⟨hvs, hT t (List.mem_cons_self _ _)⟩

theorem splice_length {α : Type} (l A : List α) (i : Nat) (h : i + A.length ≤ l.length) :
    (l.take i ++ A ++ l.drop (i + A.length)).length = l.length := by
  simp only [List.length_append, List.length_take, List.length_drop]
  omega

theorem splice_take {α : Type} (l A : List α) (i : Nat) (h : i + A.length ≤ l.length) :
    (l.take i ++ A ++ l.drop (i + A.length)).take (i + A.length) = l.take i ++ A := by
  rw [List.take_append_eq_append_take]
  have h1 : (l.take i ++ A).length = i + A.length := by
    simp only [List.length_append, List.length_take]; omega
  rw [List.take_of_length_le (by omega), h1, Nat.sub_self, List.take_zero, List.append_nil]

theorem splice_drop {α : Type} (l A : List α) (i n : Nat) (h : i + A.length ≤ l.length) :
    (l.take i ++ A ++ l.drop (i + A.length)).drop (i + A.length + n) =
      l.drop (i + A.length + n) := by
  have h1 : (l.take i ++ A).length = i + A.length := by
    simp only [List.length_append, List.length_take]; omega
  rw [List.drop_append_eq_append_drop, List.drop_of_length_le (by omega), h1, List.nil_append,
    List.drop_drop]
  congr 1
  omega

/-- The materializing pass over a list of combinations fills consecutive slots with the cut
tuples of each combination in turn. -/
theorem setPass_eq (data : Data) (depth : Nat) (hd : 1 ≤ depth) :
    ∀ (C : List (List Nat)) (s : SearchEngine), (∀ S ∈ C, S.length = depth) →
      s.iter_ + (C.flatMap fun S =>
        (cutTuples (S.map data.nCut)).map (Choice.mk S)).length ≤ s.choices_.length →
      (∀ ch ∈ s.choices_, ch.vIdx.length = depth ∧ ch.cIdx.length = depth) →
      C.foldlM (fun s S => SearchEngine.setChoices data depth S s) s =
        .ok { s with
          choices_ := s.choices_.take s.iter_ ++
            (C.flatMap fun S => (cutTuples (S.map data.nCut)).map (Choice.mk S)) ++
            s.choices_.drop (s.iter_ + (C.flatMap fun S =>
              (cutTuples (S.map data.nCut)).map (Choice.mk S)).length),
          iter_ := s.iter_ + (C.flatMap fun S =>
            (cutTuples (S.map data.nCut)).map (Choice.mk S)).length } := by
  intro C
  induction C with
  | nil =>
    intro s _ _ _
    simp
  | cons S C ih =>
    intro s hC hroom hinv
    have hS : S.length = depth := hC S (List.mem_cons_self _ _)
    have hT : ∀ t ∈ cutTuples (S.map data.nCut), t.length = depth := by
      intro t ht
      rw [length_of_mem_cutTuples _ t ht, List.length_map, hS]
    simp only [List.flatMap_cons, List.length_append, List.length_map] at hroom ⊢
    have hroom1 : s.iter_ + (cutTuples (S.map data.nCut)).length ≤ s.choices_.length := by omega
    have hroomA : s.iter_ + ((cutTuples (S.map data.nCut)).map (Choice.mk S)).length ≤
        s.choices_.length := by simpa using hroom1
    rw [List.foldlM_cons, setChoices_eq data depth S s hd hS,
      storeAll_eq depth S hS _ s hT hroom1 hinv, ok_bind, ih]
    · simp only
      have e1 := splice_take s.choices_ ((cutTuples (S.map data.nCut)).map (Choice.mk S))
        s.iter_ hroomA
      have e2 := fun n => splice_drop s.choices_
        ((cutTuples (S.map data.nCut)).map (Choice.mk S)) s.iter_ n hroomA
      simp only [List.length_map] at e1 e2
      rw [e1, e2]
      simp [Nat.add_assoc]
    · intro u hu
      exact hC u (List.mem_cons_of_mem _ hu)
    · simp only
      have e0 := splice_length s.choices_ ((cutTuples (S.map data.nCut)).map (Choice.mk S))
        s.iter_ hroomA
      simp only [List.length_map] at e0
      rw [e0]
      omega
    · simp only
      intro ch hch
      simp only [List.mem_append, List.mem_map] at hch
      rcases hch with (h | ⟨t, ht, rfl⟩) | h
      · exact hinv ch (List.mem_of_mem_take h)
      · exact ⟨hS, hT t ht⟩
      · exact hinv ch (List.mem_of_mem_drop h)

theorem length_enumeration (data : Data) (depth : Nat) :
    (enumeration data depth).length =
      ((List.sublistsLen depth (List.range data.nVar)).map
        fun S => (S.map data.nCut).prod).sum := by
  unfold enumeration
  rw [List.length_flatMap]
  congr 1
  apply List.map_congr_left
  intro S _
  simp [length_cutTuples]

/-- The constructor, for a supported depth: it ends without a fault, with the clamped thread
count, the choice list `enumeration data depth`, the counter and the cursor at its length, and a
zeroed score table of `2 ^ depth` entries per choice. -/
theorem construct_eq (data : Data) (depth nThreads hardware : Nat)
    (hdepth : depth = 1 ∨ depth = 2 ∨ depth = 3) :
    SearchEngine.construct data depth nThreads hardware =
      ({ nThreads_ := min nThreads hardware,
         totalChoices_ := (enumeration data depth).length,
         iter_ := (enumeration data depth).length,
         choices_ := enumeration data depth,
         scores_ := List.replicate ((enumeration data depth).length <<< depth) 0 }, none) := by
  unfold SearchEngine.construct
  simp only
  rw [if_neg (by omega), countPass_eq]
  simp only [SearchEngine.fresh, Nat.zero_add, ← length_enumeration]
  rw [combination_eq]
  simp only [show (('s' : Char) = 'c') = False by decide, if_false, List.length_nil,
    Nat.sub_zero, List.nil_append]
  rw [setPass_eq data depth (by omega)]
  · simp only [resize, List.take_nil, List.length_nil, Nat.sub_zero, List.nil_append,
      List.take_zero, Nat.zero_add]
    have : (List.sublistsLen depth (List.range data.nVar)).flatMap
        (fun S => (cutTuples (S.map data.nCut)).map (Choice.mk S)) = enumeration data depth := rfl
    rw [this, List.drop_of_length_le (by simp)]
    simp
  · intro S hS
    exact (List.mem_sublistsLen.mp hS).2
  · simp only [resize, List.take_nil, List.length_nil, Nat.sub_zero, List.nil_append,
      List.length_replicate, Nat.zero_add]
    exact Nat.le_refl _
  · intro ch hch
    simp only [resize, List.take_nil, List.length_nil, Nat.sub_zero, List.nil_append] at hch
    rw [List.eq_of_mem_replicate hch]
    simp [Choice.zero]

theorem foldlM_congr_mem {σ α : Type} (f g : σ → α → Except Fault σ) :
    ∀ (l : List α), (∀ x ∈ l, ∀ s, f s x = g s x) → ∀ s, l.foldlM f s = l.foldlM g s := by
  intro l
  induction l with
  | nil => intro _ s; rfl
  | cons x l ih =>
    intro h s
    rw [List.foldlM_cons, List.foldlM_cons, h x (List.mem_cons_self _ _) s]
    exact bind_congr_ok _ _ _
      (fun s1 _ => ih (fun y hy s2 => h y (List.mem_cons_of_mem _ hy) s2) s1)

theorem foldlM_flatMap {σ α β : Type} (f : σ → β → Except Fault σ) (h : α → List β) :
    ∀ (l : List α) (s : σ),
      (l.flatMap h).foldlM f s = l.foldlM (fun s x => (h x).foldlM f s) s := by
  intro l
  induction l with
  | nil => intro s; rfl
  | cons x l ih =>
    intro s
    rw [List.flatMap_cons, List.foldlM_append, List.foldlM_cons]
    exact bind_congr_ok _ _ _ (fun s1 _ => ih s1)

/-- The materializing pass is one store per choice, in the order of the choice list; each store
writes the slot `iter_` and advances `iter_` (`storeChoice`). -/
theorem setPass_stores (data : Data) (depth : Nat) (hd : 1 ≤ depth) (s : SearchEngine) :
    SearchEngine.combination data depth [] (List.range data.nVar) 's' s =
      (enumeration data depth).foldlM
        (fun s ch => SearchEngine.storeChoice depth ch.vIdx ch.cIdx s) s := by
  rw [combination_eq]
  simp only [show (('s' : Char) = 'c') = False by decide, if_false, List.length_nil,
    Nat.sub_zero, List.nil_append]
  unfold enumeration
  rw [foldlM_flatMap]
  apply foldlM_congr_mem
  intro S hS s1
  rw [setChoices_eq data depth S s1 hd (List.mem_sublistsLen.mp hS).2, List.foldlM_map]

/-- C2. For depth 1, 2 or 3 and every list of cut counts, the counting pass (`combination` in
mode `'c'` with `countChoices`) adds to `totalChoices_` the sum, over all `depth`-element
subsets of the variable indices, of the product of `nCut v` over the subset; the constructed
engine has exactly that number of choices. -/
theorem count_pass_total (data : Data) (depth nThreads hardware : Nat)
    (hdepth : depth = 1 ∨ depth = 2 ∨ depth = 3) :
    (∀ s : SearchEngine,
      SearchEngine.combination data depth [] (List.range data.nVar) 'c' s =
        .ok { s with totalChoices_ := s.totalChoices_ +
          ∑ S ∈ Finset.powersetCard depth (Finset.range data.nVar), ∏ v ∈ S, data.nCut v }) ∧
    (SearchEngine.construct data depth nThreads hardware).1.totalChoices_ =
      ∑ S ∈ Finset.powersetCard depth (Finset.range data.nVar), ∏ v ∈ S, data.nCut v := by
  have hsum := sum_sublistsLen_eq data.nCut (List.range data.nVar) (List.nodup_range _) depth
  have hfin : (List.range data.nVar).toFinset = Finset.range data.nVar := by
    ext x; simp
  rw [hfin] at hsum
  constructor
  · intro s
    rw [countPass_eq, hsum]
  · rw [construct_eq data depth nThreads hardware hdepth]
    simp only
    rw [length_enumeration, hsum]

/-- C2, concrete instance: depth 1 with the cut counts `[2, 3, 4]` gives 9 choices. -/
theorem count_pass_total_witness :
    ((1 : Nat) = 1 ∨ (1 : Nat) = 2 ∨ (1 : Nat) = 3) ∧
    (SearchEngine.construct demoData 1 2 2).1.totalChoices_ = 9 := by
  refine ⟨by decide, ?_⟩
  rw [(count_pass_total demoData 1 2 2 (by decide)).2]
  decide

/-! ## The choice list as a set of rules -/

theorem mem_cutTuples : ∀ (bs t : List Nat),
    t ∈ cutTuples bs ↔ t.length = bs.length ∧ ∀ d, d < bs.length → t.getD d 0 < bs.getD d 0 := by
  intro bs
  induction bs with
  | nil =>
    intro t
    simp [cutTuples, List.length_eq_zero]
  | cons b bs ih =>
    intro t
    simp only [cutTuples, List.mem_flatMap, List.mem_map, List.mem_range, List.length_cons]
    constructor
    · rintro ⟨c, hc, u, hu, rfl⟩
      obtain ⟨h1, h2⟩ := (ih u).mp hu
      refine ⟨by simp [h1], ?_⟩
      intro d hd
      cases d with
      | zero => simpa using hc
      | succ d =>
        simp only [List.getD_cons_succ]
        exact h2 d (by omega)
    · rintro ⟨h1, h2⟩
      cases t with
      | nil => simp at h1
      | cons c u =>
        refine ⟨c, by simpa using h2 0 (by omega), u, (ih u).mpr ⟨by simpa using h1, ?_⟩, rfl⟩
        intro d hd
        have := h2 (d + 1) (by omega)
        simpa using this

theorem nodup_cutTuples : ∀ bs : List Nat, (cutTuples bs).Nodup := by
  intro bs
  induction bs with
  | nil => simp [cutTuples]
  | cons b bs ih =>
    simp only [cutTuples]
    rw [List.nodup_flatMap]
    constructor
    · intro c _
      exact ih.map (fun u v h => (List.cons.inj h).2)
    · refine (List.nodup_range b).imp ?_
      intro c c2 hne
      simp only [Function.onFun, List.disjoint_left, List.mem_map]
      rintro t ⟨u, _, rfl⟩ ⟨v, _, h⟩
      exact hne (List.cons.inj h).1.symm

theorem mem_enumeration (data : Data) (depth : Nat) (ch : Choice) :
    ch ∈ enumeration data depth ↔
      ch.vIdx ∈ List.sublistsLen depth (List.range data.nVar) ∧
      ch.cIdx ∈ cutTuples (ch.vIdx.map data.nCut) := by
  simp only [enumeration, List.mem_flatMap, List.mem_map]
  constructor
  · rintro ⟨S, hS, t, ht, rfl⟩
    exact ⟨hS, ht⟩
  · rintro ⟨h1, h2⟩
    exact ⟨ch.vIdx, h1, ch.cIdx, h2, rfl⟩

theorem nodup_enumeration (data : Data) (depth : Nat) : (enumeration data depth).Nodup := by
  unfold enumeration
  rw [List.nodup_flatMap]
  constructor
  · intro S _
    exact (nodup_cutTuples _).map (fun u v h => (Choice.mk.inj h).2)
  · refine (List.nodup_sublistsLen depth (List.nodup_range _)).imp ?_
    intro S S2 hne
    simp only [Function.onFun, List.disjoint_left, List.mem_map]
    rintro ch ⟨u, _, rfl⟩ ⟨v, _, h⟩
    exact hne (Choice.mk.inj h).1.symm

/-- The combinations completed by `combination` are the strictly increasing lists of `depth`
variable indices. -/
theorem mem_sublistsLen_range (n k : Nat) (vs : List Nat) :
    vs ∈ List.sublistsLen k (List.range n) ↔
      vs.length = k ∧ vs.Sorted (fun a b => a < b) ∧ ∀ v ∈ vs, v < n := by
  rw [List.mem_sublistsLen]
  constructor
  · rintro ⟨hsub, hlen⟩
    refine ⟨hlen, List.Pairwise.sublist hsub (List.pairwise_lt_range n), ?_⟩
    intro v hv
    exact List.mem_range.mp (hsub.subset hv)
  · rintro ⟨hlen, hsort, hlt⟩
    refine ⟨?_, hlen⟩
    apply List.sublist_of_subperm_of_sorted _ hsort (List.sorted_lt_range n)
    apply List.subperm_of_subset hsort.nodup
    intro v hv
    exact List.mem_range.mpr (hlt v hv)

theorem getD_map_lt (f : Nat → Nat) (l : List Nat) (d : Nat) (h : d < l.length) :
    (l.map f).getD d 0 = f (l.getD d 0) := by
  simp [List.getD_eq_getElem?_getD, List.getElem?_eq_getElem h]

/-- Membership in the choice list: the admissible rules. -/
theorem mem_enumeration_iff (data : Data) (depth : Nat) (ch : Choice) :
    ch ∈ enumeration data depth ↔
      ch.vIdx.length = depth ∧ ch.cIdx.length = depth ∧
      ch.vIdx.Sorted (fun a b => a < b) ∧ (∀ v ∈ ch.vIdx, v < data.nVar) ∧
      ∀ d, d < depth → ch.cIdx.getD d 0 < data.nCut (ch.vIdx.getD d 0) := by
  rw [mem_enumeration, mem_sublistsLen_range, mem_cutTuples, List.length_map]
  constructor
  · rintro ⟨⟨h1, h2, h3⟩, h4, h5⟩
    refine ⟨h1, by omega, h2, h3, ?_⟩
    intro d hd
    rw [← getD_map_lt data.nCut ch.vIdx d (by omega)]
    exact h5 d (by omega)
  · rintro ⟨h1, h2, h3, h4, h5⟩
    refine ⟨⟨h1, h3, h4⟩, by omega, ?_⟩
    intro d hd
    rw [getD_map_lt data.nCut ch.vIdx d hd]
    exact h5 d (by omega)

/-- C3. After construction at depth 1, 2 or 3 the choice list is a bijection with the admissible
rules: every choice has `depth` strictly increasing variable indices below `nVar` and cut
indices `c_d < nCut(v_d)`, and every such tuple is at exactly one identifier below
`totalChoices_`.  The materializing pass (`combination` in mode `'s'`) is one store per choice
of that list, in order, each store writing the slot `iter_` and then advancing `iter_`; started
at `iter_ = 0` by the constructor it ends without a fault (no store past the end of `choices_`)
with `iter_ = totalChoices_`, the length of `choices_`: the slots `0 .. totalChoices_ - 1` are
stored once each. -/
theorem choices_bijection (data : Data) (depth nThreads hardware : Nat)
    (hdepth : depth = 1 ∨ depth = 2 ∨ depth = 3) :
    ∃ e, SearchEngine.construct data depth nThreads hardware = (e, none) ∧
      e.choices_.length = e.totalChoices_ ∧ e.iter_ = e.totalChoices_ ∧
      (∀ s : SearchEngine,
        SearchEngine.combination data depth [] (List.range data.nVar) 's' s =
          e.choices_.foldlM (fun s ch => SearchEngine.storeChoice depth ch.vIdx ch.cIdx s) s) ∧
      (∀ ch ∈ e.choices_,
        ch.vIdx.length = depth ∧ ch.cIdx.length = depth ∧
        ch.vIdx.Sorted (fun a b => a < b) ∧ (∀ v ∈ ch.vIdx, v < data.nVar) ∧
        ∀ d, d < depth → ch.cIdx.getD d 0 < data.nCut (ch.vIdx.getD d 0)) ∧
      (∀ vs cs : List Nat, vs.length = depth → cs.length = depth →
        vs.Sorted (fun a b => a < b) → (∀ v ∈ vs, v < data.nVar) →
        (∀ d, d < depth → cs.getD d 0 < data.nCut (vs.getD d 0)) →
        ∃! i, i < e.totalChoices_ ∧ e.choices_[i]? = some ⟨vs, cs⟩) := by
  refine ⟨_, construct_eq data depth nThreads hardware hdepth, rfl, rfl, ?_, ?_, ?_⟩
  · intro s
    exact setPass_stores data depth (by omega) s
  · intro ch hch
    exact (mem_enumeration_iff data depth ch).mp hch
  · intro vs cs h1 h2 h3 h4 h5
    have hmem : (⟨vs, cs⟩ : Choice) ∈ enumeration data depth :=
      (mem_enumeration_iff data depth ⟨vs, cs⟩).mpr ⟨h1, h2, h3, h4, h5⟩
    obtain ⟨i, hi⟩ := List.getElem?_of_mem hmem
    obtain ⟨hlt, hget⟩ := List.getElem?_eq_some.mp hi
    refine ⟨i, ⟨hlt, hi⟩, ?_⟩
    rintro j ⟨_, hj⟩
    obtain ⟨hjlt, hjget⟩ := List.getElem?_eq_some.mp hj
    exact ((nodup_enumeration data depth).getElem_inj_iff).mp (hjget.trans hget.symm)

/-- C3, concrete instance: the demo dataset at depth 2; the rule "cut 1 of variable 0 and cut 2
of variable 1" has exactly one identifier. -/
theorem choices_bijection_witness :
    ((2 : Nat) = 1 ∨ (2 : Nat) = 2 ∨ (2 : Nat) = 3) ∧
    ∃ e, SearchEngine.construct demoData 2 2 2 = (e, none) ∧
      e.choices_.length = e.totalChoices_ ∧
      ∃! i, i < e.totalChoices_ ∧ e.choices_[i]? = some ⟨[0, 1], [1, 2]⟩ := by
  refine ⟨by decide, ?_⟩
  obtain ⟨e, he, h1, _, _, _, h4⟩ := choices_bijection demoData 2 2 2 (by decide)
  refine ⟨e, he, h1, h4 [0, 1] [1, 2] rfl rfl (by decide) (by decide) ?_⟩
  intro d hd
  interval_cases d <;> decide

/-! ## The order of the cut tuples inside a block -/

theorem mixedRadix_mod : ∀ (bs : List Nat) (k : Nat),
    mixedRadix bs (k % bs.prod) = mixedRadix bs k := by
  intro bs
  induction bs with
  | nil => intro k; rfl
  | cons b bs ih =>
    intro k
    simp only [mixedRadix, List.prod_cons]
    congr 1
    · rw [Nat.mul_comm b, Nat.mod_mul_right_div_self, Nat.mod_mod]
    · rw [← ih (k % (b * bs.prod)), Nat.mod_mul_left_mod, ih]

theorem range_mul_flatMap {α : Type} (g : Nat → α) (P : Nat) :
    ∀ b : Nat, (List.range (b * P)).map g =
      (List.range b).flatMap fun c => (List.range P).map fun k => g (c * P + k) := by
  intro b
  induction b with
  | zero => simp
  | succ b ih =>
    rw [List.range_succ, List.flatMap_append, ← ih, Nat.succ_mul, List.range_add, List.map_append]
    simp [List.map_map, Function.comp_def]

/-- The cut tuples in the order of `setChoicesHelper` are the mixed-radix digits of
`0, 1, ..., Π bounds - 1`. -/
theorem cutTuples_eq_mixedRadix : ∀ bs : List Nat,
    cutTuples bs = (List.range bs.prod).map (mixedRadix bs) := by
  intro bs
  induction bs with
  | nil => simp [cutTuples, mixedRadix, List.range_succ]
  | cons b bs ih =>
    rw [List.prod_cons, range_mul_flatMap, cutTuples, ih]
    apply List.flatMap_congr
    intro c hc
    rw [List.map_map]
    apply List.map_congr_left
    intro k hk
    have hk2 : k < bs.prod := List.mem_range.mp hk
    have hc2 : c < b := List.mem_range.mp hc
    simp only [Function.comp, mixedRadix]
    congr 1
    · rw [Nat.mul_comm c, Nat.mul_add_div (by omega), Nat.div_eq_of_lt hk2, Nat.add_zero,
        Nat.mod_eq_of_lt hc2]
    · rw [← mixedRadix_mod bs (c * bs.prod + k), Nat.mul_add_mod_of_lt hk2]

/-- C4. In the engine constructed at depth 1, 2 or 3, the identifiers of one variable
combination `vs` (strictly increasing, `depth` indices below `nVar`) form a block
`[off, off + Π nCut(v_d))`, and the choice at offset `k` inside the block has the cut tuple
equal to the mixed-radix digits of `k` with radices `nCut(v_0), ..., nCut(v_{depth-1})`, most
significant digit first: row-major order, last dimension fastest. -/
theorem block_row_major (data : Data) (depth nThreads hardware : Nat)
    (hdepth : depth = 1 ∨ depth = 2 ∨ depth = 3) :
    ∃ e, SearchEngine.construct data depth nThreads hardware = (e, none) ∧
      ∀ vs : List Nat, vs.length = depth → vs.Sorted (fun a b => a < b) →
        (∀ v ∈ vs, v < data.nVar) →
        ∃ off,
          (∀ k, k < (vs.map data.nCut).prod →
            e.choices_[off + k]? = some ⟨vs, mixedRadix (vs.map data.nCut) k⟩) ∧
          (∀ i ch, e.choices_[i]? = some ch → ch.vIdx = vs →
            off ≤ i ∧ i < off + (vs.map data.nCut).prod) := by
  refine ⟨_, construct_eq data depth nThreads hardware hdepth, ?_⟩
  intro vs h1 h2 h3
  have hmem : vs ∈ List.sublistsLen depth (List.range data.nVar) :=
    (mem_sublistsLen_range _ _ _).mpr ⟨h1, h2, h3⟩
  obtain ⟨C1, C2, hC⟩ := List.append_of_mem hmem
  have hnd := List.nodup_sublistsLen depth (List.nodup_range data.nVar)
  rw [hC] at hnd
  have hn1 : vs ∉ C1 := fun h =>
    (List.nodup_append.mp hnd).2.2 h (List.mem_cons_self _ _)
  have hn2 : vs ∉ C2 := (List.nodup_cons.mp (List.nodup_append.mp hnd).2.1).1
  have hE : enumeration data depth =
      (C1.flatMap fun S => (cutTuples (S.map data.nCut)).map (Choice.mk S)) ++
        ((List.range (vs.map data.nCut).prod).map fun k =>
          (⟨vs, mixedRadix (vs.map data.nCut) k⟩ : Choice)) ++
        (C2.flatMap fun S => (cutTuples (S.map data.nCut)).map (Choice.mk S)) := by
    unfold enumeration
    rw [hC, List.flatMap_append, List.flatMap_cons, cutTuples_eq_mixedRadix (vs.map data.nCut),
      List.map_map, List.append_assoc]
    rfl
  simp only
  refine ⟨(C1.flatMap fun S => (cutTuples (S.map data.nCut)).map (Choice.mk S)).length, ?_, ?_⟩
  · intro k hk
    rw [hE, List.append_assoc, List.getElem?_append_right (by omega),
      Nat.add_sub_cancel_left, List.getElem?_append_left (by simpa using hk),
      List.getElem?_map, List.getElem?_range hk]
    rfl
  · intro i ch hi hv
    rw [hE] at hi
    by_cases hlo : i < (C1.flatMap fun S =>
        (cutTuples (S.map data.nCut)).map (Choice.mk S)).length
    · exfalso
      rw [List.append_assoc, List.getElem?_append_left hlo] at hi
      have := List.getElem?_mem hi
      simp only [List.mem_flatMap, List.mem_map] at this
      obtain ⟨S, hS, t, _, rfl⟩ := this
      exact hn1 (hv ▸ hS)
    · refine ⟨by omega, ?_⟩
      by_contra hhi
      rw [List.getElem?_append_right (by
        simp only [List.length_append, List.length_map, List.length_range]; omega)] at hi
      have := List.getElem?_mem hi
      simp only [List.mem_flatMap, List.mem_map] at this
      obtain ⟨S, hS, t, _, rfl⟩ := this
      exact hn2 (hv ▸ hS)

/-- C4, concrete instance: the block of the variables 0 and 1 of the demo dataset at depth 2
(cut counts 2 and 3). -/
theorem block_row_major_witness :
    ((2 : Nat) = 1 ∨ (2 : Nat) = 2 ∨ (2 : Nat) = 3) ∧
    ∃ e, SearchEngine.construct demoData 2 2 2 = (e, none) ∧
      ∃ off, ∀ k, k < ([0, 1].map demoData.nCut).prod →
        e.choices_[off + k]? = some ⟨[0, 1], mixedRadix ([0, 1].map demoData.nCut) k⟩ := by
  refine ⟨by decide, ?_⟩
  obtain ⟨e, he, h⟩ := block_row_major demoData 2 2 2 (by decide)
  obtain ⟨off, h1, _⟩ := h [0, 1] rfl (by decide) (by decide)
  exact ⟨e, he, off, h1⟩

/-! ## Failure and degenerate cases of the constructor -/

/-- C7. The constructor ends with the fault `invalidDepth` exactly when `depth` is not 1, 2 or
3; the fault is immediate: the members are still as they were before the body (no choice
counted, none materialized, both buffers of size 0); and for depth 1, 2 or 3 the constructor
ends without any fault. -/
theorem construct_fault_iff (data : Data) (depth nThreads hardware : Nat) :
    ((SearchEngine.construct data depth nThreads hardware).2 = some Fault.invalidDepth ↔
      ¬ (depth = 1 ∨ depth = 2 ∨ depth = 3)) ∧
    (¬ (depth = 1 ∨ depth = 2 ∨ depth = 3) →
      (SearchEngine.construct data depth nThreads hardware).1 = SearchEngine.fresh ∧
      (SearchEngine.construct data depth nThreads hardware).1.totalChoices_ = 0 ∧
      (SearchEngine.construct data depth nThreads hardware).1.choices_ = [] ∧
      (SearchEngine.construct data depth nThreads hardware).1.scores_ = []) ∧
    ((depth = 1 ∨ depth = 2 ∨ depth = 3) →
      (SearchEngine.construct data depth nThreads hardware).2 = none) := by
  have hbad : ¬ (depth = 1 ∨ depth = 2 ∨ depth = 3) →
      SearchEngine.construct data depth nThreads hardware =
        (SearchEngine.fresh, some Fault.invalidDepth) := by
    intro h
    unfold SearchEngine.construct
    simp only
    rw [if_pos (by omega)]
  refine ⟨⟨?_, ?_⟩, ?_, ?_⟩
  · intro h hd
    rw [construct_eq data depth nThreads hardware hd] at h
    cases h
  · intro h
    rw [hbad h]
  · intro h
    rw [hbad h]
    exact ⟨rfl, rfl, rfl, rfl⟩
  · intro h
    rw [construct_eq data depth nThreads hardware h]

/-- C7, concrete instances: depth 4 is refused at once, depth 2 is accepted. -/
theorem construct_fault_iff_witness :
    SearchEngine.construct demoData 4 2 2 = (SearchEngine.fresh, some Fault.invalidDepth) ∧
    (SearchEngine.construct demoData 2 2 2).2 = none := by
  have h4 := construct_fault_iff demoData 4 2 2
  have h2 := construct_fault_iff demoData 2 2 2
  refine ⟨Prod.ext (h4.2.1 (by decide)).1 (h4.1.mpr (by decide)), h2.2.2 (by decide)⟩

/-! ## The reporter -/

theorem bestOf_mem (comp : Nat → Nat → Bool) : ∀ (ys : List Nat) (b : Nat),
    bestOf comp b ys ∈ b :: ys := by
  intro ys
  induction ys with
  | nil => intro b; simp [bestOf]
  | cons y ys ih =>
    intro b
    unfold bestOf
    split
    · exact List.mem_cons_of_mem _ (ih y)
    · rcases List.mem_cons.mp (ih b) with h | h
      · rw [h]; exact List.mem_cons_self _ _
      · exact List.mem_cons_of_mem _ (List.mem_cons_of_mem _ h)

/-- For the comparator of `report`, `bestOf` returns an index of maximal score. -/
theorem bestOf_max (s : SearchEngine) : ∀ (ys : List Nat) (b y : Nat), y ∈ b :: ys →
    s.scores_.getD y 0 ≤ s.scores_.getD (bestOf s.scoreGreater b ys) 0 := by
  intro ys
  induction ys with
  | nil =>
    intro b y hy
    simp only [List.mem_singleton] at hy
    rw [hy]; exact le_refl _
  | cons z ys ih =>
    intro b y hy
    unfold bestOf
    by_cases hc : s.scoreGreater z b = true
    · rw [if_pos hc]
      have hzb : s.scores_.getD b 0 < s.scores_.getD z 0 := by
        simpa [SearchEngine.scoreGreater] using hc
      rcases List.mem_cons.mp hy with h | h
      · rw [h]
        exact le_trans (le_of_lt hzb) (ih z z (List.mem_cons_self _ _))
      · exact ih z y h
    · rw [if_neg hc]
      have hzb : s.scores_.getD z 0 ≤ s.scores_.getD b 0 := by
        simpa [SearchEngine.scoreGreater] using hc
      rcases List.mem_cons.mp hy with h | h
      · rw [h]; exact ih b b (List.mem_cons_self _ _)
      · rcases List.mem_cons.mp h with h2 | h2
        · rw [h2]
          exact le_trans hzb (ih b b (List.mem_cons_self _ _))
        · exact ih b y (List.mem_cons_of_mem _ h2)

theorem partial_sort_perm (comp : Nat → Nat → Bool) : ∀ (k : Nat) (xs : List Nat),
    (partial_sort comp k xs).Perm xs := by
  intro k
  induction k with
  | zero => intro xs; cases xs <;> exact List.Perm.refl _
  | succ k ih =>
    intro xs
    cases xs with
    | nil => exact List.Perm.refl _
    | cons x t =>
      simp only [partial_sort]
      exact ((ih _).cons _).trans (List.perm_cons_erase (bestOf_mem comp t x)).symm

/-- The contract of the partial sort for the comparator of `report`: the first `k` positions
are in non-increasing score order and no later position has a larger score. -/
theorem partial_sort_top (s : SearchEngine) : ∀ (k : Nat) (xs : List Nat),
    ((partial_sort s.scoreGreater k xs).take k).Pairwise
        (fun a b => s.scores_.getD b 0 ≤ s.scores_.getD a 0) ∧
    ∀ a ∈ (partial_sort s.scoreGreater k xs).take k,
      ∀ b ∈ (partial_sort s.scoreGreater k xs).drop k,
        s.scores_.getD b 0 ≤ s.scores_.getD a 0 := by
  intro k
  induction k with
  | zero =>
    intro xs
    simp
  | succ k ih =>
    intro xs
    cases xs with
    | nil => simp [partial_sort]
    | cons x t =>
      simp only [partial_sort, List.take_succ_cons, List.drop_succ_cons, List.pairwise_cons,
        List.mem_cons]
      obtain ⟨ih1, ih2⟩ := ih ((x :: t).erase (bestOf s.scoreGreater x t))
      have hrest : ∀ a, a ∈ partial_sort s.scoreGreater k
          ((x :: t).erase (bestOf s.scoreGreater x t)) →
          s.scores_.getD a 0 ≤ s.scores_.getD (bestOf s.scoreGreater x t) 0 := by
        intro a ha
        have h1 := (partial_sort_perm s.scoreGreater k _).subset ha
        exact bestOf_max s t x a (List.mem_of_mem_erase h1)
      refine ⟨⟨fun a ha => hrest a (List.mem_of_mem_take ha), ih1⟩, ?_⟩
      rintro a (rfl | ha) b hb
      · exact hrest b (List.mem_of_mem_drop hb)
      · exact ih2 a ha b hb

theorem writeScore_length (v : List ℚ) (base j : Nat) (sc sc1 : List ℚ)
    (h : SearchEngine.writeScore v base j sc = .ok sc1) : sc1.length = sc.length := by
  unfold SearchEngine.writeScore at h
  split at h
  · split at h
    · cases h
      simp
    · cases h
  · cases h

/-- Scoring a choice keeps the choice list and the length of the score table. -/
theorem scoreChoice_shape (data : Data) (depth i : Nat) (s s1 : SearchEngine)
    (h : SearchEngine.scoreChoice data depth i s = .ok s1) :
    (s1.choices_, s1.scores_.length) = (s.choices_, s.scores_.length) := by
  unfold SearchEngine.scoreChoice at h
  cases hch : s.choices_[i]? with
  | none => simp [hch] at h
  | some ch =>
    simp only [hch] at h
    cases hv : SearchEngine.accumulator data depth ch with
    | error e => rw [hv] at h; cases h
    | ok v =>
      rw [hv, ok_bind] at h
      cases hw : forLoop (SearchEngine.writeScore v (i * 1 <<< depth)) 0 (1 <<< depth) s.scores_ with
      | error e => rw [hw] at h; cases h
      | ok sc =>
        rw [hw, ok_bind] at h
        cases h
        have := forLoop_preserves (SearchEngine.writeScore v (i * 1 <<< depth)) List.length
          (fun j a b hab => writeScore_length v _ j a b hab) _ _ _ _ hw
        simp only [this]

/-- The member function `run` keeps the choice list and the length of the score table. -/
theorem run_shape (data : Data) (depth : Nat) (s s1 : SearchEngine)
    (h : SearchEngine.run data depth s = .ok s1) :
    (s1.choices_, s1.scores_.length) = (s.choices_, s.scores_.length) := by
  unfold SearchEngine.run at h
  refine forLoop_preserves (SearchEngine.worker data depth)
    (fun e => (e.choices_, e.scores_.length)) ?_ _ _ _ _ h
  intro tid a b hab
  unfold SearchEngine.worker at hab
  split at hab
  · cases hab
  · exact forLoop_preserves (SearchEngine.scoreChoice data depth)
      (fun e => (e.choices_, e.scores_.length)) (scoreChoice_shape data depth) _ _ _ _ hab

/-- The shape of a constructed engine, before or after `run`. -/
theorem engine_shape (data : Data) (depth nThreads hardware : Nat)
    (hdepth : depth = 1 ∨ depth = 2 ∨ depth = 3) (e1 : SearchEngine)
    (h : e1 = (SearchEngine.construct data depth nThreads hardware).1 ∨
      SearchEngine.run data depth (SearchEngine.construct data depth nThreads hardware).1 =
        .ok e1) :
    e1.choices_ = enumeration data depth ∧
    e1.scores_.length = (enumeration data depth).length * 2 ^ depth := by
  rw [construct_eq data depth nThreads hardware hdepth] at h
  rcases h with h | h
  · subst h
    simp [Nat.shiftLeft_eq]
  · have := run_shape data depth _ _ h
    simp only [Prod.mk.injEq, List.length_replicate, Nat.shiftLeft_eq] at this
    exact this

theorem ranking_eq (s : SearchEngine) (nTop : Nat) (h : s.choices_.length ≤ s.scores_.length) :
    SearchEngine.ranking s nTop =
      .ok (min nTop s.choices_.length,
        partial_sort s.scoreGreater (min nTop s.choices_.length)
          (List.range s.scores_.length)) := by
  unfold SearchEngine.ranking
  simp only [List.length_range]
  rw [if_pos (by omega)]

/-- C10. For the engine constructed at depth 1, 2 or 3, before or after `run`, and every
`topK`: `report` renders its lines from the first `min topK totalChoices_` positions of the
sorted index vector, line `i` from position `i`; along these positions the raw scores are
non-increasing, the flat indices are pairwise distinct entries of the score table, and every
entry of the table that is not among them has a raw score at most the raw score of each of
them. -/
theorem report_ranking (data : Data) (depth nThreads hardware : Nat)
    (hdepth : depth = 1 ∨ depth = 2 ∨ depth = 3) :
    ∃ e, SearchEngine.construct data depth nThreads hardware = (e, none) ∧
      ∀ e1, (e1 = e ∨ SearchEngine.run data depth e = .ok e1) → ∀ topK,
        ∃ index,
          SearchEngine.ranking e1 topK = .ok (min topK e.totalChoices_, index) ∧
          SearchEngine.report data depth e1 topK =
            (List.range (min topK e.totalChoices_)).mapM
              (SearchEngine.reportLine data depth e1 index) ∧
          (index.take (min topK e.totalChoices_)).length = min topK e.totalChoices_ ∧
          (index.take (min topK e.totalChoices_)).Pairwise
            (fun a b => e1.scores_.getD b 0 ≤ e1.scores_.getD a 0) ∧
          (index.take (min topK e.totalChoices_)).Nodup ∧
          (∀ i ∈ index.take (min topK e.totalChoices_), i < e1.scores_.length) ∧
          ∀ j, j < e1.scores_.length → j ∉ index.take (min topK e.totalChoices_) →
            ∀ i ∈ index.take (min topK e.totalChoices_),
              e1.scores_.getD j 0 ≤ e1.scores_.getD i 0 := by
  have hce := construct_eq data depth nThreads hardware hdepth
  refine ⟨_, hce, ?_⟩
  intro e1 he1 topK
  have hshape := engine_shape data depth nThreads hardware hdepth e1 (by rw [hce]; exact he1)
  have hle : e1.choices_.length ≤ e1.scores_.length := by
    rw [hshape.2, hshape.1]
    exact Nat.le_mul_of_pos_right _ (Nat.pos_pow_of_pos _ (by norm_num))
  have hrank := ranking_eq e1 topK hle
  rw [hshape.1] at hrank
  have hperm := partial_sort_perm e1.scoreGreater (min topK (enumeration data depth).length)
    (List.range e1.scores_.length)
  have htop := partial_sort_top e1 (min topK (enumeration data depth).length)
    (List.range e1.scores_.length)
  refine ⟨_, hrank, ?_, ?_, htop.1, ?_, ?_, ?_⟩
  · unfold SearchEngine.report
    rw [hrank, ok_bind]
  · rw [List.length_take, hperm.length_eq, List.length_range, hshape.2]
    have : (enumeration data depth).length ≤ (enumeration data depth).length * 2 ^ depth :=
      Nat.le_mul_of_pos_right _ (Nat.pos_pow_of_pos _ (by norm_num))
    simp only
    omega
  · exact (hperm.nodup_iff.mpr (List.nodup_range _)).sublist (List.take_sublist _ _)
  · intro i hi
    exact List.mem_range.mp (hperm.subset (List.mem_of_mem_take hi))
  · intro j hj hnot i hi
    have hmem : j ∈ partial_sort e1.scoreGreater (min topK (enumeration data depth).length)
        (List.range e1.scores_.length) := hperm.symm.subset (List.mem_range.mpr hj)
    rw [← List.take_append_drop (min topK (enumeration data depth).length)
      (partial_sort e1.scoreGreater (min topK (enumeration data depth).length)
        (List.range e1.scores_.length))] at hmem
    rcases List.mem_append.mp hmem with h | h
    · exact absurd h hnot
    · exact htop.2 i hi j h

/-- C10, concrete instance: the demo dataset at depth 2, top 5 of the freshly constructed
engine. -/
theorem report_ranking_witness :
    ((2 : Nat) = 1 ∨ (2 : Nat) = 2 ∨ (2 : Nat) = 3) ∧
    ∃ e, SearchEngine.construct demoData 2 2 2 = (e, none) ∧
      ∃ index, SearchEngine.ranking e 5 = .ok (min 5 e.totalChoices_, index) ∧
        (index.take (min 5 e.totalChoices_)).Nodup := by
  refine ⟨by decide, ?_⟩
  obtain ⟨e, he, h⟩ := report_ranking demoData 2 2 2 (by decide)
  obtain ⟨index, h1, _, _, _, h5, _⟩ := h e (Or.inl rfl) 5
  exact ⟨e, he, index, h1, h5⟩

/-- The loop of lines 78-81 appends the fragments of the dimensions `0 .. n - 1` in order. -/
theorem fragments_eq (data : Data) (depth : Nat) (ch : Choice) (mask : Nat) (rule : String) :
    ∀ n : Nat, n ≤ ch.vIdx.length → n ≤ ch.cIdx.length →
      forLoop (SearchEngine.addFragment data depth ch mask) 0 n rule =
        .ok ((List.range n).foldl (fun r d =>
          r ++ data.cutInfo (ch.vIdx.getD d 0) (ch.cIdx.getD d 0)
            (mask &&& (1 <<< (depth - 1 - d)))) rule) := by
  intro n
  induction n with
  | zero => intro _ _; rfl
  | succ n ih =>
    intro h1 h2
    rw [forLoop_succ_last, ih (by omega) (by omega), ok_bind, Nat.zero_add, List.range_succ,
      List.foldl_append]
    unfold SearchEngine.addFragment
    simp only [List.getElem?_eq_getElem (show n < ch.vIdx.length by omega),
      List.getElem?_eq_getElem (show n < ch.cIdx.length by omega), List.foldl_cons,
      List.foldl_nil, List.getD_eq_getElem?_getD, Option.getD_some]

theorem fragments_length (data : Data) (depth : Nat) (ch : Choice) (mask : Nat)
    (hfrag : ∀ v c f, 2 ≤ (data.cutInfo v c f).length) (rule : String) :
    ∀ n : Nat, rule.length + 2 * n ≤
      ((List.range n).foldl (fun r d =>
        r ++ data.cutInfo (ch.vIdx.getD d 0) (ch.cIdx.getD d 0)
          (mask &&& (1 <<< (depth - 1 - d)))) rule).length := by
  intro n
  induction n with
  | zero => simp
  | succ n ih =>
    rw [List.range_succ, List.foldl_append]
    simp only [List.foldl_cons, List.foldl_nil, String.length_append]
    have := hfrag (ch.vIdx.getD n 0) (ch.cIdx.getD n 0) (mask &&& (1 <<< (depth - 1 - n)))
    omega

theorem pop_back_eq (rule : String) (h : 1 ≤ rule.length) :
    pop_back rule = .ok ⟨rule.data.dropLast⟩ ∧
      (⟨rule.data.dropLast⟩ : String).length = rule.length - 1 := by
  unfold pop_back
  have hne : rule.data ≠ [] := by
    intro h0
    have : rule.length = 0 := by
      show rule.data.length = 0
      rw [h0]; rfl
    omega
  rw [if_neg hne]
  refine ⟨rfl, ?_⟩
  show rule.data.dropLast.length = rule.data.length - 1
  simp

theorem mapM_length {α β : Type} (f : α → Except Fault β) :
    ∀ xs : List α, (∀ x ∈ xs, ∃ y, f x = .ok y) →
      ∃ ys, xs.mapM f = .ok ys ∧ ys.length = xs.length := by
  intro xs
  induction xs with
  | nil => intro _; exact ⟨[], rfl, rfl⟩
  | cons x xs ih =>
    intro h
    obtain ⟨y, hy⟩ := h x (List.mem_cons_self _ _)
    obtain ⟨ys, hys, hlen⟩ := ih (fun z hz => h z (List.mem_cons_of_mem _ hz))
    refine ⟨y :: ys, ?_, by simp [hlen]⟩
    rw [List.mapM_cons, hy, hys]
    rfl

/-- On an engine of the constructed shape, `report` renders every requested line: the number
of lines is the capped `nTop` of line 57. -/
theorem report_length (data : Data) (depth : Nat) (s : SearchEngine) (hd : 1 ≤ depth)
    (hlen : s.scores_.length = s.choices_.length * 2 ^ depth)
    (harr : ∀ ch ∈ s.choices_, ch.vIdx.length = depth ∧ ch.cIdx.length = depth)
    (hfrag : ∀ v c f, 2 ≤ (data.cutInfo v c f).length) (nTop : Nat) :
    ∃ lines, SearchEngine.report data depth s nTop = .ok lines ∧
      lines.length = min nTop s.choices_.length := by
  have hle : s.choices_.length ≤ s.scores_.length := by
    rw [hlen]
    exact Nat.le_mul_of_pos_right _ (Nat.pos_pow_of_pos _ (by norm_num))
  have hperm := partial_sort_perm s.scoreGreater (min nTop s.choices_.length)
    (List.range s.scores_.length)
  unfold SearchEngine.report
  rw [ranking_eq s nTop hle, ok_bind]
  simp only
  have hall : ∀ i ∈ List.range (min nTop s.choices_.length),
      ∃ y, SearchEngine.reportLine data depth s
        (partial_sort s.scoreGreater (min nTop s.choices_.length)
          (List.range s.scores_.length)) i = .ok y := by
    intro i hi
    have hi2 : i < (partial_sort s.scoreGreater (min nTop s.choices_.length)
        (List.range s.scores_.length)).length := by
      rw [hperm.length_eq, List.length_range]
      have := List.mem_range.mp hi
      omega
    have hsid : (partial_sort s.scoreGreater (min nTop s.choices_.length)
        (List.range s.scores_.length))[i] < s.scores_.length :=
      List.mem_range.mp (hperm.subset (List.getElem_mem hi2))
    have hget := List.getElem?_eq_getElem hi2
    generalize (partial_sort s.scoreGreater (min nTop s.choices_.length)
        (List.range s.scores_.length))[i] = sID at hsid hget
    have hcid : sID >>> depth < s.choices_.length := by
      rw [Nat.shiftRight_eq_div_pow]
      exact (Nat.div_lt_iff_lt_mul (Nat.pos_pow_of_pos _ (by norm_num))).mpr (hlen ▸ hsid)
    have hch := harr _ (List.getElem_mem hcid)
    unfold SearchEngine.reportLine
    simp only [hget, List.getElem?_eq_getElem hsid, List.getElem?_eq_getElem hcid]
    rw [fragments_eq data depth _ _ "" depth (by omega) (by omega), ok_bind]
    have h0 := fragments_length data depth (s.choices_[sID >>> depth])
      (sID % 1 <<< depth) hfrag "" depth
    have hp1 := pop_back_eq _ (show 1 ≤ _ from le_trans (by omega) h0)
    rw [hp1.1, ok_bind]
    have hp2 := pop_back_eq _ (show 1 ≤ _ by rw [hp1.2]; omega)
    rw [hp2.1, ok_bind]
    exact ⟨_, rfl⟩
  obtain ⟨ys, h1, h2⟩ := mapM_length _ _ hall
  exact ⟨ys, h1, by rw [h2, List.length_range]⟩

/-- With packed words whose nibbles are 0 or 1, `run` ends without a fault on every engine whose
score table has `2 ^ depth` entries per choice. -/
theorem run_ok (data : Data) (depth : Nat) (hdepth : depth = 1 ∨ depth = 2 ∨ depth = 3)
    (hact : ∀ j, data.act j < 2 ^ 32 ∧ ∀ k, k < 8 → sampleNibble (data.act j) k ≤ 1)
    (hmask : ∀ v c j, data.cutMask v c j < 2 ^ 32 ∧
      ∀ k, k < 8 → sampleNibble (data.cutMask v c j) k ≤ 1)
    (s : SearchEngine) (hlen : s.scores_.length = s.choices_.length * 2 ^ depth) :
    ∃ s1, SearchEngine.run data depth s = .ok s1 := by
  by_cases hn : s.nThreads_ = 0
  · exact ⟨s, by unfold SearchEngine.run; rw [hn]; rfl⟩
  · rw [run_eq_loop data depth s hn]
    have hloop : ∀ n, n ≤ s.choices_.length →
        ∃ s1, forLoop (SearchEngine.scoreChoice data depth) 0 n s = .ok s1 := by
      intro n
      induction n with
      | zero => intro _; exact ⟨s, rfl⟩
      | succ n ih =>
        intro hle
        obtain ⟨s1, hs1⟩ := ih (by omega)
        have hsh := forLoop_preserves (SearchEngine.scoreChoice data depth)
          (fun e => (e.choices_, e.scores_.length)) (scoreChoice_shape data depth) _ _ _ _ hs1
        simp only [Prod.mk.injEq] at hsh
        have hlt : n < s1.choices_.length := by rw [hsh.1]; omega
        have hacc := accumulator_eq_sums data depth s1.choices_[n] hdepth hact
          (fun d _ j => hmask _ _ j)
        have hsc := scoreChoice_eq data depth n s1 s1.choices_[n] _
          (List.getElem?_eq_getElem hlt) hacc (by simp)
          (by
            rw [hsh.2, hlen]
            exact Nat.mul_le_mul_right _ (by omega))
        rw [forLoop_succ_last, hs1, ok_bind, Nat.zero_add, hsc]
        exact ⟨_, rfl⟩
    exact hloop _ (Nat.le_refl _)

/-- The packed words of the demo dataset are 32-bit words with nibbles 0 or 1. -/
theorem demoData_packed :
    (∀ j, demoData.act j < 2 ^ 32 ∧ ∀ k, k < 8 → sampleNibble (demoData.act j) k ≤ 1) ∧
    (∀ v c j, demoData.cutMask v c j < 2 ^ 32 ∧
      ∀ k, k < 8 → sampleNibble (demoData.cutMask v c j) k ≤ 1) := by
  have hw : ∀ w : Nat, w = 0x11001100 ∨ w = 0x01100110 ∨ w = 0x10101010 →
      w < 2 ^ 32 ∧ ∀ k, k < 8 → sampleNibble w k ≤ 1 := by
    rintro w (rfl | rfl | rfl) <;> refine ⟨by decide, fun k hk => ?_⟩ <;>
      interval_cases k <;> decide
  refine ⟨fun _ => hw _ (Or.inl rfl), ?_⟩
  intro v c j
  by_cases hv : v = 0
  · exact hw _ (Or.inr (Or.inl (by simp [demoData, hv])))
  · exact hw _ (Or.inr (Or.inr (by simp [demoData, hv])))

theorem demoData_fragments : ∀ v c f, 2 ≤ (demoData.cutInfo v c f).length := by
  intro v c f
  simp only [demoData]
  split <;> decide

/-- The report of a constructed engine, before or after `run`. -/
theorem report_constructed (data : Data) (depth nThreads hardware : Nat)
    (hdepth : depth = 1 ∨ depth = 2 ∨ depth = 3)
    (hfrag : ∀ v c f, 2 ≤ (data.cutInfo v c f).length) (e1 : SearchEngine)
    (h : e1 = (SearchEngine.construct data depth nThreads hardware).1 ∨
      SearchEngine.run data depth (SearchEngine.construct data depth nThreads hardware).1 =
        .ok e1) (topK : Nat) :
    ∃ lines, SearchEngine.report data depth e1 topK = .ok lines ∧
      lines.length = min topK (enumeration data depth).length := by
  have hshape := engine_shape data depth nThreads hardware hdepth e1 h
  have := report_length data depth e1 (by omega) (by rw [hshape.2, hshape.1])
    (by
      intro ch hch
      rw [hshape.1] at hch
      have := (mem_enumeration_iff data depth ch).mp hch
      exact ⟨this.1, this.2.1⟩) hfrag topK
  rw [hshape.1] at this
  exact this

/-- C9 as stated fails: the demo dataset at depth 1 has 9 choices and a score table of 18
entries; after `run`, `report(18)` writes 9 lines, not `min(18, 18) = 18`. -/
theorem report_cap_counterexample :
    ∃ e e1 lines, SearchEngine.construct demoData 1 2 2 = (e, none) ∧
      SearchEngine.run demoData 1 e = .ok e1 ∧ e1.scores_.length = 18 ∧
      SearchEngine.report demoData 1 e1 18 = .ok lines ∧ lines.length = 9 ∧
      lines.length ≠ min 18 e1.scores_.length := by
  have hce := construct_eq demoData 1 2 2 (by decide)
  have hlen : (enumeration demoData 1).length = 9 := by decide
  obtain ⟨e1, he1⟩ := run_ok demoData 1 (by decide) demoData_packed.1 demoData_packed.2
    (SearchEngine.construct demoData 1 2 2).1
    (by rw [hce]; simp [Nat.shiftLeft_eq])
  have hshape := engine_shape demoData 1 2 2 (by decide) e1 (Or.inr he1)
  obtain ⟨lines, hl1, hl2⟩ := report_constructed demoData 1 2 2 (by decide)
    demoData_fragments e1 (Or.inr he1) 18
  rw [hce] at he1
  rw [hlen] at hl2 hshape
  refine ⟨_, e1, lines, hce, he1, hshape.2, hl1, hl2, ?_⟩
  rw [hl2, hshape.2]
  decide

/-- C9, amended. For the engine constructed at depth 1, 2 or 3, before or after `run`, when
every description fragment of the provider has at least two characters (so that the two
`pop_back` calls of line 82-83 are defined): `report(topK)` caps `topK` to the number of
choices and writes exactly `min topK totalChoices_` lines, while the score table has
`totalChoices_ * 2 ^ depth` entries. -/
theorem report_line_count (data : Data) (depth nThreads hardware : Nat)
    (hdepth : depth = 1 ∨ depth = 2 ∨ depth = 3)
    (hfrag : ∀ v c f, 2 ≤ (data.cutInfo v c f).length) :
    ∃ e, SearchEngine.construct data depth nThreads hardware = (e, none) ∧
      ∀ e1, (e1 = e ∨ SearchEngine.run data depth e = .ok e1) →
        e1.scores_.length = e.totalChoices_ * 2 ^ depth ∧
        ∀ topK, ∃ lines, SearchEngine.report data depth e1 topK = .ok lines ∧
          lines.length = min topK e.totalChoices_ := by
  have hce := construct_eq data depth nThreads hardware hdepth
  refine ⟨_, hce, ?_⟩
  intro e1 he1
  have h : e1 = (SearchEngine.construct data depth nThreads hardware).1 ∨
      SearchEngine.run data depth (SearchEngine.construct data depth nThreads hardware).1 =
        .ok e1 := by rw [hce]; exact he1
  exact ⟨(engine_shape data depth nThreads hardware hdepth e1 h).2,
    fun topK => report_constructed data depth nThreads hardware hdepth hfrag e1 h topK⟩

/-- C9 amended, concrete instance: the demo dataset at depth 1, `report(18)` on the freshly
constructed engine. -/
theorem report_line_count_witness :
    ((1 : Nat) = 1 ∨ (1 : Nat) = 2 ∨ (1 : Nat) = 3) ∧
    (∀ v c f, 2 ≤ (demoData.cutInfo v c f).length) ∧
    ∃ e, SearchEngine.construct demoData 1 2 2 = (e, none) ∧
      ∃ lines, SearchEngine.report demoData 1 e 18 = .ok lines ∧
        lines.length = min 18 e.totalChoices_ := by
  refine ⟨by decide, demoData_fragments, ?_⟩
  obtain ⟨e, he, h⟩ := report_line_count demoData 1 2 2 (by decide) demoData_fragments
  exact ⟨e, he, (h e (Or.inl rfl)).2 18⟩

theorem enumeration_of_lt (data : Data) (depth : Nat) (h : data.nVar < depth) :
    enumeration data depth = [] := by
  unfold enumeration
  rw [List.sublistsLen_of_length_lt (by simpa using h)]
  rfl

/-- C8. With fewer variables than `depth` (depth 1, 2 or 3), the constructor ends without a
fault with zero choices and an empty score table; the range of every worker is empty, every
worker and `run` leave the engine as it is, and `report(topK)` writes no line, for every
`topK`. -/
theorem degenerate_engine (data : Data) (depth nThreads hardware : Nat)
    (hdepth : depth = 1 ∨ depth = 2 ∨ depth = 3) (hvar : data.nVar < depth) :
    ∃ e, SearchEngine.construct data depth nThreads hardware = (e, none) ∧
      e.totalChoices_ = 0 ∧ e.choices_ = [] ∧ e.scores_ = [] ∧
      (∀ tid, SearchEngine.workerRange e.choices_.length e.nThreads_ tid = (0, 0)) ∧
      (∀ tid, tid < e.nThreads_ → SearchEngine.worker data depth tid e = .ok e) ∧
      SearchEngine.run data depth e = .ok e ∧
      ∀ topK, SearchEngine.report data depth e topK = .ok [] := by
  have hce := construct_eq data depth nThreads hardware hdepth
  rw [enumeration_of_lt data depth hvar] at hce
  simp only [List.length_nil, Nat.zero_shiftLeft, List.replicate_zero] at hce
  refine ⟨_, hce, rfl, rfl, rfl, ?_, ?_, ?_, ?_⟩
  · intro tid
    simp [SearchEngine.workerRange]
  · intro tid htid
    simp only at htid
    unfold SearchEngine.worker
    simp only [List.length_nil]
    rw [if_neg (by omega)]
    simp [SearchEngine.workerRange]
  · rw [SearchEngine.run]
    by_cases hn : min nThreads hardware = 0
    · simp only [hn]
      rfl
    · rw [← SearchEngine.run, run_eq_loop _ _ _ hn]
      rfl
  · intro topK
    unfold SearchEngine.report SearchEngine.ranking
    simp only [List.length_nil, Nat.min_zero, List.range_zero, Nat.le_refl, if_true, ok_bind,
      partial_sort]
    rfl

/-- C8, concrete instance: one variable at depth 2. -/
theorem degenerate_engine_witness :
    ((2 : Nat) = 1 ∨ (2 : Nat) = 2 ∨ (2 : Nat) = 3) ∧
    ({ demoData with nVar := 1 } : Data).nVar < 2 ∧
    ∃ e, SearchEngine.construct { demoData with nVar := 1 } 2 2 2 = (e, none) ∧
      e.choices_ = [] ∧ e.scores_ = [] ∧
      SearchEngine.run { demoData with nVar := 1 } 2 e = .ok e ∧
      SearchEngine.report { demoData with nVar := 1 } 2 e 5 = .ok [] := by
  refine ⟨by decide, by decide, ?_⟩
  obtain ⟨e, he, _, h2, h3, _, _, h6, h7⟩ :=
    degenerate_engine { demoData with nVar := 1 } 2 2 2 (by decide) (by decide)
  exact ⟨e, he, h2, h3, h6, h7 5⟩


/-! ## The workers in any order -/

theorem forLoop_error {σ : Type} (body : Nat → σ → Except Fault σ)
    (hbody : ∀ i s e, body i s = .error e → e = Fault.outOfRange) :
    ∀ (n lo : Nat) (s : σ) (e : Fault), forLoop body lo n s = .error e →
      e = Fault.outOfRange := by
  intro n
  induction n with
  | zero =>
    intro lo s e h
    rw [forLoop_zero] at h
    cases h
  | succ n ih =>
    intro lo s e h
    rw [forLoop_succ] at h
    cases hb : body lo s with
    | error e1 =>
      rw [hb] at h
      cases h
      exact hbody _ _ _ hb
    | ok s1 =>
      rw [hb, ok_bind] at h
      exact ih _ _ _ h

theorem accumulate_shape (v : List ℚ) (i : Nat) (x : ℚ) :
    (∀ v1, accumulate v i x = .ok v1 → v1.length = v.length) ∧
    ∀ e, accumulate v i x = .error e → e = Fault.outOfRange := by
  unfold accumulate
  split
  · exact ⟨fun v1 h => (by cases h; simp), fun e h => (by cases h)⟩
  · exact ⟨fun v1 h => (by cases h), fun e h => (by cases h; rfl)⟩

theorem drain_shape (resp : Nat → ℚ) (j8 : Nat) : ∀ (cnt idx : Nat) (v : List ℚ),
    (∀ v1, SearchEngine.drain resp j8 cnt idx v = .ok v1 → v1.length = v.length) ∧
    ∀ e, SearchEngine.drain resp j8 cnt idx v = .error e → e = Fault.outOfRange := by
  intro cnt
  induction cnt with
  | zero =>
    intro idx v
    exact ⟨fun v1 h => (by cases h; rfl), fun e h => (by cases h)⟩
  | succ c ih =>
    intro idx v
    unfold SearchEngine.drain
    cases ha : accumulate v (idx &&& 0xF) (resp (j8 + c)) with
    | error e1 =>
      refine ⟨fun v1 h => (by cases h), fun e h => ?_⟩
      cases h
      exact (accumulate_shape _ _ _).2 _ ha
    | ok v2 =>
      simp only [ok_bind]
      have hl := (accumulate_shape _ _ _).1 _ ha
      exact ⟨fun v1 h => (by rw [(ih _ _).1 v1 h, hl]), fun e h => (ih _ _).2 e h⟩

/-- The accumulator of a choice, when it is computed, has `2 ^ (depth + 1)` entries; when it
is not, the fault is an access out of range. -/
theorem accumulator_shape (data : Data) (depth : Nat) (ch : Choice) :
    (∀ v, SearchEngine.accumulator data depth ch = .ok v → v.length = 2 ^ (depth + 1)) ∧
    ∀ e, SearchEngine.accumulator data depth ch = .error e → e = Fault.outOfRange := by
  unfold SearchEngine.accumulator
  simp only
  cases hl : forLoop (SearchEngine.batch data depth (SearchEngine.cutMasks data depth ch)) 0
      (data.nSample >>> 3) (List.replicate (1 <<< (depth + 1)) 0) with
  | error e1 =>
    refine ⟨fun v h => (by cases h), fun e h => ?_⟩
    cases h
    exact forLoop_error _ (fun j v e he => (drain_shape _ _ _ _ _).2 e he) _ _ _ _ hl
  | ok v1 =>
    have h1 := forLoop_preserves _ List.length
      (fun j a b hab => (drain_shape data.resp _ 8 _ a).1 b hab) _ _ _ _ hl
    simp only [List.length_replicate, Nat.shiftLeft_eq, Nat.one_mul] at h1
    simp only [ok_bind]
    unfold SearchEngine.tail
    simp only
    split
    · exact ⟨fun v h => (by rw [(drain_shape _ _ _ _ _).1 v h, h1]),
        fun e h => (drain_shape _ _ _ _ _).2 e h⟩
    · exact ⟨fun v h => (by cases h; exact h1), fun e h => (by cases h)⟩

theorem writeScore_loop_fail (v : List ℚ) (base : Nat) :
    ∀ (n lo : Nat) (scores : List ℚ), 1 ≤ n → 2 * (lo + n) ≤ v.length →
      scores.length < base + lo + n →
      forLoop (SearchEngine.writeScore v base) lo n scores = .error Fault.outOfRange := by
  intro n
  induction n with
  | zero => intro lo scores h; omega
  | succ n ih =>
    intro lo scores _ hv hlen
    rw [forLoop_succ]
    unfold SearchEngine.writeScore
    simp only [List.getElem?_eq_getElem (show 2 * lo + 1 < v.length by omega),
      List.getElem?_eq_getElem (show 2 * lo < v.length by omega)]
    by_cases hlt : base + lo < scores.length
    · rw [if_pos hlt, ok_bind]
      exact ih (lo + 1) _ (by omega) (by omega) (by simp only [List.length_set]; omega)
    · rw [if_neg hlt]
      rfl

/-- The body of the loop over the choices in all cases: it overwrites the block of choice `i`
with the differences of its accumulator, or ends with an access out of range. -/
theorem scoreChoice_closed (data : Data) (depth i : Nat) (s : SearchEngine) :
    SearchEngine.scoreChoice data depth i s =
      match s.choices_[i]? with
      | none => .error Fault.outOfRange
      | some ch =>
        match SearchEngine.accumulator data depth ch with
        | .error _ => .error Fault.outOfRange
        | .ok v =>
          if (i + 1) * 2 ^ depth ≤ s.scores_.length then
            .ok { s with scores_ := blockWrite depth i v s.scores_ }
          else .error Fault.outOfRange := by
  cases hch : s.choices_[i]? with
  | none =>
    unfold SearchEngine.scoreChoice
    simp only [hch]
  | some ch =>
    cases hv : SearchEngine.accumulator data depth ch with
    | error e =>
      unfold SearchEngine.scoreChoice
      simp only [hch, hv, error_bind]
      rw [(accumulator_shape data depth ch).2 e hv]
    | ok v =>
      have hlen := (accumulator_shape data depth ch).1 v hv
      simp only [hv]
      by_cases hroom : (i + 1) * 2 ^ depth ≤ s.scores_.length
      · rw [if_pos hroom]
        exact scoreChoice_eq data depth i s ch v hch hv hlen hroom
      · rw [if_neg hroom]
        unfold SearchEngine.scoreChoice
        simp only [hch, hv, ok_bind, Nat.shiftLeft_eq, Nat.one_mul]
        have hpos : 1 ≤ 2 ^ depth := Nat.one_le_two_pow
        rw [writeScore_loop_fail v (i * 2 ^ depth) (2 ^ depth) 0 s.scores_ hpos
          (by rw [hlen, pow_succ]; omega) (by rw [Nat.add_mul] at hroom; omega)]
        rfl

theorem blockWrite_length (depth i : Nat) (v scores : List ℚ) :
    (blockWrite depth i v scores).length = scores.length := by
  simp [blockWrite]

/-- Writes to the blocks of two different choices commute. -/
theorem blockWrite_comm (depth i j : Nat) (hij : i ≠ j) (v w scores : List ℚ) :
    blockWrite depth j w (blockWrite depth i v scores) =
      blockWrite depth i v (blockWrite depth j w scores) := by
  have hS : 1 ≤ 2 ^ depth := Nat.one_le_two_pow
  have hdisj : ∀ idx, ¬ ((i * 2 ^ depth ≤ idx ∧ idx < i * 2 ^ depth + 2 ^ depth) ∧
      (j * 2 ^ depth ≤ idx ∧ idx < j * 2 ^ depth + 2 ^ depth)) := by
    rintro idx ⟨⟨h1, h2⟩, h3, h4⟩
    rcases Nat.lt_or_gt_of_ne hij with h | h
    · have := Nat.mul_le_mul_right (2 ^ depth) (show i + 1 ≤ j by omega)
      rw [Nat.add_mul] at this
      omega
    · have := Nat.mul_le_mul_right (2 ^ depth) (show j + 1 ≤ i by omega)
      rw [Nat.add_mul] at this
      omega
  unfold blockWrite
  simp only [List.length_map, List.length_range]
  apply List.map_congr_left
  intro idx hidx
  have hlt : idx < scores.length := List.mem_range.mp hidx
  simp only [List.getD_eq_getElem?_getD, List.getElem?_map, List.getElem?_range hlt,
    Option.map_some', Option.getD_some]
  have := hdisj idx
  by_cases hi : i * 2 ^ depth ≤ idx ∧ idx < i * 2 ^ depth + 2 ^ depth
  · have hj : ¬ (j * 2 ^ depth ≤ idx ∧ idx < j * 2 ^ depth + 2 ^ depth) := fun h => this ⟨hi, h⟩
    rw [if_neg hj, if_pos hi, if_pos hi]
  · by_cases hj : j * 2 ^ depth ≤ idx ∧ idx < j * 2 ^ depth + 2 ^ depth
    · rw [if_pos hj, if_neg hi, if_pos hj]
    · rw [if_neg hj, if_neg hi, if_neg hi, if_neg hj]

/-- Whether the body of the choice loop ends normally, and what it writes, depends only on the
choice list and on the length of the score table. -/
theorem scoreChoice_uniform (data : Data) (depth i : Nat) (cs : List Choice) (len : Nat) :
    (∀ s : SearchEngine, s.choices_ = cs → s.scores_.length = len →
      SearchEngine.scoreChoice data depth i s = .error Fault.outOfRange) ∨
    ∃ v : List ℚ, ∀ s : SearchEngine, s.choices_ = cs → s.scores_.length = len →
      SearchEngine.scoreChoice data depth i s =
        .ok { s with scores_ := blockWrite depth i v s.scores_ } := by
  cases hch : cs[i]? with
  | none =>
    left
    intro s h1 _
    rw [scoreChoice_closed, h1, hch]
  | some ch =>
    cases hv : SearchEngine.accumulator data depth ch with
    | error e =>
      left
      intro s h1 _
      rw [scoreChoice_closed, h1, hch]
      simp only [hv]
    | ok v =>
      by_cases hroom : (i + 1) * 2 ^ depth ≤ len
      · right
        refine ⟨v, ?_⟩
        intro s h1 h2
        rw [scoreChoice_closed, h1, hch]
        simp only [hv, h2]
        rw [if_pos hroom]
      · left
        intro s h1 h2
        rw [scoreChoice_closed, h1, hch]
        simp only [hv, h2]
        rw [if_neg hroom]

/-- Scoring two different choices gives the same result in both orders. -/
theorem scoreChoice_comm (data : Data) (depth i j : Nat) (hij : i ≠ j) (s : SearchEngine) :
    (SearchEngine.scoreChoice data depth i s >>= SearchEngine.scoreChoice data depth j) =
      (SearchEngine.scoreChoice data depth j s >>= SearchEngine.scoreChoice data depth i) := by
  rcases scoreChoice_uniform data depth i s.choices_ s.scores_.length with hi | ⟨v, hi⟩ <;>
    rcases scoreChoice_uniform data depth j s.choices_ s.scores_.length with hj | ⟨w, hj⟩
  · rw [hi s rfl rfl, hj s rfl rfl]
    rfl
  · rw [hi s rfl rfl, hj s rfl rfl, ok_bind, error_bind,
      hi { s with scores_ := blockWrite depth j w s.scores_ } rfl (blockWrite_length _ _ _ _)]
  · rw [hi s rfl rfl, hj s rfl rfl, ok_bind, error_bind,
      hj { s with scores_ := blockWrite depth i v s.scores_ } rfl (blockWrite_length _ _ _ _)]
  · rw [hi s rfl rfl, hj s rfl rfl, ok_bind, ok_bind,
      hj { s with scores_ := blockWrite depth i v s.scores_ } rfl (blockWrite_length _ _ _ _),
      hi { s with scores_ := blockWrite depth j w s.scores_ } rfl (blockWrite_length _ _ _ _)]
    simp only [blockWrite_comm depth i j hij]

theorem forLoop_comm_one {σ : Type} (body : Nat → σ → Except Fault σ) (i : Nat) :
    ∀ (n lo : Nat), (∀ k, lo ≤ k → k < lo + n → ∀ s, (body i s >>= body k) = (body k s >>= body i)) →
      ∀ s, (body i s >>= forLoop body lo n) = (forLoop body lo n s >>= body i) := by
  intro n
  induction n with
  | zero =>
    intro lo _ s
    simp only [forLoop_zero, ok_bind]
    exact bind_ok _
  | succ n ih =>
    intro lo h s
    have h1 : (body i s >>= forLoop body lo (n + 1)) =
        ((body i s >>= body lo) >>= forLoop body (lo + 1) n) := by
      rw [bind_assoc]
      rfl
    rw [h1, h lo (Nat.le_refl _) (by omega) s, bind_assoc, forLoop_succ, bind_assoc]
    apply bind_congr_ok
    intro s1 _
    exact ih (lo + 1) (fun k hk1 hk2 => h k (by omega) (by omega)) s1

/-- Two loops whose iterations commute pairwise commute. -/
theorem forLoop_comm {σ : Type} (body : Nat → σ → Except Fault σ) (lo2 n2 : Nat) :
    ∀ (n1 lo1 : Nat),
      (∀ i k, lo1 ≤ i → i < lo1 + n1 → lo2 ≤ k → k < lo2 + n2 →
        ∀ s, (body i s >>= body k) = (body k s >>= body i)) →
      ∀ s, (forLoop body lo1 n1 s >>= forLoop body lo2 n2) =
        (forLoop body lo2 n2 s >>= forLoop body lo1 n1) := by
  intro n1
  induction n1 with
  | zero =>
    intro lo1 _ s
    simp only [forLoop_zero, ok_bind]
    exact (bind_ok _).symm
  | succ n ih =>
    intro lo1 h s
    have hone := forLoop_comm_one body lo1 n2 lo2
      (fun k hk1 hk2 s => h lo1 k (Nat.le_refl _) (by omega) hk1 hk2 s)
    have e1 : forLoop body lo1 (n + 1) = fun s => body lo1 s >>= forLoop body (lo1 + 1) n := by
      funext s; rfl
    rw [e1]
    simp only
    rw [bind_assoc]
    have hih := ih (lo1 + 1) (fun i k h1 h2 h3 h4 => h i k (by omega) (by omega) h3 h4)
    simp only [hih]
    rw [← bind_assoc, hone s, bind_assoc]

/-- Two different workers give the same result in both orders. -/
theorem worker_comm (data : Data) (depth a b : Nat) (hab : a ≠ b) (s : SearchEngine) :
    (SearchEngine.worker data depth a s >>= SearchEngine.worker data depth b) =
      (SearchEngine.worker data depth b s >>= SearchEngine.worker data depth a) := by
  by_cases hn : s.nThreads_ = 0
  · simp only [SearchEngine.worker, hn, if_true, error_bind]
  · have hw : ∀ (t : Nat) (s1 : SearchEngine), s1.nThreads_ = s.nThreads_ →
        s1.choices_ = s.choices_ →
        SearchEngine.worker data depth t s1 =
          forLoop (SearchEngine.scoreChoice data depth)
            (s.choices_.length / s.nThreads_ * t + min t (s.choices_.length % s.nThreads_))
            (s.choices_.length / s.nThreads_ * (t + 1) +
              min (t + 1) (s.choices_.length % s.nThreads_) -
              (s.choices_.length / s.nThreads_ * t + min t (s.choices_.length % s.nThreads_)))
            s1 := by
      intro t s1 h1 h2
      simp only [SearchEngine.worker, h1, h2, hn, if_false, workerRange_eq]
    have hkeep : ∀ (t : Nat) (s1 : SearchEngine),
        SearchEngine.worker data depth t s = .ok s1 →
        s1.nThreads_ = s.nThreads_ ∧ s1.choices_ = s.choices_ := by
      intro t s1 h
      rw [hw t s rfl rfl] at h
      have := forLoop_preserves (SearchEngine.scoreChoice data depth)
        (fun e => (e.nThreads_, e.totalChoices_, e.iter_, e.choices_))
        (scoreChoice_frame data depth) _ _ _ _ h
      simp only [Prod.mk.injEq] at this
      exact ⟨this.1, this.2.2.2⟩
    have e1 : (SearchEngine.worker data depth a s >>= SearchEngine.worker data depth b) =
        (SearchEngine.worker data depth a s >>= fun s1 =>
          forLoop (SearchEngine.scoreChoice data depth) _ _ s1) :=
      bind_congr_ok _ _ _ (fun s1 h => hw b s1 (hkeep a s1 h).1 (hkeep a s1 h).2)
    have e2 : (SearchEngine.worker data depth b s >>= SearchEngine.worker data depth a) =
        (SearchEngine.worker data depth b s >>= fun s1 =>
          forLoop (SearchEngine.scoreChoice data depth) _ _ s1) :=
      bind_congr_ok _ _ _ (fun s1 h => hw a s1 (hkeep b s1 h).1 (hkeep b s1 h).2)
    rw [e1, e2, hw a s rfl rfl, hw b s rfl rfl]
    apply forLoop_comm
    intro i k h1 h2 h3 h4 s1
    apply scoreChoice_comm
    rcases Nat.lt_or_gt_of_ne hab with h | h
    · have := rangeStart_mono (s.choices_.length / s.nThreads_)
        (s.choices_.length % s.nThreads_) (show a + 1 ≤ b by omega)
      have := rangeStart_mono (s.choices_.length / s.nThreads_)
        (s.choices_.length % s.nThreads_) (show a ≤ a + 1 by omega)
      omega
    · have := rangeStart_mono (s.choices_.length / s.nThreads_)
        (s.choices_.length % s.nThreads_) (show b + 1 ≤ a by omega)
      have := rangeStart_mono (s.choices_.length / s.nThreads_)
        (s.choices_.length % s.nThreads_) (show b ≤ b + 1 by omega)
      omega

/-- A fold whose steps commute pairwise gives the same result on every rearrangement of the
list. -/
theorem foldlM_perm {σ α : Type} (f : σ → α → Except Fault σ)
    (hcomm : ∀ a b, a ≠ b → ∀ s, (f s a >>= fun s1 => f s1 b) = (f s b >>= fun s1 => f s1 a))
    {l1 l2 : List α} (h : l1.Perm l2) : ∀ s, l1.foldlM f s = l2.foldlM f s := by
  induction h with
  | nil => intro s; rfl
  | cons x _ ih =>
    intro s
    rw [List.foldlM_cons, List.foldlM_cons]
    exact bind_congr_ok _ _ _ (fun s1 _ => ih s1)
  | swap x y l =>
    intro s
    simp only [List.foldlM_cons]
    rw [← bind_assoc, ← bind_assoc]
    by_cases hxy : y = x
    · rw [hxy]
    · rw [hcomm y x hxy s]
  | trans _ _ ih1 ih2 =>
    intro s
    rw [ih1, ih2]

theorem forLoop_eq_foldlM {σ : Type} (body : Nat → σ → Except Fault σ) :
    ∀ (n : Nat) (s : σ),
      forLoop body 0 n s = (List.range n).foldlM (fun s i => body i s) s := by
  intro n
  induction n with
  | zero => intro s; rfl
  | succ n ih =>
    intro s
    rw [forLoop_succ_last, ih, List.range_succ, List.foldlM_append, Nat.zero_add]
    apply bind_congr_ok
    intro s1 _
    simp only [List.foldlM_cons, List.foldlM_nil, pure_eq_ok, bind_ok]

/-- C6. Thread-count invariance. For every engine state and every thread count `n ≥ 1`:
executing the workers `tid = 0 .. n - 1` of `run()` gives the same choice list and, entry by
entry, the same score table (or the same fault) as the single worker of a one-thread engine;
the same holds in whatever order the `n` workers are executed; and in particular for the engines
constructed from the same dataset and depth with different thread counts. -/
theorem run_thread_invariant (data : Data) (depth : Nat) (s : SearchEngine) (n : Nat)
    (hn : 1 ≤ n) :
    (SearchEngine.run data depth { s with nThreads_ := n }).map
        (fun e => (e.choices_, e.scores_)) =
      (SearchEngine.run data depth { s with nThreads_ := 1 }).map
        (fun e => (e.choices_, e.scores_)) ∧
    (∀ order : List Nat, order.Perm (List.range n) →
      (order.foldlM (fun e tid => SearchEngine.worker data depth tid e)
          { s with nThreads_ := n }).map (fun e => (e.choices_, e.scores_)) =
        (SearchEngine.run data depth { s with nThreads_ := 1 }).map
          (fun e => (e.choices_, e.scores_))) ∧
    ((depth = 1 ∨ depth = 2 ∨ depth = 3) → ∀ nThreads hardware, min nThreads hardware = n →
      (SearchEngine.run data depth (SearchEngine.construct data depth nThreads hardware).1).map
          (fun e => (e.choices_, e.scores_)) =
        (SearchEngine.run data depth (SearchEngine.construct data depth 1 1).1).map
          (fun e => (e.choices_, e.scores_))) := by
  have hmain : ∀ (s : SearchEngine) (m : Nat), 1 ≤ m →
      (SearchEngine.run data depth { s with nThreads_ := m }).map
          (fun e => (e.choices_, e.scores_)) =
        (forLoop (SearchEngine.scoreChoice data depth) 0 s.choices_.length s).map
          (fun e => (e.choices_, e.scores_)) := by
    intro s m hm
    rw [run_eq_loop data depth _ (show ({ s with nThreads_ := m } : SearchEngine).nThreads_ ≠ 0
      from by simp only; omega)]
    simp only [scoreLoop_nThreads]
    cases forLoop (SearchEngine.scoreChoice data depth) 0 s.choices_.length s with
    | error e => rfl
    | ok s1 => rfl
  have h1 : (SearchEngine.run data depth { s with nThreads_ := n }).map
        (fun e => (e.choices_, e.scores_)) =
      (SearchEngine.run data depth { s with nThreads_ := 1 }).map
        (fun e => (e.choices_, e.scores_)) := by
    rw [hmain s n hn, hmain s 1 (Nat.le_refl _)]
  refine ⟨h1, ?_, ?_⟩
  · intro order horder
    rw [← h1, SearchEngine.run, forLoop_eq_foldlM]
    congr 1
    exact foldlM_perm _ (fun a b hab e => worker_comm data depth a b hab e) horder _
  · intro hdepth nThreads hardware hmin
    have e1 : (SearchEngine.construct data depth nThreads hardware).1 =
        { (SearchEngine.construct data depth 1 1).1 with nThreads_ := n } := by
      rw [construct_eq data depth nThreads hardware hdepth, construct_eq data depth 1 1 hdepth,
        hmin]
    have e2 : (SearchEngine.construct data depth 1 1).1 =
        { (SearchEngine.construct data depth 1 1).1 with nThreads_ := 1 } := by
      rw [construct_eq data depth 1 1 hdepth]
      rfl
    rw [e1, hmain _ n hn]
    conv_rhs => rw [e2, hmain _ 1 (Nat.le_refl _)]

/-- C6, concrete instance: two threads against one on the engines built for the demo dataset
at depth 2, the two workers in the order 0, 1 and in the order 1, 0. -/
theorem run_thread_invariant_witness :
    (1 ≤ 2) ∧
    (SearchEngine.run demoData 2 (SearchEngine.construct demoData 2 2 4).1).map
        (fun e => (e.choices_, e.scores_)) =
      (SearchEngine.run demoData 2 (SearchEngine.construct demoData 2 1 1).1).map
        (fun e => (e.choices_, e.scores_)) ∧
    ([1, 0].foldlM (fun e tid => SearchEngine.worker demoData 2 tid e)
        { (SearchEngine.construct demoData 2 1 1).1 with nThreads_ := 2 }).map
        (fun e => (e.choices_, e.scores_)) =
      (SearchEngine.run demoData 2
        { (SearchEngine.construct demoData 2 1 1).1 with nThreads_ := 1 }).map
        (fun e => (e.choices_, e.scores_)) := by
  have h := run_thread_invariant demoData 2 (SearchEngine.construct demoData 2 1 1).1 2
    (by decide)
  exact ⟨by decide, h.2.2 (by decide) 2 4 (by decide),
    h.2.1 [1, 0] (List.Perm.swap 0 1 [])⟩

/-! ## The accumulator as a partition of the samples -/

theorem sum_tab (L : Nat) (f : Nat → ℚ) :
    ((List.range L).map f).sum = ∑ b ∈ Finset.range L, f b := by
  induction L with
  | zero => simp
  | succ L ih => rw [List.sum_range_succ, Finset.sum_range_succ, ih]

/-- C12. For depth 1, 2 or 3 and every choice, with packed words whose nibbles are 0 or 1: the
kernel returns an accumulator of `2 ^ (depth + 1)` buckets, bucket `b` holds the sum of the
responses of the samples whose bucket is `b`, every sample has a bucket below
`2 ^ (depth + 1)`, and the sum over all buckets is the sum of `resp s` over all samples
`s < nSample`. -/
theorem accumulator_total (data : Data) (depth : Nat) (ch : Choice)
    (hdepth : depth = 1 ∨ depth = 2 ∨ depth = 3)
    (hact : ∀ j, data.act j < 2 ^ 32 ∧ ∀ k, k < 8 → sampleNibble (data.act j) k ≤ 1)
    (hmask : ∀ d, d < depth → ∀ j,
      data.cutMask (ch.vIdx.getD d 0) (ch.cIdx.getD d 0) j < 2 ^ 32 ∧
      ∀ k, k < 8 → sampleNibble (data.cutMask (ch.vIdx.getD d 0) (ch.cIdx.getD d 0) j) k ≤ 1) :
    ∃ v, SearchEngine.accumulator data depth ch = .ok v ∧ v.length = 2 ^ (depth + 1) ∧
      (∀ s, bucket data depth ch s < 2 ^ (depth + 1)) ∧
      (∀ b, b < 2 ^ (depth + 1) →
        v.getD b 0 = ∑ s ∈ Finset.range data.nSample,
          if b = bucket data depth ch s then data.resp s else 0) ∧
      v.sum = ∑ s ∈ Finset.range data.nSample, data.resp s := by
  have hb := bucket_lt data depth ch hdepth hact hmask
  refine ⟨_, accumulator_eq_sums data depth ch hdepth hact hmask, by simp, hb, ?_, ?_⟩
  · intro b hlt
    simp [List.getD_eq_getElem?_getD, List.getElem?_range hlt]
  · rw [sum_tab, Finset.sum_comm]
    apply Finset.sum_congr rfl
    intro s _
    rw [Finset.sum_ite_eq']
    simp [hb s]

/-- C12, concrete instance: the demo dataset at depth 2, the choice of cut 0 of variables 0 and
1; the eleven responses `1, ..., 11` sum to 66. -/
theorem accumulator_total_witness :
    ((2 : Nat) = 1 ∨ (2 : Nat) = 2 ∨ (2 : Nat) = 3) ∧
    (∀ j, demoData.act j < 2 ^ 32 ∧ ∀ k, k < 8 → sampleNibble (demoData.act j) k ≤ 1) ∧
    (∀ d, d < 2 → ∀ j, demoData.cutMask ([0, 1].getD d 0) ([0, 0].getD d 0) j < 2 ^ 32 ∧
      ∀ k, k < 8 →
        sampleNibble (demoData.cutMask ([0, 1].getD d 0) ([0, 0].getD d 0) j) k ≤ 1) ∧
    ∃ v, SearchEngine.accumulator demoData 2 ⟨[0, 1], [0, 0]⟩ = .ok v ∧
      v.sum = ∑ s ∈ Finset.range demoData.nSample, demoData.resp s := by
  have hmask : ∀ d, d < 2 → ∀ j,
      demoData.cutMask ([0, 1].getD d 0) ([0, 0].getD d 0) j < 2 ^ 32 ∧
      ∀ k, k < 8 →
        sampleNibble (demoData.cutMask ([0, 1].getD d 0) ([0, 0].getD d 0) j) k ≤ 1 :=
    fun _ _ j => demoData_packed.2 _ _ j
  obtain ⟨v, h1, _, _, _, h5⟩ := accumulator_total demoData 2 ⟨[0, 1], [0, 0]⟩ (by decide)
    demoData_packed.1 hmask
  exact ⟨by decide, demoData_packed.1, hmask, v, h1, h5⟩

/-! ## Bounds of the accumulator indices -/

theorem list_eq_tab (v : List ℚ) : v = (List.range v.length).map fun b => v.getD b 0 := by
  apply List.ext_getElem
  · simp
  · intro i h1 _
    simp [List.getD_eq_getElem?_getD, List.getElem?_eq_getElem h1]

/-- A loop whose iterations keep an invariant and end normally under it ends normally. -/
theorem forLoop_ok {σ : Type} (body : Nat → σ → Except Fault σ) (P : σ → Prop)
    (hbody : ∀ i s, P s → ∃ s1, body i s = .ok s1 ∧ P s1) :
    ∀ (n lo : Nat) (s : σ), P s → ∃ s1, forLoop body lo n s = .ok s1 ∧ P s1 := by
  intro n
  induction n with
  | zero => intro lo s hs; exact ⟨s, rfl, hs⟩
  | succ n ih =>
    intro lo s hs
    obtain ⟨s1, h1, hp1⟩ := hbody lo s hs
    obtain ⟨s2, h2, hp2⟩ := ih (lo + 1) s1 hp1
    exact ⟨s2, by rw [forLoop_succ, h1, ok_bind, h2], hp2⟩

/-- The loop of lines 200-205 ends normally when every nibble it reads is an index of `v`. -/
theorem drain_ok (resp : Nat → ℚ) (j8 cnt idx : Nat) (v : List ℚ)
    (h : ∀ k, k < cnt → idx / 16 ^ (cnt - 1 - k) % 16 < v.length) :
    ∃ v1, SearchEngine.drain resp j8 cnt idx v = .ok v1 ∧ v1.length = v.length := by
  have := drain_tab resp j8 v.length (fun k => idx / 16 ^ (cnt - 1 - k) % 16) cnt idx
    (fun b => v.getD b 0) (fun k hk => ⟨rfl, h k hk⟩)
  rw [← list_eq_tab v] at this
  exact ⟨_, this, by simp⟩

/-- The nibble read in the tail path for sample `k` of the last word is the nibble the batched
loop would read for it. -/
theorem tail_digit (idx r k : Nat) (hr : r < 8) (hk : k < r) :
    (idx >>> (32 - 4 * r)) / 16 ^ (r - 1 - k) % 16 = idx / 16 ^ (7 - k) % 16 := by
  rw [Nat.shiftRight_eq_div_pow, Nat.div_div_eq_div_mul,
    show 32 - 4 * r = 4 * (8 - r) by omega, pow_mul,
    show (2 : Nat) ^ 4 = 16 by norm_num, ← pow_add,
    show 8 - r + (r - 1 - k) = 7 - k by omega]

/-- C20. Accumulator indexing is in bounds.  For depth 1, 2 or 3, when the action words and the
cut-mask words of the choice are 32-bit words whose nibbles are 0 or 1: the nibble
`idx & 0xF` read for every sample of every word is below `2 ^ (depth + 1)`, the size of `v`, so
that every iteration of the batched loop, the tail path and the whole kernel end without an
access out of range.  For depth 3 this holds for all words whatsoever: every nibble is below
`16 = 2 ^ (3 + 1)`. -/
theorem accumulator_index_bounds (data : Data) (depth : Nat) (ch : Choice) :
    ((depth = 1 ∨ depth = 2 ∨ depth = 3) →
      (∀ j, data.act j < 2 ^ 32 ∧ ∀ k, k < 8 → sampleNibble (data.act j) k ≤ 1) →
      (∀ d, d < depth → ∀ j,
        data.cutMask (ch.vIdx.getD d 0) (ch.cIdx.getD d 0) j < 2 ^ 32 ∧
        ∀ k, k < 8 →
          sampleNibble (data.cutMask (ch.vIdx.getD d 0) (ch.cIdx.getD d 0) j) k ≤ 1) →
      (∀ j k, k < 8 →
        sampleNibble (SearchEngine.addMasks depth j (SearchEngine.cutMasks data depth ch) 0
          (data.act j)) k < 2 ^ (depth + 1)) ∧
      (∀ j v, v.length = 2 ^ (depth + 1) →
        ∃ v1, SearchEngine.batch data depth (SearchEngine.cutMasks data depth ch) j v = .ok v1 ∧
          v1.length = 2 ^ (depth + 1)) ∧
      (∀ v, v.length = 2 ^ (depth + 1) →
        ∃ v1, SearchEngine.tail data depth (SearchEngine.cutMasks data depth ch) v = .ok v1 ∧
          v1.length = 2 ^ (depth + 1)) ∧
      ∃ v, SearchEngine.accumulator data depth ch = .ok v ∧ v.length = 2 ^ (depth + 1)) ∧
    ((∀ w k, sampleNibble w k < 2 ^ (3 + 1)) ∧
      (∀ m j v, v.length = 2 ^ (3 + 1) →
        ∃ v1, SearchEngine.batch data 3 m j v = .ok v1 ∧ v1.length = 2 ^ (3 + 1)) ∧
      (∀ m v, v.length = 2 ^ (3 + 1) →
        ∃ v1, SearchEngine.tail data 3 m v = .ok v1 ∧ v1.length = 2 ^ (3 + 1)) ∧
      ∃ v, SearchEngine.accumulator data 3 ch = .ok v ∧ v.length = 2 ^ (3 + 1)) := by
  have hr8 : data.nSample % 8 < 8 := Nat.mod_lt _ (by norm_num)
  constructor
  · intro hdepth hact hmask
    have hidx := index_digit data depth ch hdepth hact hmask
    have hb := bucket_lt data depth ch hdepth hact hmask
    have hbatch : ∀ j v, v.length = 2 ^ (depth + 1) →
        ∃ v1, SearchEngine.batch data depth (SearchEngine.cutMasks data depth ch) j v = .ok v1 ∧
          v1.length = 2 ^ (depth + 1) := by
      intro j v hv
      obtain ⟨v1, h1, h2⟩ := drain_ok data.resp (j <<< 3) 8
        (SearchEngine.addMasks depth j (SearchEngine.cutMasks data depth ch) 0 (data.act j)) v
        (fun k hk => by
          rw [show 8 - 1 - k = 7 - k by omega, hidx j k hk, hv]
          exact hb _)
      exact ⟨v1, h1, by rw [h2, hv]⟩
    have htail : ∀ v, v.length = 2 ^ (depth + 1) →
        ∃ v1, SearchEngine.tail data depth (SearchEngine.cutMasks data depth ch) v = .ok v1 ∧
          v1.length = 2 ^ (depth + 1) := by
      intro v hv
      unfold SearchEngine.tail
      simp only
      split
      · obtain ⟨v1, h1, h2⟩ := drain_ok data.resp ((data.nSample >>> 3) <<< 3)
          (data.nSample % 8)
          (SearchEngine.addMasks depth (data.nSample >>> 3)
            (SearchEngine.cutMasks data depth ch) 0 (data.act (data.nSample >>> 3)) >>>
              (32 - 4 * (data.nSample % 8))) v
          (fun k hk => by
            rw [tail_digit _ _ _ hr8 hk, hidx _ k (by omega), hv]
            exact hb _)
        exact ⟨v1, h1, by rw [h2, hv]⟩
      · exact ⟨v, rfl, hv⟩
    refine ⟨?_, hbatch, htail, ?_⟩
    · intro j k hk
      rw [sampleNibble_eq, hidx j k hk]
      exact hb _
    · unfold SearchEngine.accumulator
      simp only
      obtain ⟨v1, h1, h2⟩ := forLoop_ok
        (SearchEngine.batch data depth (SearchEngine.cutMasks data depth ch))
        (fun v => v.length = 2 ^ (depth + 1)) (fun j v hv => hbatch j v hv)
        (data.nSample >>> 3) 0 (List.replicate (1 <<< (depth + 1)) 0)
        (by simp [Nat.shiftLeft_eq])
      rw [h1, ok_bind]
      exact htail v1 h2
  · have hnib : ∀ w k, sampleNibble w k < 2 ^ (3 + 1) := by
      intro w k
      rw [sampleNibble_eq]
      exact Nat.mod_lt _ (by norm_num)
    have hbatch : ∀ m j v, v.length = 2 ^ (3 + 1) →
        ∃ v1, SearchEngine.batch data 3 m j v = .ok v1 ∧ v1.length = 2 ^ (3 + 1) := by
      intro m j v hv
      obtain ⟨v1, h1, h2⟩ := drain_ok data.resp (j <<< 3) 8
        (SearchEngine.addMasks 3 j m 0 (data.act j)) v
        (fun k _ => by rw [hv]; exact Nat.mod_lt _ (by norm_num))
      exact ⟨v1, h1, by rw [h2, hv]⟩
    have htail : ∀ m v, v.length = 2 ^ (3 + 1) →
        ∃ v1, SearchEngine.tail data 3 m v = .ok v1 ∧ v1.length = 2 ^ (3 + 1) := by
      intro m v hv
      unfold SearchEngine.tail
      simp only
      split
      · obtain ⟨v1, h1, h2⟩ := drain_ok data.resp ((data.nSample >>> 3) <<< 3)
          (data.nSample % 8)
          (SearchEngine.addMasks 3 (data.nSample >>> 3) m 0 (data.act (data.nSample >>> 3)) >>>
              (32 - 4 * (data.nSample % 8))) v
          (fun k _ => by rw [hv]; exact Nat.mod_lt _ (by norm_num))
        exact ⟨v1, h1, by rw [h2, hv]⟩
      · exact ⟨v, rfl, hv⟩
    refine ⟨hnib, hbatch, htail, ?_⟩
    unfold SearchEngine.accumulator
    simp only
    obtain ⟨v1, h1, h2⟩ := forLoop_ok
      (SearchEngine.batch data 3 (SearchEngine.cutMasks data 3 ch))
      (fun v => v.length = 2 ^ (3 + 1)) (fun j v hv => hbatch _ j v hv)
      (data.nSample >>> 3) 0 (List.replicate (1 <<< (3 + 1)) 0)
      (by simp [Nat.shiftLeft_eq])
    rw [h1, ok_bind]
    exact htail _ v1 h2

/-- C20, concrete instance: the demo dataset at depth 2 for the choice of cut 0 of variables 0
and 1, and a dataset with arbitrary words at depth 3. -/
theorem accumulator_index_bounds_witness :
    (∃ v, SearchEngine.accumulator demoData 2 ⟨[0, 1], [0, 0]⟩ = .ok v ∧ v.length = 2 ^ (2 + 1)) ∧
    ∃ v, SearchEngine.accumulator { demoData with act := fun j => 0xFFFFFFFF - j }
      3 ⟨[0, 1, 2], [0, 0, 0]⟩ = .ok v ∧ v.length = 2 ^ (3 + 1) :=
  ⟨((accumulator_index_bounds demoData 2 ⟨[0, 1], [0, 0]⟩).1 (by decide) demoData_packed.1
      (fun _ _ j => demoData_packed.2 _ _ j)).2.2.2,
    (accumulator_index_bounds { demoData with act := fun j => 0xFFFFFFFF - j } 3
      ⟨[0, 1, 2], [0, 0, 0]⟩).2.2.2.2⟩

/-! ## The frame of a worker -/

theorem blockWrite_get (depth i : Nat) (v scores : List ℚ) (idx : Nat)
    (h : idx < scores.length) :
    (blockWrite depth i v scores)[idx]? =
      some (if i * 2 ^ depth ≤ idx ∧ idx < i * 2 ^ depth + 2 ^ depth then
        v.getD (2 * (idx - i * 2 ^ depth) + 1) 0 - v.getD (2 * (idx - i * 2 ^ depth)) 0
      else scores.getD idx 0) := by
  simp [blockWrite, List.getElem?_range h]

theorem block_outside (lo n S idx : Nat) (h : idx < lo * S ∨ (lo + (n + 1)) * S ≤ idx) :
    (idx < (lo + 1) * S ∨ (lo + 1 + n) * S ≤ idx) ∧ ¬ (lo * S ≤ idx ∧ idx < lo * S + S) := by
  have e1 : (lo + 1) * S = lo * S + S := by ring
  have e2 : (lo + (n + 1)) * S = lo * S + S + n * S := by ring
  have e3 : (lo + 1 + n) * S = lo * S + S + n * S := by ring
  omega

theorem block_inside (a b i m S : Nat) (h1 : a ≤ i) (h2 : i < b) (hm : m < S) :
    a * S ≤ i * S + m ∧ i * S + m < b * S := by
  have e1 := Nat.mul_le_mul_right S h1
  have e2 := Nat.mul_le_mul_right S (show i + 1 ≤ b from h2)
  rw [Nat.add_mul, Nat.one_mul] at e2
  omega

/-- The effect of the loop over the choices `lo .. lo + n - 1` when it ends normally: the choice
list and the table length are kept, the entries outside the blocks of these choices are kept,
and the block of every choice holds the differences of its accumulator. -/
theorem scoreLoop_effect (data : Data) (depth : Nat) :
    ∀ (n lo : Nat) (s s1 : SearchEngine),
      forLoop (SearchEngine.scoreChoice data depth) lo n s = .ok s1 →
      s1.choices_ = s.choices_ ∧ s1.scores_.length = s.scores_.length ∧
      (∀ idx, idx < lo * 2 ^ depth ∨ (lo + n) * 2 ^ depth ≤ idx →
        s1.scores_[idx]? = s.scores_[idx]?) ∧
      (∀ i m, lo ≤ i → i < lo + n → m < 2 ^ depth →
        ∃ ch v, s.choices_[i]? = some ch ∧ SearchEngine.accumulator data depth ch = .ok v ∧
          s1.scores_[i * 2 ^ depth + m]? = some (v.getD (2 * m + 1) 0 - v.getD (2 * m) 0)) := by
  intro n
  induction n with
  | zero =>
    intro lo s s1 h
    rw [forLoop_zero] at h
    cases h
    exact ⟨rfl, rfl, fun _ _ => rfl, fun i m h1 h2 _ => by omega⟩
  | succ n ih =>
    intro lo s s1 h
    rw [forLoop_succ, scoreChoice_closed] at h
    cases hch : s.choices_[lo]? with
    | none => simp only [hch] at h; cases h
    | some ch =>
      simp only [hch] at h
      cases hv : SearchEngine.accumulator data depth ch with
      | error e => simp only [hv] at h; cases h
      | ok v =>
        simp only [hv] at h
        by_cases hroom : (lo + 1) * 2 ^ depth ≤ s.scores_.length
        · rw [if_pos hroom, ok_bind] at h
          obtain ⟨h1, h2, h3, h4⟩ := ih _ _ _ h
          simp only [blockWrite_length] at h2
          refine ⟨h1, h2, ?_, ?_⟩
          · intro idx hidx
            have hout := block_outside lo n (2 ^ depth) idx hidx
            rw [h3 idx hout.1]
            by_cases hlt : idx < s.scores_.length
            · rw [blockWrite_get depth lo v s.scores_ idx hlt, if_neg hout.2]
              simp [List.getD_eq_getElem?_getD, List.getElem?_eq_getElem hlt]
            · rw [List.getElem?_eq_none (by rw [blockWrite_length]; omega),
                List.getElem?_eq_none (by omega)]
          · intro i m hi1 hi2 hm
            rcases Nat.eq_or_lt_of_le hi1 with hi | hi
            · subst hi
              have hin := block_inside lo (lo + 1) lo m (2 ^ depth) (Nat.le_refl _)
                (Nat.lt_succ_self _) hm
              refine ⟨ch, v, hch, hv, ?_⟩
              rw [h3 (lo * 2 ^ depth + m) (Or.inl hin.2),
                blockWrite_get depth lo v s.scores_ _ (Nat.lt_of_lt_of_le hin.2 hroom),
                if_pos ⟨Nat.le_add_right _ _, Nat.add_lt_add_left hm _⟩,
                Nat.add_sub_cancel_left]
            · exact h4 i m (by omega) (by omega) hm
        · rw [if_neg hroom] at h
          cases h

/-- The loop over the choices `lo .. lo + n - 1` ends normally on packed words with nibbles 0 or
1, when these choices exist and the score table has a block for each choice. -/
theorem scoreLoop_ok (data : Data) (depth : Nat) (hdepth : depth = 1 ∨ depth = 2 ∨ depth = 3)
    (hact : ∀ j, data.act j < 2 ^ 32 ∧ ∀ k, k < 8 → sampleNibble (data.act j) k ≤ 1)
    (hmask : ∀ v c j, data.cutMask v c j < 2 ^ 32 ∧
      ∀ k, k < 8 → sampleNibble (data.cutMask v c j) k ≤ 1) :
    ∀ (n lo : Nat) (s : SearchEngine), lo + n ≤ s.choices_.length →
      s.scores_.length = s.choices_.length * 2 ^ depth →
      ∃ s1, forLoop (SearchEngine.scoreChoice data depth) lo n s = .ok s1 := by
  intro n
  induction n with
  | zero => intro lo s _ _; exact ⟨s, rfl⟩
  | succ n ih =>
    intro lo s hle hlen
    have hlt : lo < s.choices_.length := by omega
    have hroom : (lo + 1) * 2 ^ depth ≤ s.scores_.length := by
      rw [hlen]
      exact Nat.mul_le_mul_right _ (by omega)
    rw [forLoop_succ, scoreChoice_closed, List.getElem?_eq_getElem hlt]
    simp only [accumulator_eq_sums data depth s.choices_[lo] hdepth hact
      (fun d _ j => hmask _ _ j)]
    rw [if_pos hroom, ok_bind]
    exact ih (lo + 1) _ (by simp only; omega) (by simp only [blockWrite_length]; exact hlen)

/-- C13. The frame of a worker.  With `[first, last)` the choice range of worker `tid`:
whenever the worker ends normally, the choice list and the length of the score table are
unchanged, every entry with flat index outside `[first * 2 ^ depth, last * 2 ^ depth)` is
unchanged, and for every choice `i` of the range the entries `i * 2 ^ depth + m`,
`m < 2 ^ depth`, of its block hold the differences `v[2 m + 1] - v[2 m]` of the accumulator of
choice `i`; these blocks are exactly the flat indices of the interval.  On packed words with
nibbles 0 or 1, for a worker `tid < nThreads_` of an engine whose table has `2 ^ depth` entries
per choice, the worker does end normally. -/
theorem worker_frame (data : Data) (depth tid : Nat) (s : SearchEngine) :
    (∀ s1, SearchEngine.worker data depth tid s = .ok s1 →
      s1.choices_ = s.choices_ ∧ s1.scores_.length = s.scores_.length ∧
      (∀ idx,
        idx < (SearchEngine.workerRange s.choices_.length s.nThreads_ tid).1 * 2 ^ depth ∨
        (SearchEngine.workerRange s.choices_.length s.nThreads_ tid).2 * 2 ^ depth ≤ idx →
        s1.scores_[idx]? = s.scores_[idx]?) ∧
      (∀ i m, (SearchEngine.workerRange s.choices_.length s.nThreads_ tid).1 ≤ i →
        i < (SearchEngine.workerRange s.choices_.length s.nThreads_ tid).2 → m < 2 ^ depth →
        ∃ ch v, s.choices_[i]? = some ch ∧ SearchEngine.accumulator data depth ch = .ok v ∧
          s1.scores_[i * 2 ^ depth + m]? = some (v.getD (2 * m + 1) 0 - v.getD (2 * m) 0))) ∧
    (∀ idx,
      ((SearchEngine.workerRange s.choices_.length s.nThreads_ tid).1 * 2 ^ depth ≤ idx ∧
        idx < (SearchEngine.workerRange s.choices_.length s.nThreads_ tid).2 * 2 ^ depth) ↔
      ∃ i m, (SearchEngine.workerRange s.choices_.length s.nThreads_ tid).1 ≤ i ∧
        i < (SearchEngine.workerRange s.choices_.length s.nThreads_ tid).2 ∧ m < 2 ^ depth ∧
        idx = i * 2 ^ depth + m) ∧
    ((depth = 1 ∨ depth = 2 ∨ depth = 3) →
      (∀ j, data.act j < 2 ^ 32 ∧ ∀ k, k < 8 → sampleNibble (data.act j) k ≤ 1) →
      (∀ v c j, data.cutMask v c j < 2 ^ 32 ∧
        ∀ k, k < 8 → sampleNibble (data.cutMask v c j) k ≤ 1) →
      tid < s.nThreads_ → s.scores_.length = s.choices_.length * 2 ^ depth →
      ∃ s1, SearchEngine.worker data depth tid s = .ok s1) := by
  have hr : (SearchEngine.workerRange s.choices_.length s.nThreads_ tid).1 ≤
      (SearchEngine.workerRange s.choices_.length s.nThreads_ tid).2 := by
    rw [workerRange_eq]
    exact rangeStart_mono _ _ (Nat.le_succ tid)
  have hS : 0 < 2 ^ depth := Nat.two_pow_pos depth
  refine ⟨?_, ?_, ?_⟩
  · intro s1 h
    unfold SearchEngine.worker at h
    split at h
    · cases h
    · have := scoreLoop_effect data depth _ _ _ _ h
      rw [Nat.add_sub_cancel' hr] at this
      exact this
  · intro idx
    generalize (SearchEngine.workerRange s.choices_.length s.nThreads_ tid).1 = a at *
    generalize (SearchEngine.workerRange s.choices_.length s.nThreads_ tid).2 = b at *
    constructor
    · rintro ⟨h1, h2⟩
      refine ⟨idx / 2 ^ depth, idx % 2 ^ depth, ?_, ?_, Nat.mod_lt _ hS, ?_⟩
      · exact (Nat.le_div_iff_mul_le hS).mpr h1
      · exact (Nat.div_lt_iff_lt_mul hS).mpr h2
      · rw [Nat.mul_comm]; exact (Nat.div_add_mod idx (2 ^ depth)).symm
    · rintro ⟨i, m, h1, h2, hm, rfl⟩
      exact block_inside a b i m (2 ^ depth) h1 h2 hm
  · intro hdepth hact hmask htid hlen
    unfold SearchEngine.worker
    rw [if_neg (by omega)]
    simp only
    refine scoreLoop_ok data depth hdepth hact hmask _ _ s ?_ hlen
    rw [Nat.add_sub_cancel' hr, workerRange_eq]
    have h1 := rangeStart_mono (s.choices_.length / s.nThreads_)
      (s.choices_.length % s.nThreads_) (show tid + 1 ≤ s.nThreads_ from htid)
    have h2 : s.choices_.length % s.nThreads_ < s.nThreads_ := Nat.mod_lt _ (by omega)
    rw [Nat.min_eq_right (Nat.le_of_lt h2), Nat.div_add_mod'] at h1
    exact h1

/-- C13, concrete instance: worker 1 of two on three choices of the demo dataset at depth 1 has
the range `[2, 3)` and leaves the entries 0 .. 3 of the table as they were. -/
theorem worker_frame_witness :
    SearchEngine.workerRange 3 2 1 = (2, 3) ∧
    ∃ s1, SearchEngine.worker demoData 1 1
        { nThreads_ := 2, totalChoices_ := 3, iter_ := 3,
          choices_ := [⟨[0], [0]⟩, ⟨[0], [1]⟩, ⟨[1], [0]⟩],
          scores_ := [1, 2, 3, 4, 5, 6] } = .ok s1 ∧
      s1.choices_ = [⟨[0], [0]⟩, ⟨[0], [1]⟩, ⟨[1], [0]⟩] ∧
      s1.scores_.length = 6 ∧
      s1.scores_[3]? = some 4 := by
  have h := worker_frame demoData 1 1
    { nThreads_ := 2, totalChoices_ := 3, iter_ := 3,
      choices_ := [⟨[0], [0]⟩, ⟨[0], [1]⟩, ⟨[1], [0]⟩],
      scores_ := [1, 2, 3, 4, 5, 6] }
  obtain ⟨s1, hs1⟩ := h.2.2 (by decide) demoData_packed.1 demoData_packed.2 (by decide) rfl
  obtain ⟨h1, h2, h3, _⟩ := h.1 s1 hs1
  refine ⟨by decide, s1, hs1, h1, h2, ?_⟩
  rw [h3 3 (Or.inl (by decide))]
  rfl

/-! ## The length of the score table -/

/-- C17. The score table length is fixed at construction.  For depth 1, 2 or 3 the constructor
ends without a fault with `totalChoices_` choices and a score table of
`totalChoices_ * 2 ^ depth` entries; every worker, `run()` and `report()`, whenever they end
normally on whatever engine, leave the length of the score table and the choice list as they
were; so the table of the constructed engine still has that length after `run()` and
`report()`. -/
theorem score_table_fixed (data : Data) (depth nThreads hardware : Nat)
    (hdepth : depth = 1 ∨ depth = 2 ∨ depth = 3) :
    (∃ e, SearchEngine.construct data depth nThreads hardware = (e, none) ∧
      e.choices_.length = e.totalChoices_ ∧
      e.scores_.length = e.choices_.length * 2 ^ depth ∧
      ∀ e1 e2 nTop, SearchEngine.run data depth e = .ok e1 →
        SearchEngine.afterReport data depth e1 nTop = .ok e2 →
        e2.choices_ = e.choices_ ∧ e2.scores_.length = e.totalChoices_ * 2 ^ depth) ∧
    (∀ s tid s1, SearchEngine.worker data depth tid s = .ok s1 →
      s1.choices_ = s.choices_ ∧ s1.scores_.length = s.scores_.length) ∧
    (∀ s s1, SearchEngine.run data depth s = .ok s1 →
      s1.choices_ = s.choices_ ∧ s1.scores_.length = s.scores_.length) ∧
    (∀ s nTop s1, SearchEngine.afterReport data depth s nTop = .ok s1 →
      s1.choices_ = s.choices_ ∧ s1.scores_.length = s.scores_.length) := by
  have hrep : ∀ s nTop s1, SearchEngine.afterReport data depth s nTop = .ok s1 → s1 = s := by
    intro s nTop s1 h
    unfold SearchEngine.afterReport at h
    cases hr : SearchEngine.report data depth s nTop with
    | error e => rw [hr] at h; cases h
    | ok lines =>
      rw [hr, ok_bind] at h
      cases h
      rfl
  have hrun : ∀ s s1, SearchEngine.run data depth s = .ok s1 →
      s1.choices_ = s.choices_ ∧ s1.scores_.length = s.scores_.length := by
    intro s s1 h
    have := run_shape data depth s s1 h
    simp only [Prod.mk.injEq] at this
    exact this
  refine ⟨⟨_, construct_eq data depth nThreads hardware hdepth, ?_, ?_, ?_⟩, ?_, hrun, ?_⟩
  · rfl
  · simp [Nat.shiftLeft_eq]
  · intro e1 e2 nTop h1 h2
    rw [hrep _ _ _ h2]
    have := hrun _ _ h1
    simp only [List.length_replicate, Nat.shiftLeft_eq] at this
    exact this
  · intro s tid s1 h
    unfold SearchEngine.worker at h
    split at h
    · cases h
    · have := forLoop_preserves (SearchEngine.scoreChoice data depth)
        (fun e => (e.choices_, e.scores_.length)) (scoreChoice_shape data depth) _ _ _ _ h
      simp only [Prod.mk.injEq] at this
      exact this
  · intro s nTop s1 h
    rw [hrep _ _ _ h]
    exact ⟨rfl, rfl⟩

/-- C17, concrete instance: depth 1 with the cut counts `[2, 3, 4]` gives 9 choices and a score
table of 18 entries. -/
theorem score_table_fixed_witness :
    ((1 : Nat) = 1 ∨ (1 : Nat) = 2 ∨ (1 : Nat) = 3) ∧
    ∃ e, SearchEngine.construct demoData 1 2 2 = (e, none) ∧
      e.choices_.length = 9 ∧ e.scores_.length = 18 := by
  obtain ⟨e, he, h1, h2, _⟩ := (score_table_fixed demoData 1 2 2 (by decide)).1
  have hce := construct_eq demoData 1 2 2 (by decide)
  have hlen : (enumeration demoData 1).length = 9 := by decide
  rw [hce] at he
  cases he
  simp only at h1 h2
  refine ⟨by decide, _, hce, hlen, ?_⟩
  rw [h2, hlen]
  rfl

/-! ## The layout of the score table and its decoding -/

theorem decode_flatIndex (depth i m : Nat) (hm : m < 2 ^ depth) :
    SearchEngine.decode depth (SearchEngine.flatIndex depth i m) = (i, m) := by
  have hS : 0 < 2 ^ depth := Nat.two_pow_pos depth
  unfold SearchEngine.decode SearchEngine.flatIndex
  rw [Nat.shiftLeft_eq, Nat.one_mul, Nat.shiftRight_eq_div_pow, Nat.mul_comm,
    Nat.mul_add_div hS, Nat.div_eq_of_lt hm, Nat.add_zero, Nat.mul_add_mod, Nat.mod_eq_of_lt hm]

theorem flatIndex_decode (depth s : Nat) :
    (SearchEngine.decode depth s).2 < 2 ^ depth ∧
    SearchEngine.flatIndex depth (SearchEngine.decode depth s).1 (SearchEngine.decode depth s).2 =
      s := by
  have hS : 0 < 2 ^ depth := Nat.two_pow_pos depth
  unfold SearchEngine.decode SearchEngine.flatIndex
  simp only [Nat.shiftLeft_eq, Nat.one_mul, Nat.shiftRight_eq_div_pow]
  exact ⟨Nat.mod_lt _ hS, Nat.div_add_mod' s (2 ^ depth)⟩

/-- C14. The decoding of `report` inverts the layout of `worker`.  The worker writes the entry
of choice `i` and mask `m` at the flat index `i * 2 ^ depth + m`; for `m < 2 ^ depth` that index
decodes in `report` to the choice id `i` and the mask `m`, so that the line reported for it is
built from `choices_[i]` and `m`; conversely every flat index below a table length of
`2 ^ depth` entries per choice decodes to a choice id below the number of choices and a mask
below `2 ^ depth` whose flat index it is. -/
theorem decode_inverts_layout (data : Data) (depth : Nat) :
    (∀ i m, SearchEngine.flatIndex depth i m = i * 2 ^ depth + m) ∧
    (∀ (v scores sc : List ℚ) (i m : Nat),
      SearchEngine.writeScore v (i * (1 <<< depth)) m scores = .ok sc →
      sc = scores.set (SearchEngine.flatIndex depth i m) (v.getD (2 * m + 1) 0 - v.getD (2 * m) 0)) ∧
    (∀ i m, m < 2 ^ depth →
      SearchEngine.flatIndex depth i m >>> depth = i ∧
      SearchEngine.flatIndex depth i m % (1 <<< depth) = m ∧
      SearchEngine.decode depth (SearchEngine.flatIndex depth i m) = (i, m)) ∧
    (∀ (e : SearchEngine) (index : List Nat) (k i m : Nat), m < 2 ^ depth →
      index[k]? = some (SearchEngine.flatIndex depth i m) →
      SearchEngine.reportLine data depth e index k =
        match e.scores_[SearchEngine.flatIndex depth i m]?, e.choices_[i]? with
        | some raw, some ch =>
          forLoop (SearchEngine.addFragment data depth ch m) 0 depth "" >>= fun rule =>
          pop_back rule >>= fun rule =>
          pop_back rule >>= fun rule =>
          .ok ⟨(data.T0 + raw) * (1 / (data.nSample : ℚ)), rule⟩
        | _, _ => .error .outOfRange) ∧
    (∀ e : SearchEngine, e.scores_.length = e.choices_.length * 2 ^ depth →
      ∀ s, s < e.scores_.length →
        (SearchEngine.decode depth s).1 = s >>> depth ∧
        (SearchEngine.decode depth s).2 = s % (1 <<< depth) ∧
        (SearchEngine.decode depth s).1 < e.choices_.length ∧
        (SearchEngine.decode depth s).2 < 2 ^ depth ∧
        (SearchEngine.decode depth s).1 * 2 ^ depth + (SearchEngine.decode depth s).2 = s) := by
  have hS : 0 < 2 ^ depth := Nat.two_pow_pos depth
  have hflat : ∀ i m, SearchEngine.flatIndex depth i m = i * 2 ^ depth + m := by
    intro i m
    simp [SearchEngine.flatIndex, Nat.shiftLeft_eq]
  have hdec : ∀ i m, m < 2 ^ depth →
      SearchEngine.flatIndex depth i m >>> depth = i ∧
      SearchEngine.flatIndex depth i m % (1 <<< depth) = m := by
    intro i m hm
    have := decode_flatIndex depth i m hm
    unfold SearchEngine.decode at this
    exact ⟨congrArg Prod.fst this, congrArg Prod.snd this⟩
  refine ⟨hflat, ?_, ?_, ?_, ?_⟩
  · intro v scores sc i m h
    unfold SearchEngine.writeScore at h
    split at h
    · rename_i a b ha hb
      split at h
      · cases h
        simp [SearchEngine.flatIndex, List.getD_eq_getElem?_getD, ha, hb]
      · cases h
    · cases h
  · intro i m hm
    exact ⟨(hdec i m hm).1, (hdec i m hm).2, decode_flatIndex depth i m hm⟩
  · intro e index k i m hm hk
    unfold SearchEngine.reportLine
    simp only [hk, (hdec i m hm).1, (hdec i m hm).2]
  · intro e hlen s hs
    have h := flatIndex_decode depth s
    rw [hflat] at h
    refine ⟨rfl, rfl, ?_, h.1, h.2⟩
    unfold SearchEngine.decode
    rw [Nat.shiftRight_eq_div_pow]
    exact (Nat.div_lt_iff_lt_mul hS).mpr (hlen ▸ hs)

/-- C14, concrete instance: at depth 2 the entry of choice 5 and mask 3 is at the flat index 23,
which decodes to `(5, 3)`; in a table of 9 choices the index 30 decodes to `(7, 2)`. -/
theorem decode_inverts_layout_witness :
    SearchEngine.flatIndex 2 5 3 = 23 ∧ SearchEngine.decode 2 23 = (5, 3) ∧
    SearchEngine.decode 2 30 = (7, 2) ∧
    SearchEngine.decode 2 (SearchEngine.flatIndex 2 5 3) = (5, 3) :=
  ⟨by decide, by decide, by decide,
    ((decode_inverts_layout demoData 2).2.2.1 5 3 (by decide)).2.2⟩

/-! ## The reported score -/

theorem mapM_get {α β : Type} (f : α → Except Fault β) :
    ∀ (xs : List α) (ys : List β), xs.mapM f = .ok ys →
      ys.length = xs.length ∧
      ∀ k (h1 : k < xs.length) (h2 : k < ys.length), f xs[k] = .ok ys[k] := by
  intro xs
  induction xs with
  | nil =>
    intro ys h
    cases h
    exact ⟨rfl, fun k hk => by simp at hk⟩
  | cons x xs ih =>
    intro ys h
    rw [List.mapM_cons] at h
    cases hx : f x with
    | error e => rw [hx] at h; cases h
    | ok y =>
      rw [hx] at h
      cases hxs : xs.mapM f with
      | error e => rw [hxs] at h; cases h
      | ok zs =>
        rw [hxs] at h
        cases h
        obtain ⟨h1, h2⟩ := ih zs hxs
        refine ⟨by simp [h1], ?_⟩
        intro k hk1 hk2
        cases k with
        | zero => exact hx
        | succ k =>
          simp only [List.getElem_cons_succ]
          exact h2 k _ _

/-- The score of a line is computed from the table entry at the decoded flat index. -/
theorem reportLine_score (data : Data) (depth : Nat) (s : SearchEngine) (index : List Nat)
    (i : Nat) (line : ReportLine)
    (h : SearchEngine.reportLine data depth s index i = .ok line) :
    ∃ sID raw, index[i]? = some sID ∧ s.scores_[sID]? = some raw ∧
      line.score = (data.T0 + raw) * (1 / (data.nSample : ℚ)) := by
  unfold SearchEngine.reportLine at h
  simp only at h
  cases hidx : index[i]? with
  | none => simp only [hidx] at h; cases h
  | some sID =>
    simp only [hidx] at h
    cases hraw : s.scores_[sID]? with
    | none => simp only [hraw] at h; cases h
    | some raw =>
      cases hch : s.choices_[sID >>> depth]? with
      | none => simp only [hraw, hch] at h; cases h
      | some ch =>
        simp only [hraw, hch] at h
        refine ⟨sID, raw, rfl, hraw, ?_⟩
        cases hf : forLoop (SearchEngine.addFragment data depth ch (sID % 1 <<< depth)) 0 depth ""
          with
        | error e => rw [hf] at h; cases h
        | ok r1 =>
          rw [hf, ok_bind] at h
          cases hp1 : pop_back r1 with
          | error e => rw [hp1] at h; cases h
          | ok r2 =>
            rw [hp1, ok_bind] at h
            cases hp2 : pop_back r2 with
            | error e => rw [hp2] at h; cases h
            | ok r3 =>
              rw [hp2, ok_bind] at h
              cases h
              rfl

/-- C15. The reported score.  With `nSample > 0`: whenever `report(nTop)` writes its lines, the
score of the `k`-th line is `(T0 + rawScore) / nSample` (so that `score * nSample` gives
`T0 + rawScore` back), where `rawScore` is the entry of the
score table at the flat index in position `k` of the ranking; and on the engine constructed for
depth 1, 2 or 3, before or after `run`, with fragments of at least two characters, `report`
does write its lines. -/
theorem report_score (data : Data) (depth : Nat) (hn : 0 < data.nSample) :
    (∀ (e : SearchEngine) (nTop : Nat) (lines : List ReportLine),
      SearchEngine.report data depth e nTop = .ok lines →
      ∃ index, SearchEngine.ranking e nTop = .ok (lines.length, index) ∧
        ∀ k (hk : k < lines.length), ∃ sID raw, index[k]? = some sID ∧
          e.scores_[sID]? = some raw ∧
          lines[k].score = (data.T0 + raw) / (data.nSample : ℚ) ∧
          lines[k].score * (data.nSample : ℚ) = data.T0 + raw) ∧
    ((depth = 1 ∨ depth = 2 ∨ depth = 3) → (∀ v c f, 2 ≤ (data.cutInfo v c f).length) →
      ∀ nThreads hardware e1 nTop,
        (e1 = (SearchEngine.construct data depth nThreads hardware).1 ∨
          SearchEngine.run data depth (SearchEngine.construct data depth nThreads hardware).1 =
            .ok e1) →
        ∃ lines, SearchEngine.report data depth e1 nTop = .ok lines ∧
          lines.length = min nTop (enumeration data depth).length) := by
  constructor
  · intro e nTop lines h
    unfold SearchEngine.report at h
    cases hr : SearchEngine.ranking e nTop with
    | error f => rw [hr] at h; cases h
    | ok r =>
      rw [hr, ok_bind] at h
      obtain ⟨h1, h2⟩ := mapM_get _ _ _ h
      rw [List.length_range] at h1
      refine ⟨r.2, by rw [h1], ?_⟩
      intro k hk
      have := h2 k (by rw [List.length_range, ← h1]; exact hk) hk
      rw [List.getElem_range] at this
      obtain ⟨sID, raw, e1, e2, e3⟩ := reportLine_score data depth e r.2 k _ this
      have hne : (data.nSample : ℚ) ≠ 0 := Nat.cast_ne_zero.mpr (by omega)
      refine ⟨sID, raw, e1, e2, ?_, ?_⟩
      · rw [e3, mul_one_div]
      · rw [e3, mul_one_div, div_mul_cancel₀ _ hne]
  · intro hdepth hfrag nThreads hardware e1 nTop he1
    exact report_constructed data depth nThreads hardware hdepth hfrag e1 he1 nTop

/-- C15, concrete instance: the two best lines for the demo dataset (11 samples) at depth 1. -/
theorem report_score_witness :
    0 < demoData.nSample ∧
    ∃ lines index, SearchEngine.report demoData 1 (SearchEngine.construct demoData 1 2 2).1 2 =
        .ok lines ∧
      SearchEngine.ranking (SearchEngine.construct demoData 1 2 2).1 2 =
        .ok (lines.length, index) ∧
      ∀ k (hk : k < lines.length), ∃ sID raw, index[k]? = some sID ∧
        (SearchEngine.construct demoData 1 2 2).1.scores_[sID]? = some raw ∧
        lines[k].score = (demoData.T0 + raw) / (demoData.nSample : ℚ) ∧
        lines[k].score * (demoData.nSample : ℚ) = demoData.T0 + raw := by
  have h := report_score demoData 1 (by decide)
  obtain ⟨lines, hl, _⟩ := h.2 (by decide) demoData_fragments 2 2 _ 2 (Or.inl rfl)
  obtain ⟨index, h1, h2⟩ := h.1 _ _ _ hl
  exact ⟨by decide, lines, index, hl, h1, h2⟩

/-! ## The direction flag of a dimension -/

theorem directionFlag_eq (depth mask d : Nat) :
    SearchEngine.directionFlag depth mask d =
      if mask.testBit (depth - 1 - d) then 2 ^ (depth - 1 - d) else 0 := by
  unfold SearchEngine.directionFlag
  rw [Nat.shiftLeft_eq, Nat.one_mul, Nat.and_two_pow]
  cases mask.testBit (depth - 1 - d) <;> simp

theorem directionFlag_ne_zero (depth mask d : Nat) :
    SearchEngine.directionFlag depth mask d ≠ 0 ↔ mask.testBit (depth - 1 - d) = true := by
  rw [directionFlag_eq]
  cases mask.testBit (depth - 1 - d) <;> simp

/-- C11 as stated fails at depth 2 for the mask 1: bit 0 of the mask is set, but the flag that
`report` passes for dimension 0 is `1 & (1 << 1) = 0` (the description is the one of flag 0);
bit 1 of the mask is not set, but the flag passed for dimension 1 is `1 & (1 << 0) = 1`. -/
theorem direction_bit_counterexample :
    1 < 2 ^ 2 ∧
    Nat.testBit 1 0 = true ∧ SearchEngine.directionFlag 2 1 0 = 0 ∧
    SearchEngine.addFragment demoData 2 ⟨[0, 1], [0, 0]⟩ 1 0 "" =
      .ok ("" ++ demoData.cutInfo 0 0 0) ∧
    Nat.testBit 1 1 = false ∧ SearchEngine.directionFlag 2 1 1 = 1 ∧
    SearchEngine.addFragment demoData 2 ⟨[0, 1], [0, 0]⟩ 1 1 "" =
      .ok ("" ++ demoData.cutInfo 1 0 1) ∧
    demoData.cutInfo 0 0 0 ≠ demoData.cutInfo 0 0 2 :=
  ⟨by decide, by decide, by decide, rfl, by decide, by decide, rfl, by decide⟩

/-- C11, amended. For every mask and every dimension `d < depth`: the direction flag that
`report` passes to `cutInfo` for dimension `d` is `mask & (1 << (depth - 1 - d))`; it is set
exactly when bit `depth - 1 - d` of the mask is set, so that bit `p` of the mask selects the
side of dimension `depth - 1 - p`; and it is set exactly when bit `d` is set only if the bits
`d` and `depth - 1 - d` of the mask are equal (as they are for every `d` at depth 1). -/
theorem direction_flag_bit (depth mask d : Nat) (hd : d < depth) :
    (∀ (data : Data) (ch : Choice) (rule : String) (v c : Nat),
      ch.vIdx[d]? = some v → ch.cIdx[d]? = some c →
      SearchEngine.addFragment data depth ch mask d rule =
        .ok (rule ++ data.cutInfo v c (SearchEngine.directionFlag depth mask d))) ∧
    (SearchEngine.directionFlag depth mask d ≠ 0 ↔ mask.testBit (depth - 1 - d) = true) ∧
    SearchEngine.directionFlag depth mask d =
      (if mask.testBit (depth - 1 - d) then 2 ^ (depth - 1 - d) else 0) ∧
    (depth - 1 - d < depth ∧ depth - 1 - (depth - 1 - d) = d) ∧
    ((SearchEngine.directionFlag depth mask d ≠ 0 ↔ mask.testBit d = true) ↔
      mask.testBit d = mask.testBit (depth - 1 - d)) ∧
    (depth = 1 → (SearchEngine.directionFlag depth mask d ≠ 0 ↔ mask.testBit d = true)) := by
  refine ⟨?_, directionFlag_ne_zero depth mask d, directionFlag_eq depth mask d,
    ⟨by omega, by omega⟩, ?_, ?_⟩
  · intro data ch rule v c hv hc
    unfold SearchEngine.addFragment SearchEngine.directionFlag
    simp only [hv, hc]
  · rw [directionFlag_ne_zero]
    cases mask.testBit d <;> cases mask.testBit (depth - 1 - d) <;> simp
  · intro h1
    rw [directionFlag_ne_zero, show depth - 1 - d = d by omega]

/-- C11 amended, concrete instance: at depth 2 the flag of dimension 0 for the mask 2 is set,
as is bit 1 of the mask. -/
theorem direction_flag_bit_witness :
    0 < 2 ∧ SearchEngine.directionFlag 2 2 0 = 2 ∧ Nat.testBit 2 (2 - 1 - 0) = true ∧
    (SearchEngine.directionFlag 2 2 0 ≠ 0 ↔ Nat.testBit 2 (2 - 1 - 0) = true) :=
  ⟨by decide, by decide, by decide, (direction_flag_bit 2 2 0 (by decide)).2.1⟩

/-! ## The meaning of a mask in the kernel and in the reporter -/

/-- A packed index `A + Σ_d β d * 2 ^ (depth - d)` with bits `A` and `β d` is `2 m + a` exactly
when `A = a` and every `β d` is bit `depth - 1 - d` of `m`. -/
theorem packed_iff (depth : Nat) (hdepth : depth = 1 ∨ depth = 2 ∨ depth = 3) (A : Nat)
    (β : Nat → Nat) (hA : A ≤ 1) (hβ : ∀ d, d < depth → β d ≤ 1) (m a : Nat)
    (hm : m < 2 ^ depth) (ha : a ≤ 1) :
    A + ((List.range depth).map fun d => β d * 2 ^ (depth - d)).sum = 2 * m + a ↔
      A = a ∧ ∀ d, d < depth → β d = m / 2 ^ (depth - 1 - d) % 2 := by
  rcases hdepth with rfl | rfl | rfl
  · have h0 := hβ 0 (by omega)
    simp only [List.range_succ, List.range_zero, List.nil_append, List.map_cons,
      List.map_nil, List.cons_append, List.sum_cons, List.sum_nil]
    constructor
    · intro h
      norm_num at h hm
      refine ⟨by omega, ?_⟩
      intro d hd
      interval_cases d
      norm_num
      omega
    · rintro ⟨h1, h2⟩
      have e0 := h2 0 (by omega)
      norm_num at e0 hm ⊢
      omega
  · have h0 := hβ 0 (by omega)
    have h1 := hβ 1 (by omega)
    simp only [List.range_succ, List.range_zero, List.nil_append, List.map_cons,
      List.map_nil, List.cons_append, List.sum_cons, List.sum_nil]
    constructor
    · intro h
      norm_num at h hm
      refine ⟨by omega, ?_⟩
      intro d hd
      interval_cases d <;> norm_num <;> omega
    · rintro ⟨h1, h2⟩
      have e0 := h2 0 (by omega)
      have e1 := h2 1 (by omega)
      norm_num at e0 e1 hm ⊢
      omega
  · have h0 := hβ 0 (by omega)
    have h1 := hβ 1 (by omega)
    have h2 := hβ 2 (by omega)
    simp only [List.range_succ, List.range_zero, List.nil_append, List.map_cons,
      List.map_nil, List.cons_append, List.sum_cons, List.sum_nil]
    constructor
    · intro h
      norm_num at h hm
      refine ⟨by omega, ?_⟩
      intro d hd
      interval_cases d <;> norm_num <;> omega
    · rintro ⟨h1, h2⟩
      have e0 := h2 0 (by omega)
      have e1 := h2 1 (by omega)
      have e2 := h2 2 (by omega)
      norm_num at e0 e1 e2 hm ⊢
      omega

/-- The bucket of a sample is `2 m + a` exactly when its action code is `a` and its membership
bit in every dimension `d` is bit `depth - 1 - d` of `m`. -/
theorem bucket_iff (data : Data) (depth : Nat) (ch : Choice)
    (hdepth : depth = 1 ∨ depth = 2 ∨ depth = 3)
    (hact : ∀ j, data.act j < 2 ^ 32 ∧ ∀ k, k < 8 → sampleNibble (data.act j) k ≤ 1)
    (hmask : ∀ d, d < depth → ∀ j,
      data.cutMask (ch.vIdx.getD d 0) (ch.cIdx.getD d 0) j < 2 ^ 32 ∧
      ∀ k, k < 8 → sampleNibble (data.cutMask (ch.vIdx.getD d 0) (ch.cIdx.getD d 0) j) k ≤ 1)
    (s m a : Nat) (hm : m < 2 ^ depth) (ha : a ≤ 1) :
    bucket data depth ch s = 2 * m + a ↔
      actionCode data s = a ∧
      ∀ d, d < depth →
        membershipBit data (ch.vIdx.getD d 0) (ch.cIdx.getD d 0) s =
          m / 2 ^ (depth - 1 - d) % 2 := by
  have hk : s % 8 < 8 := Nat.mod_lt _ (by norm_num)
  exact packed_iff depth hdepth (actionCode data s)
    (fun d => membershipBit data (ch.vIdx.getD d 0) (ch.cIdx.getD d 0) s)
    ((hact (s / 8)).2 (s % 8) hk) (fun d hd => (hmask d hd (s / 8)).2 (s % 8) hk) m a hm ha

/-- C18. The kernel and the reporter agree on the meaning of a mask.  For depth 1, 2 or 3, a
choice with packed words whose nibbles are 0 or 1, and a mask `m < 2 ^ depth`: the score that
the kernel stores for the choice at mask `m` (flat index `i * 2 ^ depth + m` for the choice id
`i`) is the sum of the responses of the samples with action 1 minus the sum for action 0, both
over the samples whose membership bit in every dimension `d` equals bit `depth - 1 - d` of `m`;
and the direction flag that `report` passes to `cutInfo` for dimension `d` is nonzero exactly
when that bit `depth - 1 - d` of `m` is set. -/
theorem mask_meaning (data : Data) (depth : Nat) (ch : Choice)
    (hdepth : depth = 1 ∨ depth = 2 ∨ depth = 3)
    (hact : ∀ j, data.act j < 2 ^ 32 ∧ ∀ k, k < 8 → sampleNibble (data.act j) k ≤ 1)
    (hmask : ∀ d, d < depth → ∀ j,
      data.cutMask (ch.vIdx.getD d 0) (ch.cIdx.getD d 0) j < 2 ^ 32 ∧
      ∀ k, k < 8 → sampleNibble (data.cutMask (ch.vIdx.getD d 0) (ch.cIdx.getD d 0) j) k ≤ 1)
    (m : Nat) (hm : m < 2 ^ depth) :
    (∃ v, SearchEngine.accumulator data depth ch = .ok v ∧
      v.getD (2 * m + 1) 0 - v.getD (2 * m) 0 =
        (∑ s ∈ Finset.range data.nSample,
          if actionCode data s = 1 ∧ ∀ d, d < depth →
              membershipBit data (ch.vIdx.getD d 0) (ch.cIdx.getD d 0) s =
                m / 2 ^ (depth - 1 - d) % 2
          then data.resp s else 0) -
        (∑ s ∈ Finset.range data.nSample,
          if actionCode data s = 0 ∧ ∀ d, d < depth →
              membershipBit data (ch.vIdx.getD d 0) (ch.cIdx.getD d 0) s =
                m / 2 ^ (depth - 1 - d) % 2
          then data.resp s else 0) ∧
      ∀ (e : SearchEngine) (i : Nat), e.choices_[i]? = some ch →
        (i + 1) * 2 ^ depth ≤ e.scores_.length →
        ∃ e1, SearchEngine.scoreChoice data depth i e = .ok e1 ∧
          e1.scores_[i * 2 ^ depth + m]? = some (v.getD (2 * m + 1) 0 - v.getD (2 * m) 0)) ∧
    (∀ d, d < depth →
      (∀ (rule : String) (v c : Nat), ch.vIdx[d]? = some v → ch.cIdx[d]? = some c →
        SearchEngine.addFragment data depth ch m d rule =
          .ok (rule ++ data.cutInfo v c (SearchEngine.directionFlag depth m d))) ∧
      (SearchEngine.directionFlag depth m d ≠ 0 ↔ m / 2 ^ (depth - 1 - d) % 2 = 1) ∧
      (SearchEngine.directionFlag depth m d ≠ 0 ↔ m.testBit (depth - 1 - d) = true)) := by
  have hacc := accumulator_eq_sums data depth ch hdepth hact hmask
  have hlt : 2 * m + 1 < 2 ^ (depth + 1) := by rw [pow_succ]; omega
  have hget : ∀ b, b < 2 ^ (depth + 1) →
      ((List.range (2 ^ (depth + 1))).map fun b =>
        ∑ s ∈ Finset.range data.nSample,
          if b = bucket data depth ch s then data.resp s else 0).getD b 0 =
        ∑ s ∈ Finset.range data.nSample,
          if b = bucket data depth ch s then data.resp s else 0 := by
    intro b hb
    simp [List.getD_eq_getElem?_getD, List.getElem?_range hb]
  have hsum : ∀ a, a ≤ 1 →
      (∑ s ∈ Finset.range data.nSample,
        if 2 * m + a = bucket data depth ch s then data.resp s else 0) =
      ∑ s ∈ Finset.range data.nSample,
        if actionCode data s = a ∧ ∀ d, d < depth →
            membershipBit data (ch.vIdx.getD d 0) (ch.cIdx.getD d 0) s =
              m / 2 ^ (depth - 1 - d) % 2
        then data.resp s else 0 := by
    intro a ha
    apply Finset.sum_congr rfl
    intro s _
    apply if_congr _ rfl rfl
    rw [eq_comm]
    exact bucket_iff data depth ch hdepth hact hmask s m a hm ha
  refine ⟨⟨_, hacc, ?_, ?_⟩, ?_⟩
  · rw [hget _ hlt, hget _ (by omega), hsum 1 (Nat.le_refl _)]
    have := hsum 0 (Nat.zero_le _)
    rw [Nat.add_zero] at this
    rw [this]
  · intro e i hch hroom
    rw [scoreChoice_closed, hch]
    simp only [hacc]
    rw [if_pos hroom]
    refine ⟨_, rfl, ?_⟩
    have hin := block_inside i (i + 1) i m (2 ^ depth) (Nat.le_refl _) (Nat.lt_succ_self _) hm
    simp only
    rw [blockWrite_get depth i _ e.scores_ _ (Nat.lt_of_lt_of_le hin.2 hroom),
      if_pos ⟨Nat.le_add_right _ _, Nat.add_lt_add_left hm _⟩, Nat.add_sub_cancel_left]
  · intro d _
    refine ⟨?_, ?_, directionFlag_ne_zero depth m d⟩
    · intro rule v c hv hc
      unfold SearchEngine.addFragment SearchEngine.directionFlag
      simp only [hv, hc]
    · rw [directionFlag_ne_zero, Nat.testBit_to_div_mod]
      simp

/-- C18, concrete instance: the demo dataset at depth 2, the choice of cut 0 of variables 0 and
1, the mask 2. -/
theorem mask_meaning_witness :
    (2 : Nat) < 2 ^ 2 ∧
    (∃ v, SearchEngine.accumulator demoData 2 ⟨[0, 1], [0, 0]⟩ = .ok v ∧
      v.getD (2 * 2 + 1) 0 - v.getD (2 * 2) 0 =
        (∑ s ∈ Finset.range demoData.nSample,
          if actionCode demoData s = 1 ∧ ∀ d : Nat, d < 2 →
              membershipBit demoData (([0, 1] : List Nat).getD d 0) (([0, 0] : List Nat).getD d 0) s =
                2 / 2 ^ (2 - 1 - d) % 2
          then demoData.resp s else 0) -
        (∑ s ∈ Finset.range demoData.nSample,
          if actionCode demoData s = 0 ∧ ∀ d : Nat, d < 2 →
              membershipBit demoData (([0, 1] : List Nat).getD d 0) (([0, 0] : List Nat).getD d 0) s =
                2 / 2 ^ (2 - 1 - d) % 2
          then demoData.resp s else 0)) ∧
    SearchEngine.directionFlag 2 2 0 ≠ 0 ∧ ¬ SearchEngine.directionFlag 2 2 1 ≠ 0 := by
  obtain ⟨⟨v, h1, h2, _⟩, _⟩ := mask_meaning demoData 2 ⟨[0, 1], [0, 0]⟩ (by decide)
    demoData_packed.1 (fun _ _ j => demoData_packed.2 _ _ j) 2 (by decide)
  exact ⟨by decide, ⟨v, h1, h2⟩, by decide, by decide⟩

/-! ## The rule text -/

theorem intercalate_go_eq (sep : String) : ∀ (bs : List String) (acc : String),
    String.intercalate.go acc sep bs = bs.foldl (fun r b => r ++ sep ++ b) acc := by
  intro bs
  induction bs with
  | nil => intro acc; rfl
  | cons b bs ih =>
    intro acc
    rw [String.intercalate.go, ih, List.foldl_cons]

/-- Appending every body with its separator gives the joined bodies and one more separator. -/
theorem foldl_fragments (sep : String) : ∀ (bs : List String) (acc : String),
    bs.foldl (fun r b => r ++ (b ++ sep)) (acc ++ sep) =
      bs.foldl (fun r b => r ++ sep ++ b) acc ++ sep := by
  intro bs
  induction bs with
  | nil => intro acc; rfl
  | cons b bs ih =>
    intro acc
    rw [List.foldl_cons, List.foldl_cons, ← String.append_assoc, ih]

theorem fragments_join (sep : String) (b : String) (bs : List String) :
    (b :: bs).foldl (fun r x => r ++ (x ++ sep)) "" = String.intercalate sep (b :: bs) ++ sep := by
  rw [List.foldl_cons, String.intercalate, intercalate_go_eq, ← foldl_fragments]
  congr 1

/-- Two `pop_back` calls remove a separator of two characters. -/
theorem pop_back_sep (r sep : String) (hsep : sep.length = 2) :
    (pop_back (r ++ sep) >>= pop_back) = .ok r := by
  obtain ⟨x, y, hxy⟩ : ∃ x y, sep.data = [x, y] := by
    have : sep.data.length = 2 := hsep
    match h : sep.data, this with
    | [x, y], _ => exact ⟨x, y, rfl⟩
  have h1 : (r ++ sep).data = r.data ++ [x, y] := by rw [String.data_append, hxy]
  have e1 : pop_back (r ++ sep) = .ok ⟨r.data ++ [x]⟩ := by
    unfold pop_back
    rw [h1, if_neg (by simp)]
    congr 2
    rw [show r.data ++ [x, y] = (r.data ++ [x]) ++ [y] by simp, List.dropLast_concat]
  rw [e1, ok_bind]
  unfold pop_back
  simp only
  rw [if_neg (by simp), List.dropLast_concat]

/-- When the loop of lines 78-81 ends normally, the choice has an entry for every dimension. -/
theorem fragments_ok (data : Data) (depth : Nat) (ch : Choice) (mask : Nat) :
    ∀ (n : Nat) (rule r : String),
      forLoop (SearchEngine.addFragment data depth ch mask) 0 n rule = .ok r →
      n ≤ ch.vIdx.length ∧ n ≤ ch.cIdx.length := by
  intro n
  induction n with
  | zero => intro _ _ _; exact ⟨Nat.zero_le _, Nat.zero_le _⟩
  | succ n ih =>
    intro rule r h
    rw [forLoop_succ_last] at h
    cases h1 : forLoop (SearchEngine.addFragment data depth ch mask) 0 n rule with
    | error e => rw [h1] at h; cases h
    | ok r1 =>
      rw [h1, ok_bind, Nat.zero_add] at h
      have := ih rule r1 h1
      unfold SearchEngine.addFragment at h
      rcases Nat.lt_or_ge n ch.vIdx.length with hv | hv
      · rcases Nat.lt_or_ge n ch.cIdx.length with hc | hc
        · exact ⟨hv, hc⟩
        · rw [List.getElem?_eq_none hc] at h
          split at h <;> simp_all
      · rw [List.getElem?_eq_none hv] at h
        split at h <;> simp_all

/-- The rule of a line, when every fragment is a body followed by the separator `sep`. -/
theorem reportLine_rule (data : Data) (depth : Nat) (hd : 1 ≤ depth)
    (body : Nat → Nat → Nat → String) (sep : String) (hsep : sep.length = 2)
    (hfrag : ∀ v c f, data.cutInfo v c f = body v c f ++ sep)
    (e : SearchEngine) (index : List Nat) (k : Nat) (line : ReportLine)
    (h : SearchEngine.reportLine data depth e index k = .ok line) :
    ∃ sID ch, index[k]? = some sID ∧ e.choices_[sID >>> depth]? = some ch ∧
      line.rule = String.intercalate sep ((List.range depth).map fun d =>
        body (ch.vIdx.getD d 0) (ch.cIdx.getD d 0)
          (SearchEngine.directionFlag depth (sID % (1 <<< depth)) d)) := by
  unfold SearchEngine.reportLine at h
  simp only at h
  cases hidx : index[k]? with
  | none => simp only [hidx] at h; cases h
  | some sID =>
    simp only [hidx] at h
    cases hraw : e.scores_[sID]? with
    | none => simp only [hraw] at h; cases h
    | some raw =>
      cases hch : e.choices_[sID >>> depth]? with
      | none => simp only [hraw, hch] at h; cases h
      | some ch =>
        simp only [hraw, hch] at h
        refine ⟨sID, ch, rfl, hch, ?_⟩
        cases hf : forLoop (SearchEngine.addFragment data depth ch (sID % 1 <<< depth)) 0 depth ""
          with
        | error e => rw [hf] at h; cases h
        | ok r1 =>
          have hlen := fragments_ok data depth ch _ depth "" r1 hf
          have hfe := fragments_eq data depth ch (sID % 1 <<< depth) "" depth hlen.1 hlen.2
          rw [hf] at hfe
          have hr1 := Except.ok.inj hfe
          obtain ⟨b, bs, hbs⟩ : ∃ b bs, ((List.range depth).map fun d =>
              body (ch.vIdx.getD d 0) (ch.cIdx.getD d 0)
                (SearchEngine.directionFlag depth (sID % (1 <<< depth)) d)) = b :: bs := by
            obtain ⟨n, rfl⟩ : ∃ n, depth = n + 1 := ⟨depth - 1, by omega⟩
            rw [List.range_succ_eq_map, List.map_cons]
            exact ⟨_, _, rfl⟩
          have hjoin : r1 = String.intercalate sep ((List.range depth).map fun d =>
              body (ch.vIdx.getD d 0) (ch.cIdx.getD d 0)
                (SearchEngine.directionFlag depth (sID % (1 <<< depth)) d)) ++ sep := by
            rw [hbs, ← fragments_join, ← hbs, List.foldl_map, hr1]
            simp only [hfrag, SearchEngine.directionFlag]
          rw [hf, ok_bind] at h
          have hpop := pop_back_sep (String.intercalate sep ((List.range depth).map fun d =>
              body (ch.vIdx.getD d 0) (ch.cIdx.getD d 0)
                (SearchEngine.directionFlag depth (sID % (1 <<< depth)) d))) sep hsep
          rw [← hjoin] at hpop
          cases hp1 : pop_back r1 with
          | error e => rw [hp1] at h; cases h
          | ok r2 =>
            rw [hp1, ok_bind] at h hpop
            rw [hpop, ok_bind] at h
            cases h
            rfl

/-- C16. The rule text.  For depth 1, 2 or 3, when every description fragment of the provider is
a body followed by the same separator of two characters: the rule of every line that `report`
writes (and of every line that the body of its output loop renders for a position of `index`)
is the bodies of the dimensions `0 .. depth - 1` of the decoded choice, in choice order, each
for the direction flag of its dimension, joined with one separator between consecutive bodies
and none at the end; and on the engine constructed for that depth, before or after `run`,
`report` does write its lines. -/
theorem report_rule_text (data : Data) (depth : Nat)
    (hdepth : depth = 1 ∨ depth = 2 ∨ depth = 3)
    (body : Nat → Nat → Nat → String) (sep : String) (hsep : sep.length = 2)
    (hfrag : ∀ v c f, data.cutInfo v c f = body v c f ++ sep) :
    (∀ (e : SearchEngine) (index : List Nat) (k : Nat) (line : ReportLine),
      SearchEngine.reportLine data depth e index k = .ok line →
      ∃ sID ch, index[k]? = some sID ∧ e.choices_[sID >>> depth]? = some ch ∧
        line.rule = String.intercalate sep ((List.range depth).map fun d =>
          body (ch.vIdx.getD d 0) (ch.cIdx.getD d 0)
            (SearchEngine.directionFlag depth (sID % (1 <<< depth)) d))) ∧
    (∀ (e : SearchEngine) (nTop : Nat) (lines : List ReportLine),
      SearchEngine.report data depth e nTop = .ok lines →
      ∃ index, SearchEngine.ranking e nTop = .ok (lines.length, index) ∧
        ∀ k (hk : k < lines.length), ∃ sID ch, index[k]? = some sID ∧
          e.choices_[sID >>> depth]? = some ch ∧
          lines[k].rule = String.intercalate sep ((List.range depth).map fun d =>
            body (ch.vIdx.getD d 0) (ch.cIdx.getD d 0)
              (SearchEngine.directionFlag depth (sID % (1 <<< depth)) d))) ∧
    (∀ nThreads hardware e1 nTop,
      (e1 = (SearchEngine.construct data depth nThreads hardware).1 ∨
        SearchEngine.run data depth (SearchEngine.construct data depth nThreads hardware).1 =
          .ok e1) →
      ∃ lines, SearchEngine.report data depth e1 nTop = .ok lines ∧
        lines.length = min nTop (enumeration data depth).length) ∧
    (∀ b0 b1 b2 : String, String.intercalate sep [b0] = b0 ∧
      String.intercalate sep [b0, b1] = b0 ++ sep ++ b1 ∧
      String.intercalate sep [b0, b1, b2] = b0 ++ sep ++ b1 ++ sep ++ b2) := by
  have hd : 1 ≤ depth := by omega
  refine ⟨fun e index k line h =>
    reportLine_rule data depth hd body sep hsep hfrag e index k line h, ?_, ?_,
    fun b0 b1 b2 => ⟨rfl, rfl, rfl⟩⟩
  · intro e nTop lines h
    unfold SearchEngine.report at h
    cases hr : SearchEngine.ranking e nTop with
    | error f => rw [hr] at h; cases h
    | ok r =>
      rw [hr, ok_bind] at h
      obtain ⟨h1, h2⟩ := mapM_get _ _ _ h
      rw [List.length_range] at h1
      refine ⟨r.2, by rw [h1], ?_⟩
      intro k hk
      have := h2 k (by rw [List.length_range, ← h1]; exact hk) hk
      rw [List.getElem_range] at this
      exact reportLine_rule data depth hd body sep hsep hfrag e r.2 k _ this
  · intro nThreads hardware e1 nTop he1
    refine report_constructed data depth nThreads hardware hdepth ?_ e1 he1 nTop
    intro v c f
    rw [hfrag, String.length_append, hsep]
    omega

/-- C16, concrete instance: depth 2, the descriptions `hi` for dimension 0 and `lo` for
dimension 1 (mask 2) render as `hi, lo`. -/
theorem report_rule_text_witness :
    (", " : String).length = 2 ∧
    (∀ v c f, demoData.cutInfo v c f = (if f = 0 then "lo" else "hi") ++ ", ") ∧
    ∃ line sID ch, SearchEngine.reportLine demoData 2
        { nThreads_ := 1, totalChoices_ := 1, iter_ := 1, choices_ := [⟨[0, 1], [0, 0]⟩],
          scores_ := [0, 0, 5, 0] } [2] 0 = .ok line ∧
      [2][0]? = some sID ∧ [(⟨[0, 1], [0, 0]⟩ : Choice)][sID >>> 2]? = some ch ∧
      line.rule = String.intercalate ", " ((List.range 2).map fun d =>
        if SearchEngine.directionFlag 2 (sID % (1 <<< 2)) d = 0 then "lo" else "hi") ∧
      line.rule = "hi, lo" := by
  have hfrag : ∀ v c f : Nat, demoData.cutInfo v c f = (if f = 0 then "lo" else "hi") ++ ", " := by
    intro v c f
    by_cases hf : f = 0
    · simp only [demoData, hf, if_true]
      rfl
    · simp only [demoData, hf, if_false]
      rfl
  have hline : SearchEngine.reportLine demoData 2
      { nThreads_ := 1, totalChoices_ := 1, iter_ := 1, choices_ := [⟨[0, 1], [0, 0]⟩],
        scores_ := [0, 0, 5, 0] } [2] 0 =
      .ok ⟨(demoData.T0 + 5) * (1 / (demoData.nSample : ℚ)), "hi, lo"⟩ := rfl
  obtain ⟨sID, ch, h1, h2, h3⟩ := (report_rule_text demoData 2 (by decide)
    (fun _ _ f => if f = 0 then "lo" else "hi") ", " rfl hfrag).1 _ _ _ _ hline
  exact ⟨rfl, hfrag, _, sID, ch, hline, h1, h2, h3, rfl⟩

/-! ## The order of the blocks of variable combinations -/

/-- The combinations of `k` elements of a strictly ascending list, in the order in which
`combination` completes them (first without the first element, then with it), are in strictly
descending lexicographic order. -/
theorem sublistsLen_lex : ∀ l : List Nat, l.Pairwise (fun a b => a < b) → ∀ k : Nat,
    (List.sublistsLen k l).Pairwise fun A B => List.Lex (fun a b => a < b) B A := by
  intro l
  induction l with
  | nil =>
    intro _ k
    cases k with
    | zero => simp
    | succ k => simp
  | cons a l ih =>
    intro hl k
    cases k with
    | zero => simp
    | succ k =>
      rw [List.sublistsLen_succ_cons, List.pairwise_append]
      refine ⟨ih (List.Pairwise.of_cons hl) _, ?_, ?_⟩
      · rw [List.pairwise_map]
        exact (ih (List.Pairwise.of_cons hl) k).imp fun h => List.Lex.cons h
      · intro A hA B hB
        obtain ⟨B1, _, rfl⟩ := List.mem_map.mp hB
        obtain ⟨hsub, hlen⟩ := List.mem_sublistsLen.mp hA
        cases A with
        | nil => simp at hlen
        | cons x A1 =>
          exact List.Lex.rel (List.rel_of_pairwise_cons hl (hsub.subset (List.mem_cons_self _ _)))

/-- In the choice list a later choice has the same variables as an earlier one or
lexicographically smaller ones. -/
theorem enumeration_order (data : Data) (depth : Nat) :
    (enumeration data depth).Pairwise fun a b =>
      a.vIdx = b.vIdx ∨ List.Lex (fun a b => a < b) b.vIdx a.vIdx := by
  unfold enumeration
  rw [List.pairwise_flatMap]
  constructor
  · intro vs _
    rw [List.pairwise_map]
    exact List.pairwise_of_forall fun _ _ => Or.inl rfl
  · refine (sublistsLen_lex _ (List.pairwise_lt_range _) depth).imp ?_
    intro A B h x hx y hy
    obtain ⟨_, _, rfl⟩ := List.mem_map.mp hx
    obtain ⟨_, _, rfl⟩ := List.mem_map.mp hy
    exact Or.inr h

/-- C19. The order of the blocks.  In the choice list of the engine constructed for depth 1, 2
or 3 the variable combinations are the `depth`-element combinations of `0 .. nVar - 1` as
ascending tuples, in strictly descending lexicographic order (`combination` explores "skip the
first remaining variable" before "choose it"), each followed by its block of choices: whenever
the combination of choice `i` is lexicographically greater than the combination of choice `j`,
`i < j`. -/
theorem combination_block_order (data : Data) (depth nThreads hardware : Nat)
    (hdepth : depth = 1 ∨ depth = 2 ∨ depth = 3) :
    ∃ e, SearchEngine.construct data depth nThreads hardware = (e, none) ∧
      e.choices_ = (List.sublistsLen depth (List.range data.nVar)).flatMap (fun vs =>
        (cutTuples (vs.map data.nCut)).map (Choice.mk vs)) ∧
      (List.sublistsLen depth (List.range data.nVar)).Pairwise
        (fun A B => List.Lex (fun a b => a < b) B A) ∧
      (∀ ch ∈ e.choices_, ch.vIdx.Sorted (fun a b => a < b)) ∧
      ∀ (i j : Nat) (hi : i < e.choices_.length) (hj : j < e.choices_.length),
        List.Lex (fun a b => a < b) e.choices_[j].vIdx e.choices_[i].vIdx → i < j := by
  refine ⟨_, construct_eq data depth nThreads hardware hdepth, rfl,
    sublistsLen_lex _ (List.pairwise_lt_range _) depth, ?_, ?_⟩
  · intro ch hch
    exact ((mem_enumeration_iff data depth ch).mp hch).2.2.1
  · intro i j hi hj hlex
    have hasymm := (List.Lex.isAsymm (fun a b : Nat => a < b)).asymm
    rcases Nat.lt_trichotomy i j with h | h | h
    · exact h
    · subst h
      exact absurd hlex (hasymm _ _ hlex)
    · rcases (List.pairwise_iff_getElem.mp (enumeration_order data depth)) j i hj hi h with
        heq | hlt
      · simp only at hlex
        rw [heq] at hlex
        exact absurd hlex (hasymm _ _ hlex)
      · exact absurd hlex (hasymm _ _ hlt)

/-- C19, concrete instance: with the cut counts `[2, 3, 4]` at depth 1 the ids 0-3 belong to
variable 2, the ids 4-6 to variable 1 and the ids 7-8 to variable 0; at depth 2 the three
variables give the order `[1, 2]`, `[0, 2]`, `[0, 1]`. -/
theorem combination_block_order_witness :
    ((1 : Nat) = 1 ∨ (1 : Nat) = 2 ∨ (1 : Nat) = 3) ∧
    (∃ e, SearchEngine.construct demoData 1 2 2 = (e, none) ∧
      e.choices_.map Choice.vIdx = [[2], [2], [2], [2], [1], [1], [1], [0], [0]]) ∧
    List.sublistsLen 2 (List.range demoData.nVar) = [[1, 2], [0, 2], [0, 1]] := by
  obtain ⟨e, he, h1, _⟩ := combination_block_order demoData 1 2 2 (by decide)
  refine ⟨by decide, ⟨e, he, ?_⟩, by decide⟩
  rw [h1]
  decide

end ITR
